import Mathlib

/-!
# SubTrackr: the subscription ledger engine of `src/SubscriptionManager.jsx`

A shallow embedding of the ledger operations (`addSubscription`,
`deleteSubscription`, `exportData`, `importData`), of the aggregation
functions (`calculateMonthlyTotal`, `calculateYearlyTotal`,
`calculateAnnualEquivalent`) and of the date functions (`parseLocalDate`,
`startOfToday`, `daysBetween`, `getDueLabel`, `getUpcomingRenewals`), together
with the parts of the JavaScript platform they rest on: IEEE-754 binary64
numbers, `parseFloat`, `Number`, `Number.prototype.toFixed`, `Number::toString`,
`Math.round`, `JSON.parse`, `JSON.stringify`, and the `Date` constructor over an
abstract time zone.
-/

namespace SubTrackr

/-! ## JavaScript strings -/

/-- A JavaScript string is its sequence of UTF-16 code units. -/
abbrev JSString := List Nat

/-- The UTF-16 code units of one Unicode scalar value. -/
def utf16Char (c : Nat) : List Nat :=
  if c < 65536 then [c] else [0xD800 + (c - 65536) / 1024, 0xDC00 + (c - 65536) % 1024]

/-- The JavaScript string written by a Lean string literal. -/
def utf16 (s : String) : JSString := s.toList.flatMap fun c => utf16Char c.toNat

/-! ## IEEE-754 binary64 -/

/-- A Number value. A finite value is `(-1)^neg * m * 2^e` in the canonical
binary64 form: `m < 2^53`, `-1074 ≤ e ≤ 971`, and `2^52 ≤ m` unless `e = -1074`
(subnormals and the two zeros). -/
inductive F64 where
  | nan
  | inf (neg : Bool)
  | fin (neg : Bool) (m : Nat) (e : Int)
deriving DecidableEq, Repr

namespace F64

/-- Number of binary digits of `n`, by halving (`fuel` bounds the recursion). -/
def bitLenAux : Nat → Nat → Nat
  | 0, _ => 0
  | fuel + 1, n => if n = 0 then 0 else bitLenAux fuel (n / 2) + 1

/-- Number of binary digits of `n`: the least `k` with `n < 2^k`. -/
def bitLen (n : Nat) : Nat := bitLenAux n n

/-- Whether `2^l ≤ n / d`, decided on naturals. -/
def geTwoPow (n d : Nat) (l : Int) : Bool :=
  decide (d * 2 ^ l.toNat ≤ n * 2 ^ (-l).toNat)

/-- The integer `floor (log2 (n / d))`, for positive `n` and `d`. -/
def floorLog2 (n d : Nat) : Int :=
  let l : Int := (bitLen n : Int) - (bitLen d : Int)
  if geTwoPow n d l then l else l - 1

/-- Round the positive rational `num / den * 2^e0` to `m * 2^e0` with the integer
`m` nearest to `num / den`, ties to even; a mantissa that reaches `2^53` moves
to the next exponent, and an exponent above 971 is infinity. -/
def roundScaled (neg : Bool) (e0 : Int) (num den : Nat) : F64 :=
  let q := num / den
  let r := num % den
  let up : Bool := decide (den < 2 * r) || (decide (2 * r = den) && decide (q % 2 = 1))
  let m := if up then q + 1 else q
  let m1 := if m = 2 ^ 53 then 2 ^ 52 else m
  let e1 : Int := if m = 2 ^ 53 then e0 + 1 else e0
  if 971 < e1 then inf neg else fin neg m1 e1

/-- Round the positive rational `n / d` to the nearest binary64 value, ties to
even; values too large round to infinity. The exponent is that of the binade of
`n / d`, and -1074 for subnormals. -/
def roundPos (neg : Bool) (n d : Nat) : F64 :=
  let e0 : Int := max (floorLog2 n d - 52) (-1074)
  roundScaled neg e0 (n * 2 ^ (-e0).toNat) (d * 2 ^ e0.toNat)

/-- The Number value of the rational `(-1)^neg * n / d` (`d` positive). -/
def ofRat (neg : Bool) (n d : Nat) : F64 :=
  if n = 0 then fin neg 0 (-1074) else roundPos neg n d

/-- The Number value of a natural number. -/
def ofNat (n : Nat) : F64 := ofRat false n 1

/-- Positive zero. -/
def zero : F64 := fin false 0 (-1074)

/-- Magnitude of a finite value in units of `2^-1074`. -/
def units (m : Nat) (e : Int) : Nat := m * 2 ^ (e + 1074).toNat

/-- Signed magnitude of a finite value in units of `2^-1074`. -/
def signedUnits (neg : Bool) (m : Nat) (e : Int) : Int :=
  if neg then -(units m e : Int) else (units m e : Int)

/-- The operator `+` on Numbers (`Number::add`). -/
def add : F64 → F64 → F64
  | nan, _ => nan
  | _, nan => nan
  | inf a, inf b => if a = b then inf a else nan
  | inf a, fin _ _ _ => inf a
  | fin _ _ _, inf b => inf b
  | fin s1 m1 e1, fin s2 m2 e2 =>
    let t : Int := signedUnits s1 m1 e1 + signedUnits s2 m2 e2
    if t = 0 then fin (s1 && s2 && decide (m1 = 0) && decide (m2 = 0)) 0 (-1074)
    else ofRat (decide (t < 0)) t.natAbs (2 ^ 1074)

/-- The operator `*` on Numbers (`Number::multiply`). -/
def mul : F64 → F64 → F64
  | nan, _ => nan
  | _, nan => nan
  | inf a, inf b => inf (xor a b)
  | inf a, fin s m _ => if m = 0 then nan else inf (xor a s)
  | fin s m _, inf b => if m = 0 then nan else inf (xor s b)
  | fin s1 m1 e1, fin s2 m2 e2 =>
    ofRat (xor s1 s2) (m1 * m2 * 2 ^ (e1 + e2).toNat) (2 ^ (-(e1 + e2)).toNat)

/-- The operator `/` on Numbers (`Number::divide`). -/
def div : F64 → F64 → F64
  | nan, _ => nan
  | _, nan => nan
  | inf _, inf _ => nan
  | inf a, fin s _ _ => inf (xor a s)
  | fin s _ _, inf b => fin (xor s b) 0 (-1074)
  | fin s1 m1 e1, fin s2 m2 e2 =>
    if m2 = 0 then (if m1 = 0 then nan else inf (xor s1 s2))
    else ofRat (xor s1 s2) (m1 * 2 ^ (e1 - e2).toNat) (m2 * 2 ^ (e2 - e1).toNat)

/-- The test `Number.isFinite` on a Number. -/
def isFinite : F64 → Bool
  | fin _ _ _ => true
  | _ => false

/-- Negative zero. -/
def negZero : F64 := fin true 0 (-1074)

/-- The canonical binary64 form of a finite value. -/
def CanonicalFin (m : Nat) (e : Int) : Prop :=
  m < 2 ^ 53 ∧ -1074 ≤ e ∧ e ≤ 971 ∧ (2 ^ 52 ≤ m ∨ e = -1074)

/-- A Number in canonical form; every Number computed by the operations is. -/
def Canonical : F64 → Prop
  | fin _ m e => CanonicalFin m e
  | _ => True

end F64

/-! ## Numbers as text: `parseFloat`, `toFixed`, `Number::toString` -/

/-- A decimal digit code unit. -/
def isDigit (c : Nat) : Bool := decide (48 ≤ c) && decide (c ≤ 57)

/-- White space and line terminators, as stripped by `TrimString`. -/
def isWhiteSpace (c : Nat) : Bool :=
  c = 9 || c = 10 || c = 11 || c = 12 || c = 13 || c = 32 || c = 0xA0 || c = 0x1680 ||
  (decide (0x2000 ≤ c) && decide (c ≤ 0x200A)) || c = 0x2028 || c = 0x2029 || c = 0x202F ||
  c = 0x205F || c = 0x3000 || c = 0xFEFF

/-- The natural number written by a run of decimal digits. -/
def digitsValue (ds : JSString) : Nat := ds.foldl (fun a c => 10 * a + (c - 48)) 0

/-- The value of an optional `ExponentPart` at the head of `s` (0 when there is
none): `e` or `E`, an optional sign, at least one digit. -/
def parseExponent (s : JSString) : Int :=
  match s with
  | [] => 0
  | c :: rest =>
    if c = 101 ∨ c = 69 then
      match rest with
      | 43 :: r => (digitsValue (r.takeWhile isDigit) : Int)
      | 45 :: r => -(digitsValue (r.takeWhile isDigit) : Int)
      | r => (digitsValue (r.takeWhile isDigit) : Int)
    else 0

/-- The Number `(-1)^neg * n * 10^ex`. -/
def F64.ofDecimal (neg : Bool) (n : Nat) (ex : Int) : F64 :=
  F64.ofRat neg (n * 10 ^ ex.toNat) (10 ^ (-ex).toNat)

/-- The longest prefix of `s` that is a `StrUnsignedDecimalLiteral`, as a Number
of the given sign; `NaN` when there is none. -/
def parseUnsigned (neg : Bool) (s : JSString) : F64 :=
  if (utf16 "Infinity").isPrefixOf s then F64.inf neg
  else
    let ip := s.takeWhile isDigit
    match s.dropWhile isDigit with
    | 46 :: r =>
      let fp := r.takeWhile isDigit
      if ip = [] ∧ fp = [] then F64.nan
      else F64.ofDecimal neg (digitsValue (ip ++ fp))
        (parseExponent (r.dropWhile isDigit) - (fp.length : Int))
    | rest =>
      if ip = [] then F64.nan
      else F64.ofDecimal neg (digitsValue ip) (parseExponent rest)

/-- The global function `parseFloat` applied to a string. -/
def parseFloatString (s : JSString) : F64 :=
  match s.dropWhile isWhiteSpace with
  | 43 :: r => parseUnsigned false r
  | 45 :: r => parseUnsigned true r
  | r => parseUnsigned false r

/-- Decimal digits of `n`, most significant first, prepended to `acc`. -/
def natDigitsAux : Nat → Nat → JSString → JSString
  | 0, _, acc => acc
  | fuel + 1, n, acc =>
    if n < 10 then (48 + n) :: acc else natDigitsAux fuel (n / 10) ((48 + n % 10) :: acc)

/-- The decimal representation of a natural number. -/
def natDigits (n : Nat) : JSString := natDigitsAux (n + 1) n []

/-- The rational magnitude of a finite Number, as numerator and denominator. -/
def F64.magnitude (m : Nat) (e : Int) : Nat × Nat := (m * 2 ^ e.toNat, 2 ^ (-e).toNat)

/-- The least `j` from `j` on with `den ≤ num * 10^j` (`fuel` bounds the search). -/
def leadScale (num den : Nat) : Nat → Nat → Nat
  | 0, j => j
  | fuel + 1, j => if den ≤ num * 10 ^ j then j else leadScale num den fuel (j + 1)

/-- The integer `n` with `10^(n-1) ≤ num / den < 10^n`, for a positive rational. -/
def decimalExponent (num den : Nat) : Int :=
  if den ≤ num then ((natDigits (num / den)).length : Int)
  else 1 - (leadScale num den (F64.bitLen den + 1) 0 : Int)

/-- Search, from `k` digits on, for the shortest decimal `s * 10^(n-k)` whose
Number value is `x = num / den`; among the two `k`-digit neighbours of `x` the
one closer to `x` is taken, the even one on a tie. Returns `(s, k, n)`. -/
def shortestDigitsAux (x : F64) (num den : Nat) (n0 : Int) : Nat → Nat → Nat × Nat × Int
  | 0, k => ((num * 10 ^ ((k : Int) - n0).toNat) / (den * 10 ^ (n0 - (k : Int)).toNat), k, n0)
  | fuel + 1, k =>
    let ex : Int := n0 - (k : Int)
    let sn := num * 10 ^ (-ex).toNat
    let sd := den * 10 ^ ex.toNat
    let lo := sn / sd
    let r := sn % sd
    let hi := lo + 1
    let okLo : Bool := decide (F64.ofDecimal false lo ex = x)
    let okHi : Bool := decide (r ≠ 0) && decide (F64.ofDecimal false hi ex = x)
    let pickHi : Bool := decide (sd < 2 * r) || (decide (2 * r = sd) && decide (hi % 2 = 0))
    let found (s : Nat) : Nat × Nat × Int :=
      if s = 10 ^ k then (10 ^ (k - 1), k, n0 + 1) else (s, k, n0)
    if okLo && okHi then found (if pickHi then hi else lo)
    else if okLo then found lo
    else if okHi then found hi
    else shortestDigitsAux x num den n0 fuel (k + 1)

/-- The triple `(s, k, n)` of `Number::toString` for a positive finite Number. -/
def shortestDigits (m : Nat) (e : Int) : Nat × Nat × Int :=
  let mag := F64.magnitude m e
  shortestDigitsAux (F64.fin false m e) mag.1 mag.2 (decimalExponent mag.1 mag.2) 17 1

/-- The text of a positive finite Number from its digit triple (`Number::toString`,
radix 10, steps 6 to 10). -/
def formatDigits (s k : Nat) (n : Int) : JSString :=
  let ds := natDigits s
  if (k : Int) ≤ n ∧ n ≤ 21 then ds ++ List.replicate (n - (k : Int)).toNat 48
  else if 0 < n ∧ n ≤ 21 then ds.take n.toNat ++ [46] ++ ds.drop n.toNat
  else if -6 < n ∧ n ≤ 0 then [48, 46] ++ List.replicate (-n).toNat 48 ++ ds
  else
    let ex := n - 1
    let tail := [101, if ex < 0 then 45 else 43] ++ natDigits ex.natAbs
    if k = 1 then ds ++ tail else ds.take 1 ++ [46] ++ ds.drop 1 ++ tail

/-- The abstract operation `Number::toString` with radix 10. -/
def numberToString : F64 → JSString
  | F64.nan => utf16 "NaN"
  | F64.inf neg => if neg then utf16 "-Infinity" else utf16 "Infinity"
  | F64.fin neg m e =>
    if m = 0 then [48]
    else
      let t := shortestDigits m e
      (if neg then [45] else []) ++ formatDigits t.1 t.2.1 t.2.2

/-- The method `Number.prototype.toFixed` with `f` fraction digits (`f ≤ 100`). -/
def toFixed (x : F64) (f : Nat) : JSString :=
  match x with
  | F64.fin neg m e =>
    let mag := F64.magnitude m e
    let sign : JSString := if neg ∧ m ≠ 0 then [45] else []
    if 10 ^ 21 * mag.2 ≤ mag.1 then sign ++ numberToString (F64.fin false m e)
    else
      let n := (2 * mag.1 * 10 ^ f + mag.2) / (2 * mag.2)
      let ds := natDigits n
      let padded := List.replicate (f + 1 - ds.length) 48 ++ ds
      if f = 0 then sign ++ ds
      else sign ++ padded.take (padded.length - f) ++ [46] ++ padded.drop (padded.length - f)
  | _ => numberToString x

/-! ## JavaScript values held by the ledger -/

/-- The values that `JSON.parse` and the form produce: `null`, booleans, Numbers,
strings, arrays and plain objects (own properties in order). The value
`undefined` is the absence of a property (`none` of `Option JSValue`). -/
inductive JSValue where
  | null
  | bool (b : Bool)
  | num (x : F64)
  | str (s : JSString)
  | arr (xs : List JSValue)
  | obj (props : List (JSString × JSValue))
deriving Repr

/-- A plain object: its own enumerable properties, in property order. -/
abbrev Record := List (JSString × JSValue)

/-- The ledger: the array held by the `subscriptions` state. -/
abbrev Ledger := List Record

mutual
/-- Decidable equality of values. -/
def JSValue.decEq : (a b : JSValue) → Decidable (a = b)
  | .null, .null => isTrue rfl
  | .bool a, .bool b =>
    if h : a = b then isTrue (by rw [h]) else isFalse (by intro h2; cases h2; exact h rfl)
  | .num a, .num b =>
    if h : a = b then isTrue (by rw [h]) else isFalse (by intro h2; cases h2; exact h rfl)
  | .str a, .str b =>
    if h : a = b then isTrue (by rw [h]) else isFalse (by intro h2; cases h2; exact h rfl)
  | .arr a, .arr b =>
    match JSValue.decEqList a b with
    | isTrue h => isTrue (by rw [h])
    | isFalse h => isFalse (by intro h2; cases h2; exact h rfl)
  | .obj a, .obj b =>
    match JSValue.decEqProps a b with
    | isTrue h => isTrue (by rw [h])
    | isFalse h => isFalse (by intro h2; cases h2; exact h rfl)
  | .null, .bool _ | .null, .num _ | .null, .str _ | .null, .arr _ | .null, .obj _
  | .bool _, .null | .bool _, .num _ | .bool _, .str _ | .bool _, .arr _ | .bool _, .obj _
  | .num _, .null | .num _, .bool _ | .num _, .str _ | .num _, .arr _ | .num _, .obj _
  | .str _, .null | .str _, .bool _ | .str _, .num _ | .str _, .arr _ | .str _, .obj _
  | .arr _, .null | .arr _, .bool _ | .arr _, .num _ | .arr _, .str _ | .arr _, .obj _
  | .obj _, .null | .obj _, .bool _ | .obj _, .num _ | .obj _, .str _ | .obj _, .arr _ =>
    isFalse (by intro h; cases h)
/-- Decidable equality of lists of values. -/
def JSValue.decEqList : (a b : List JSValue) → Decidable (a = b)
  | [], [] => isTrue rfl
  | [], _ :: _ | _ :: _, [] => isFalse (by intro h; cases h)
  | a :: as, b :: bs =>
    match JSValue.decEq a b, JSValue.decEqList as bs with
    | isTrue h1, isTrue h2 => isTrue (by rw [h1, h2])
    | isFalse h, _ => isFalse (by intro h2; cases h2; exact h rfl)
    | _, isFalse h => isFalse (by intro h2; cases h2; exact h rfl)
/-- Decidable equality of property lists. -/
def JSValue.decEqProps : (a b : List (JSString × JSValue)) → Decidable (a = b)
  | [], [] => isTrue rfl
  | [], _ :: _ | _ :: _, [] => isFalse (by intro h; cases h)
  | (k, a) :: as, (l, b) :: bs =>
    if hk : k = l then
      match JSValue.decEq a b, JSValue.decEqProps as bs with
      | isTrue h1, isTrue h2 => isTrue (by rw [hk, h1, h2])
      | isFalse h, _ => isFalse (by intro h2; cases h2; exact h rfl)
      | _, isFalse h => isFalse (by intro h2; cases h2; exact h rfl)
    else isFalse (by intro h2; cases h2; exact hk rfl)
end

instance : DecidableEq JSValue := JSValue.decEq

/-- Property read `o.k` on a plain object: the own property, else `undefined`
(`none`). None of the keys read by the program is on `Object.prototype`. -/
def getProp (o : Record) (k : JSString) : Option JSValue :=
  match o with
  | [] => none
  | (k1, v) :: rest => if k1 = k then some v else getProp rest k

/-- Whether the object has an own property `k`. -/
def hasProp (o : Record) (k : JSString) : Bool := (getProp o k).isSome

mutual
/-- The abstract operation `ToString` on a value; `none` is a thrown `TypeError`.
An array is joined with commas (`null` elements as the empty string); a plain
object is `[object Object]` unless an own property `toString` shadows the
inherited method, in which case no conversion method is callable and
`OrdinaryToPrimitive` throws. -/
def toStringJS : JSValue → Option JSString
  | .null => some (utf16 "null")
  | .bool b => some (if b then utf16 "true" else utf16 "false")
  | .num x => some (numberToString x)
  | .str s => some s
  | .arr xs => joinJS xs
  | .obj props => if hasProp props (utf16 "toString") then none else some (utf16 "[object Object]")
/-- The method `Array.prototype.join` with the separator `,`. -/
def joinJS : List JSValue → Option JSString
  | [] => some []
  | [x] => elementString x
  | x :: y :: rest =>
    match elementString x, joinJS (y :: rest) with
    | some a, some b => some (a ++ [44] ++ b)
    | _, _ => none
/-- The text of one array element in `join`. -/
def elementString : JSValue → Option JSString
  | .null => some []
  | .bool b => some (if b then utf16 "true" else utf16 "false")
  | .num x => some (numberToString x)
  | .str s => some s
  | .arr xs => joinJS xs
  | .obj props => if hasProp props (utf16 "toString") then none else some (utf16 "[object Object]")
end

/-- The global function `parseFloat` on a property read; `none` is a thrown
`TypeError` (from `ToString`). -/
def parseFloatJS : Option JSValue → Option F64
  | none => some F64.nan
  | some v => (toStringJS v).map parseFloatString

/-! ## Aggregation engine -/

/-- The callback of `reduce` in `calculateMonthlyTotal`. -/
def monthlyStep (total : F64) (sub : Record) : Option F64 :=
  match parseFloatJS (getProp sub (utf16 "cost")) with
  | none => none
  | some cost =>
    if !cost.isFinite then some total
    else if getProp sub (utf16 "billingCycle") = some (.str (utf16 "monthly")) then
      some (total.add cost)
    else if getProp sub (utf16 "billingCycle") = some (.str (utf16 "yearly")) then
      some (total.add (cost.div (F64.ofNat 12)))
    else some total

/-- The callback of `reduce` in `calculateYearlyTotal`. -/
def yearlyStep (total : F64) (sub : Record) : Option F64 :=
  match parseFloatJS (getProp sub (utf16 "cost")) with
  | none => none
  | some cost =>
    if !cost.isFinite then some total
    else if getProp sub (utf16 "billingCycle") = some (.str (utf16 "monthly")) then
      some (total.add (cost.mul (F64.ofNat 12)))
    else if getProp sub (utf16 "billingCycle") = some (.str (utf16 "yearly")) then
      some (total.add cost)
    else some total

/-- The method `Array.prototype.reduce` with a callback that may throw. -/
def reduceJS {α β : Type} (f : β → α → Option β) : List α → β → Option β
  | [], acc => some acc
  | x :: xs, acc =>
    match f acc x with
    | none => none
    | some acc1 => reduceJS f xs acc1

/-- The function `calculateMonthlyTotal` over the ledger `subscriptions`; `none`
is a thrown `TypeError`. -/
def calculateMonthlyTotal (subscriptions : Ledger) : Option JSString :=
  (reduceJS monthlyStep subscriptions F64.zero).map fun total => toFixed total 2

/-- The function `calculateYearlyTotal` over the ledger `subscriptions`. -/
def calculateYearlyTotal (subscriptions : Ledger) : Option JSString :=
  (reduceJS yearlyStep subscriptions F64.zero).map fun total => toFixed total 2

/-- The function `calculateAnnualEquivalent`. -/
def calculateAnnualEquivalent (sub : Record) : Option JSString :=
  match parseFloatJS (getProp sub (utf16 "cost")) with
  | none => none
  | some cost =>
    if !cost.isFinite then some (utf16 "0.00")
    else if getProp sub (utf16 "billingCycle") = some (.str (utf16 "monthly")) then
      some (toFixed (cost.mul (F64.ofNat 12)) 2)
    else if getProp sub (utf16 "billingCycle") = some (.str (utf16 "yearly")) then
      some (toFixed cost 2)
    else some (utf16 "0.00")

/-! ## Ledger store -/

/-- The abstract operation `ToBoolean` on a property read. -/
def truthy : Option JSValue → Bool
  | none => false
  | some .null => false
  | some (.bool b) => b
  | some (.num (.fin _ m _)) => decide (m ≠ 0)
  | some (.num .nan) => false
  | some (.num (.inf _)) => true
  | some (.str s) => decide (s ≠ [])
  | some (.arr _) => true
  | some (.obj _) => true

/-- Equality of Numbers (`Number::equal`): `NaN` equals nothing, the two zeros
are equal. -/
def F64.equal : F64 → F64 → Bool
  | .nan, _ => false
  | _, .nan => false
  | .fin s1 m1 e1, .fin s2 m2 e2 =>
    (decide (m1 = 0) && decide (m2 = 0)) || decide (F64.fin s1 m1 e1 = F64.fin s2 m2 e2)
  | a, b => decide (a = b)

/-- The operator `===` on two property reads. Primitive values are compared by
type and value. Arrays and objects are compared by identity, which the values of
the model do not carry: two array or object values stand for two distinct
objects, so the comparison is `false`. This is the case whenever the two come
from different places, as the ids of two records of the ledger do (each is built
by its own `JSON.parse`); the one call in which an object meets itself, the
click on the card of a record whose id is an array or an object, is
`deleteCard`. -/
def strictEq : Option JSValue → Option JSValue → Bool
  | none, none => true
  | some .null, some .null => true
  | some (.bool a), some (.bool b) => a == b
  | some (.num a), some (.num b) => F64.equal a b
  | some (.str a), some (.str b) => a == b
  | _, _ => false

/-- The value is a primitive or absent: it is neither an array nor an object. -/
def isPrimitive : Option JSValue → Bool
  | some (.arr _) => false
  | some (.obj _) => false
  | _ => true

/-- Replace the value of the own property `k`, keeping its position. -/
def replaceProp (o : Record) (k : JSString) (v : JSValue) : Record :=
  match o with
  | [] => []
  | (k1, v1) :: rest => if k1 = k then (k1, v) :: rest else (k1, v1) :: replaceProp rest k v

/-- The array index written by a property key, if it is one: a canonical
decimal numeral below `2^32 - 1`. -/
def arrayIndex (k : JSString) : Option Nat :=
  if k ≠ [] ∧ k.all isDigit ∧ (k.head? ≠ some 48 ∨ k.length = 1) ∧ digitsValue k < 4294967295
  then some (digitsValue k) else none

/-- Insert a new array-index property in ascending index order, before the
string keys. -/
def insertIndexProp (o : Record) (n : Nat) (k : JSString) (v : JSValue) : Record :=
  match o with
  | [] => [(k, v)]
  | (k1, v1) :: rest =>
    match arrayIndex k1 with
    | some n1 => if n < n1 then (k, v) :: (k1, v1) :: rest
                 else (k1, v1) :: insertIndexProp rest n k v
    | none => (k, v) :: (k1, v1) :: rest

/-- The operation `CreateDataProperty` on a plain object: an existing property
keeps its place and takes the new value; a new one is added in property order
(array indices ascending, then strings in creation order). -/
def defineProp (o : Record) (k : JSString) (v : JSValue) : Record :=
  if hasProp o k then replaceProp o k v
  else
    match arrayIndex k with
    | some n => insertIndexProp o n k v
    | none => o ++ [(k, v)]

/-- The index properties `0, 1, ...` of a list of values, from index `i` on. -/
def indexProps : Nat → List JSValue → Record
  | _, [] => []
  | i, x :: xs => (natDigits i, x) :: indexProps (i + 1) xs

/-- The own enumerable properties copied by a spread `{...s}`: those of a plain
object, the elements of an array, the code units of a string, and none for
`null`, a boolean or a Number. -/
def spreadProps : JSValue → Record
  | .obj props => props
  | .arr xs => indexProps 0 xs
  | .str s => indexProps 0 (s.map fun c => .str [c])
  | _ => []

/-- The state variables of the component that the ledger operations touch. -/
structure AppState where
  subscriptions : Ledger
  formData : Record
  showForm : Bool
deriving DecidableEq

/-- The empty form. -/
def emptyForm : Record :=
  [(utf16 "name", .str []), (utf16 "cost", .str []),
   (utf16 "billingCycle", .str (utf16 "monthly")), (utf16 "nextBilling", .str []),
   (utf16 "category", .str (utf16 "entertainment"))]

/-- The state of a freshly mounted component. -/
def initialState : AppState := { subscriptions := [], formData := emptyForm, showForm := false }

/-- The function `addSubscription`, at the clock reading `now` (`Date.now()`, in
milliseconds). -/
def addSubscription (now : Nat) (st : AppState) : AppState :=
  if truthy (getProp st.formData (utf16 "name")) && truthy (getProp st.formData (utf16 "cost"))
      && truthy (getProp st.formData (utf16 "nextBilling")) then
    { subscriptions :=
        st.subscriptions ++ [defineProp st.formData (utf16 "id") (.num (F64.ofNat now))],
      formData := emptyForm,
      showForm := false }
  else st

/-- The function `deleteSubscription`. An array or object given as `id` is an
object of its own, identical to the id of no record (see `strictEq`). -/
def deleteSubscription (id : Option JSValue) (st : AppState) : AppState :=
  { st with subscriptions :=
      st.subscriptions.filter fun sub => !strictEq (getProp sub (utf16 "id")) id }

/-- The click on the delete button of the card of record `i`, the one caller of
`deleteSubscription`: `deleteSubscription(sub.id)`. When the id of the record is
an array or an object, it is identical to itself and to the id of no other
record, and the filter drops record `i` alone. -/
def deleteCard (i : Nat) (st : AppState) : AppState :=
  match st.subscriptions.get? i with
  | none => st
  | some sub =>
    if isPrimitive (getProp sub (utf16 "id")) then deleteSubscription (getProp sub (utf16 "id")) st
    else { st with subscriptions := st.subscriptions.eraseIdx i }

/-! ## The built-ins `JSON.parse` and `JSON.stringify` -/

/-- JSON white space: space, tab, line feed, carriage return. -/
def isJsonWs (c : Nat) : Bool := c = 32 || c = 9 || c = 10 || c = 13

/-- Drop leading JSON white space. -/
def skipWs (s : JSString) : JSString := s.dropWhile isJsonWs

/-- The value of a hexadecimal digit. -/
def hexValue (c : Nat) : Option Nat :=
  if 48 ≤ c ∧ c ≤ 57 then some (c - 48)
  else if 97 ≤ c ∧ c ≤ 102 then some (c - 87)
  else if 65 ≤ c ∧ c ≤ 70 then some (c - 55)
  else none

/-- The code unit written by a one-letter escape. -/
def unescape (c : Nat) : Option Nat :=
  if c = 34 then some 34 else if c = 92 then some 92 else if c = 47 then some 47
  else if c = 98 then some 8 else if c = 102 then some 12 else if c = 110 then some 10
  else if c = 114 then some 13 else if c = 116 then some 9 else none

/-- Parse the rest of a JSON string after its opening quote: the string and the
input after the closing quote. -/
def parseStringBody : JSString → Option (JSString × JSString)
  | [] => none
  | c :: rest =>
    if c = 34 then some ([], rest)
    else if c = 92 then
      match rest with
      | [] => none
      | e :: rest2 =>
        if e = 117 then
          match rest2 with
          | a :: b :: c2 :: d :: rest3 =>
            match hexValue a, hexValue b, hexValue c2, hexValue d with
            | some x, some y, some z, some w =>
              (parseStringBody rest3).map fun p => ((x * 4096 + y * 256 + z * 16 + w) :: p.1, p.2)
            | _, _, _, _ => none
          | _ => none
        else
          match unescape e with
          | some u => (parseStringBody rest2).map fun p => (u :: p.1, p.2)
          | none => none
    else if c < 32 then none
    else (parseStringBody rest).map fun p => (c :: p.1, p.2)

/-- The integer part of a JSON number: `0`, or a digit run without leading zero. -/
def takeIntPart (s : JSString) : JSString :=
  match s with
  | [] => []
  | c :: _ => if c = 48 then [48] else s.takeWhile isDigit

/-- The fraction digits of a JSON number at the head of `s` (after the integer
part): a dot and at least one digit. -/
def takeFraction (s : JSString) : JSString :=
  match s with
  | [] => []
  | c :: rest => if c = 46 then rest.takeWhile isDigit else []

/-- The exponent part of a JSON number at the head of `s`: its value and the
number of code units it takes (0 when there is none). -/
def takeExponent (s : JSString) : Int × Nat :=
  match s with
  | [] => (0, 0)
  | c :: rest =>
    if c = 101 ∨ c = 69 then
      match rest with
      | [] => (0, 0)
      | g :: r =>
        if g = 43 then
          (if r.takeWhile isDigit = [] then (0, 0)
           else ((digitsValue (r.takeWhile isDigit) : Int), 2 + (r.takeWhile isDigit).length))
        else if g = 45 then
          (if r.takeWhile isDigit = [] then (0, 0)
           else (-(digitsValue (r.takeWhile isDigit) : Int), 2 + (r.takeWhile isDigit).length))
        else
          (if rest.takeWhile isDigit = [] then (0, 0)
           else ((digitsValue (rest.takeWhile isDigit) : Int), 1 + (rest.takeWhile isDigit).length))
    else (0, 0)

/-- Parse an unsigned JSON number at the head of `s`. -/
def parseUnsignedNumber (neg : Bool) (s : JSString) : Option (F64 × JSString) :=
  let ip := takeIntPart s
  if ip = [] then none
  else
    let r1 := s.drop ip.length
    let fp := takeFraction r1
    let r2 := if fp = [] then r1 else r1.drop (fp.length + 1)
    let ex := takeExponent r2
    some (F64.ofDecimal neg (digitsValue (ip ++ fp)) (ex.1 - (fp.length : Int)), r2.drop ex.2)

/-- Parse a JSON number at the head of `s`: an optional minus sign and an
unsigned number. -/
def parseNumber (s : JSString) : Option (F64 × JSString) :=
  match s with
  | [] => none
  | c :: rest => if c = 45 then parseUnsignedNumber true rest else parseUnsignedNumber false s

mutual
/-- Parse one JSON value at the head of `s` (no leading white space): the value
and the rest of the input. `fuel` bounds the recursion. -/
def parseValue : Nat → JSString → Option (JSValue × JSString)
  | 0, _ => none
  | fuel + 1, s =>
    match s with
    | [] => none
    | c :: rest =>
      if c = 123 then
        (match skipWs rest with
         | [] => none
         | d :: rest2 =>
           if d = 125 then some (.obj [], rest2) else parseMembers fuel (d :: rest2) [])
      else if c = 91 then
        (match skipWs rest with
         | [] => none
         | d :: rest2 =>
           if d = 93 then some (.arr [], rest2) else parseElements fuel (d :: rest2) [])
      else if c = 34 then (parseStringBody rest).map fun p => (.str p.1, p.2)
      else if [116, 114, 117, 101].isPrefixOf s then some (.bool true, s.drop 4)
      else if [102, 97, 108, 115, 101].isPrefixOf s then some (.bool false, s.drop 5)
      else if [110, 117, 108, 108].isPrefixOf s then some (.null, s.drop 4)
      else (parseNumber s).map fun p => (.num p.1, p.2)
/-- Parse the elements of a non-empty array up to the closing bracket; `acc`
holds the elements read so far, last first. -/
def parseElements : Nat → JSString → List JSValue → Option (JSValue × JSString)
  | 0, _, _ => none
  | fuel + 1, s, acc =>
    match parseValue fuel s with
    | none => none
    | some (v, r) =>
      match skipWs r with
      | [] => none
      | d :: r2 =>
        if d = 44 then parseElements fuel (skipWs r2) (v :: acc)
        else if d = 93 then some (.arr (v :: acc).reverse, r2)
        else none
/-- Parse the members of a non-empty object up to the closing brace; `acc` is
the object built so far. -/
def parseMembers : Nat → JSString → Record → Option (JSValue × JSString)
  | 0, _, _ => none
  | fuel + 1, s, acc =>
    match s with
    | [] => none
    | q :: s1 =>
      if q = 34 then
        match parseStringBody s1 with
        | none => none
        | some (k, r) =>
          match skipWs r with
          | [] => none
          | colon :: r1 =>
            if colon = 58 then
              match parseValue fuel (skipWs r1) with
              | none => none
              | some (v, r2) =>
                match skipWs r2 with
                | [] => none
                | d :: r3 =>
                  if d = 44 then parseMembers fuel (skipWs r3) (defineProp acc k v)
                  else if d = 125 then some (.obj (defineProp acc k v), r3)
                  else none
            else none
      else none
end

/-- The built-in `JSON.parse` (without reviver); `none` is a thrown
`SyntaxError`. -/
def jsonParse (text : JSString) : Option JSValue :=
  match parseValue (2 * text.length + 2) (skipWs text) with
  | none => none
  | some (v, r) => if skipWs r = [] then some v else none

/-- A lowercase hexadecimal digit. -/
def hexDigit (n : Nat) : Nat := if n < 10 then 48 + n else 87 + n

/-- The escape `\uXXXX` of a code unit. -/
def unicodeEscape (c : Nat) : JSString :=
  [92, 117, hexDigit (c / 4096 % 16), hexDigit (c / 256 % 16), hexDigit (c / 16 % 16),
   hexDigit (c % 16)]

/-- The characters of `QuoteJSONString` between the quotes: the short escapes,
`\u` escapes for other control characters and for lone surrogates, and every
other character as it is. `afterHigh` tells that the previous code unit was a
high surrogate written as it is, whose pair the next low surrogate completes. -/
def quoteBodyAux : Bool → JSString → JSString
  | _, [] => []
  | afterHigh, c :: rest =>
    if c = 8 then [92, 98] ++ quoteBodyAux false rest
    else if c = 9 then [92, 116] ++ quoteBodyAux false rest
    else if c = 10 then [92, 110] ++ quoteBodyAux false rest
    else if c = 12 then [92, 102] ++ quoteBodyAux false rest
    else if c = 13 then [92, 114] ++ quoteBodyAux false rest
    else if c = 34 then [92, 34] ++ quoteBodyAux false rest
    else if c = 92 then [92, 92] ++ quoteBodyAux false rest
    else if c < 32 then unicodeEscape c ++ quoteBodyAux false rest
    else if 0xD800 ≤ c ∧ c ≤ 0xDBFF then
      (if (rest.head?.any fun d => decide (0xDC00 ≤ d) && decide (d ≤ 0xDFFF)) then
        c :: quoteBodyAux true rest
      else unicodeEscape c ++ quoteBodyAux false rest)
    else if 0xDC00 ≤ c ∧ c ≤ 0xDFFF then
      (if afterHigh then c :: quoteBodyAux false rest
      else unicodeEscape c ++ quoteBodyAux false rest)
    else c :: quoteBodyAux false rest

/-- The abstract operation `QuoteJSONString`. -/
def quoteJSON (s : JSString) : JSString := [34] ++ quoteBodyAux false s ++ [34]

/-- A line break followed by `n` spaces of indentation. -/
def newline (n : Nat) : JSString := 10 :: List.replicate n 32

mutual
/-- The text of a value in `JSON.stringify(value, null, 2)`, at the indentation
`indent` (`SerializeJSONProperty`). -/
def serializeValue (indent : Nat) : JSValue → JSString
  | .null => [110, 117, 108, 108]
  | .bool b => if b then [116, 114, 117, 101] else [102, 97, 108, 115, 101]
  | .num x => if x.isFinite then numberToString x else [110, 117, 108, 108]
  | .str s => quoteJSON s
  | .arr [] => [91, 93]
  | .arr (x :: xs) =>
    [91] ++ newline (indent + 2) ++ serializeElements (indent + 2) (x :: xs) ++ newline indent
      ++ [93]
  | .obj [] => [123, 125]
  | .obj (p :: ps) =>
    [123] ++ newline (indent + 2) ++ serializeMembers (indent + 2) (p :: ps) ++ newline indent
      ++ [125]
/-- The elements of an array, separated by a comma and a line break. -/
def serializeElements (indent : Nat) : List JSValue → JSString
  | [] => []
  | [x] => serializeValue indent x
  | x :: y :: rest =>
    serializeValue indent x ++ [44] ++ newline indent ++ serializeElements indent (y :: rest)
/-- The members of an object, separated by a comma and a line break. -/
def serializeMembers (indent : Nat) : Record → JSString
  | [] => []
  | [(k, v)] => quoteJSON k ++ [58, 32] ++ serializeValue indent v
  | (k, v) :: q :: rest =>
    quoteJSON k ++ [58, 32] ++ serializeValue indent v ++ [44] ++ newline indent
      ++ serializeMembers indent (q :: rest)
end

/-- The call `JSON.stringify(value, null, 2)`. -/
def jsonStringify (v : JSValue) : JSString := serializeValue 0 v

/-- The Number is finite and `JSON.parse` reads it back from the text that
`JSON.stringify` writes for it, before a comma or a line break. ECMAScript
chooses the digits of `Number::toString` so that they have the Number as value,
which makes this true of every finite Number but negative zero (written `0`);
a Number that is not finite is written `null`. -/
def ReadsBackNumber (x : F64) : Prop :=
  x.isFinite = true ∧
    ∀ c rest, c = 44 ∨ c = 10 → parseNumber (numberToString x ++ c :: rest) = some (x, c :: rest)

/-- The property list is that of an object: defining its properties one after
the other on the empty object gives the list itself. This rules out a key that
occurs twice and an array index that follows a larger one or a string key. -/
def InPropertyOrder (props : Record) : Prop :=
  props.foldl (fun acc p => defineProp acc p.1 p.2) [] = props

mutual
/-- The value is one that `JSON.parse` reads back from its `JSON.stringify`
text: its Numbers are read back and its objects hold their properties in
property order. -/
def JSValue.ReadsBack : JSValue → Prop
  | .null => True
  | .bool _ => True
  | .num x => ReadsBackNumber x
  | .str _ => True
  | .arr xs => JSValue.ReadsBackList xs
  | .obj props => InPropertyOrder props ∧ JSValue.ReadsBackProps props
/-- Every value of the list is read back. -/
def JSValue.ReadsBackList : List JSValue → Prop
  | [] => True
  | x :: xs => JSValue.ReadsBack x ∧ JSValue.ReadsBackList xs
/-- Every property value is read back. -/
def JSValue.ReadsBackProps : List (JSString × JSValue) → Prop
  | [] => True
  | (_, v) :: ps => JSValue.ReadsBack v ∧ JSValue.ReadsBackProps ps
end

mutual
/-- The recursion depth that parsing the text of a value takes. -/
def JSValue.need : JSValue → Nat
  | .arr xs => JSValue.needList xs + 1
  | .obj props => JSValue.needProps props + 1
  | _ => 1
/-- The recursion depth that parsing the elements of an array takes. -/
def JSValue.needList : List JSValue → Nat
  | [] => 0
  | x :: xs => JSValue.need x + JSValue.needList xs + 1
/-- The recursion depth that parsing the members of an object takes. -/
def JSValue.needProps : List (JSString × JSValue) → Nat
  | [] => 0
  | (_, v) :: ps => JSValue.need v + JSValue.needProps ps + 1
end

/-! ## Backup codec -/

/-- The ledger as the array value it is. -/
def ledgerValue (subscriptions : Ledger) : JSValue := .arr (subscriptions.map .obj)

/-- The function `exportData`: the text of the downloaded backup file. -/
def exportData (st : AppState) : JSString := jsonStringify (ledgerValue st.subscriptions)

/-- The source of new ids during one import: the `i`-th evaluation of
`Date.now() + Math.random()` reads the clock (milliseconds) and the random
Number given by `env i`. -/
abbrev IdSource := Nat → Nat × F64

/-- The id drawn at the `i`-th evaluation of `Date.now() + Math.random()`. -/
def freshId (env : IdSource) (i : Nat) : JSValue :=
  .num ((F64.ofNat (env i).1).add (env i).2)

/-- The property read `s.id` on an element of the parsed array (never called on
`null`): only a plain object can have an own property `id`. -/
def elementId : JSValue → Option JSValue
  | .obj props => getProp props (utf16 "id")
  | _ => none

/-- The callback of `parsed.map` over the whole array: each element becomes
`{...s, id: s.id ?? Date.now() + Math.random()}`; `none` is the `TypeError`
thrown by `s.id` when `s` is `null`. `i` counts the ids drawn so far. -/
def withIds (env : IdSource) : Nat → List JSValue → Option Ledger
  | _, [] => some []
  | i, s :: rest =>
    match s with
    | .null => none
    | _ =>
      match elementId s with
      | none | some .null =>
        (withIds env (i + 1) rest).map fun l =>
          defineProp (spreadProps s) (utf16 "id") (freshId env i) :: l
      | some v =>
        (withIds env i rest).map fun l => defineProp (spreadProps s) (utf16 "id") v :: l

/-- The function `importData` with the load handler of its reader run on the
text of the chosen file (`none`: no file chosen). Returns the new state and the
alert shown, if any. -/
def importData (env : IdSource) (file : Option JSString) (st : AppState) :
    AppState × Option JSString :=
  match file with
  | none => (st, none)
  | some result =>
    match jsonParse (if result = [] then [91, 93] else result) with
    | some (.arr parsed) =>
      (match withIds env 0 parsed with
       | some l => ({ st with subscriptions := l }, none)
       | none => (st, some (utf16 "Invalid backup file.")))
    | _ => (st, some (utf16 "Invalid backup file."))

/-! ## The aggregation rules in the words of the specification -/

/-- The Number that `parseFloat(sub.cost)` gives; `none` when it throws. -/
def parsedCost (sub : Record) : Option F64 := parseFloatJS (getProp sub (utf16 "cost"))

/-- The cost of the record can be read: `parseFloat(sub.cost)` does not throw.
This holds when `cost` is absent or is a string, a Number, a boolean or `null`,
the values of the data model among them (see `costReadable_of_primitive`). -/
def CostReadable (sub : Record) : Prop := parsedCost sub ≠ none

instance (sub : Record) : Decidable (CostReadable sub) := by
  unfold CostReadable; infer_instance

/-- The cost of the record parses to a finite number. -/
def costIsFinite (sub : Record) : Bool :=
  match parsedCost sub with
  | some cost => cost.isFinite
  | none => false

/-- The cost of the record parses to a finite number that is not negative. -/
def costIsFiniteNonNegative (sub : Record) : Bool :=
  match parsedCost sub with
  | some (.fin neg m _) => !neg || decide (m = 0)
  | _ => false

/-- The record has the billing cycle `cycle`. -/
def hasCycle (sub : Record) (cycle : String) : Prop :=
  getProp sub (utf16 "billingCycle") = some (.str (utf16 cycle))

instance (sub : Record) (cycle : String) : Decidable (hasCycle sub cycle) := by
  unfold hasCycle; infer_instance

/-- What a record with a finite cost contributes to the monthly total: `cost`
when monthly, `cost / 12` when yearly, and 0 for any other cycle. -/
def specMonthlyContribution (sub : Record) : F64 :=
  let cost := (parsedCost sub).getD F64.nan
  if hasCycle sub "monthly" then cost
  else if hasCycle sub "yearly" then cost.div (F64.ofNat 12)
  else F64.zero

/-- What a record with a finite cost contributes to the yearly total: `cost * 12`
when monthly, `cost` when yearly, and 0 for any other cycle. -/
def specYearlyContribution (sub : Record) : F64 :=
  let cost := (parsedCost sub).getD F64.nan
  if hasCycle sub "monthly" then cost.mul (F64.ofNat 12)
  else if hasCycle sub "yearly" then cost
  else F64.zero

/-- The sum of a sequence of Numbers, from zero, in order. -/
def sumNumbers (xs : List F64) : F64 := xs.foldl F64.add F64.zero

/-- The monthly total of the specification: the sum, over the records whose cost
parses to a finite number, of their monthly contributions, to 2 decimals. -/
def specMonthlyTotal (ledger : Ledger) : JSString :=
  toFixed (sumNumbers ((ledger.filter costIsFinite).map specMonthlyContribution)) 2

/-- The yearly total of the specification: the sum, over the records whose cost
parses to a finite number, of their yearly contributions, to 2 decimals. -/
def specYearlyTotal (ledger : Ledger) : JSString :=
  toFixed (sumNumbers ((ledger.filter costIsFinite).map specYearlyContribution)) 2

/-- A record with the given cost and billing cycle. -/
def costRecord (cost : JSValue) (cycle : String) : Record :=
  [(utf16 "cost", cost), (utf16 "billingCycle", .str (utf16 cycle))]

/-- The ledger of the scenario: 9.99 a month and 119.88 a year. -/
def scenarioLedger : Ledger :=
  [costRecord (.str (utf16 "9.99")) "monthly", costRecord (.str (utf16 "119.88")) "yearly"]

/-- A monthly record whose cost is the negative decimal string "-5". -/
def negativeRecord : Record := costRecord (.str (utf16 "-5")) "monthly"

/-- A monthly record whose cost is not a number at all. -/
def unparsedRecord : Record := costRecord (.str (utf16 "n/a")) "monthly"

/-! ## Ids, operations and the states they reach -/

/-- The key `id`. -/
def idKey : JSString := utf16 "id"

/-- The text of the alert raised by a rejected import. -/
def invalidBackupAlert : JSString := utf16 "Invalid backup file."

/-- No two records of the ledger have the same id (`===`). -/
def UniqueIds (ledger : Ledger) : Prop :=
  ledger.Pairwise fun a b => strictEq (getProp a idKey) (getProp b idKey) = false

instance (ledger : Ledger) : Decidable (UniqueIds ledger) := by
  unfold UniqueIds; infer_instance

/-- The element has an id that the import keeps: `s.id` is neither `undefined`
nor `null`. -/
def keptId (s : JSValue) : Option JSValue :=
  match elementId s with
  | none => none
  | some .null => none
  | some v => some v

/-- How an imported record relates to the element of the backup it comes from:
every property other than `id` is that of the element; its id is the one the
element had, or else an id drawn from `env`. -/
def ImportedFrom (env : IdSource) (s : JSValue) (r : Record) : Prop :=
  (∀ k, k ≠ idKey → getProp r k = getProp (spreadProps s) k) ∧
    (∀ v, keptId s = some v → getProp r idKey = some v) ∧
    (keptId s = none → ∃ i, getProp r idKey = some (freshId env i))

/-- An operation on the ledger: an add at a clock reading with the form filled
in, a delete, or the import of a file with the ids it draws. -/
inductive Op where
  | add (now : Nat) (form : Record)
  | delete (id : Option JSValue)
  | click (i : Nat)
  | importFile (env : IdSource) (content : JSString)

/-- Run one operation. -/
def applyOp (st : AppState) : Op → AppState
  | .add now form => addSubscription now { st with formData := form }
  | .delete id => deleteSubscription id st
  | .click i => deleteCard i st
  | .importFile env content => (importData env (some content) st).1

/-- Run a sequence of operations, first to last. -/
def run (ops : List Op) (st : AppState) : AppState := ops.foldl applyOp st

/-- The ids that the elements of a parsed backup carry. -/
def keptIds (parsed : List JSValue) : List JSValue := parsed.filterMap keptId

/-- The number of elements of a parsed backup that carry no id, each of which
receives a drawn id. -/
def missingIds (parsed : List JSValue) : Nat := (parsed.filter fun s => (keptId s).isNone).length

/-- The ids that a backup brings are new to each other: the ids its elements
carry differ pairwise, the ids `Date.now() + Math.random()` drawn for the
elements without id differ pairwise, and no drawn id is an id that an element
carries. A condition on the backup and on the clock and random source only. -/
def DistinctBackupIds (env : IdSource) (parsed : List JSValue) : Prop :=
  (keptIds parsed).Pairwise (fun a b => strictEq (some a) (some b) = false) ∧
    (∀ i < missingIds parsed, ∀ j < missingIds parsed, i ≠ j →
      strictEq (some (freshId env i)) (some (freshId env j)) = false) ∧
    (∀ i < missingIds parsed, ∀ v ∈ keptIds parsed,
      strictEq (some v) (some (freshId env i)) = false)

instance (env : IdSource) (parsed : List JSValue) : Decidable (DistinctBackupIds env parsed) := by
  unfold DistinctBackupIds; infer_instance

/-- The elements of the array that `importData` parses from the text of a file,
when the text parses to an array. -/
def backupElements (content : JSString) : Option (List JSValue) :=
  match jsonParse (if content = [] then [91, 93] else content) with
  | some (.arr parsed) => some parsed
  | _ => none

/-- The operation brings no id that is already taken: an add happens at a clock
reading that is the id of no record, and the ids of an imported backup are new to
each other (`DistinctBackupIds`, a condition on the text of the backup and on the
id source). -/
def BringsNewIds (st : AppState) : Op → Prop
  | .add now _ =>
    ∀ sub ∈ st.subscriptions, strictEq (getProp sub idKey) (some (.num (F64.ofNat now))) = false
  | .delete _ => True
  | .click _ => True
  | .importFile env content => ∀ parsed ∈ backupElements content, DistinctBackupIds env parsed

/-- Every operation of the sequence, run from `st`, brings no id already taken. -/
def AllBringNewIds : List Op → AppState → Prop
  | [], _ => True
  | op :: rest, st => BringsNewIds st op ∧ AllBringNewIds rest (applyOp st op)

/-- An id source that draws the same id every time. -/
def constantIds : IdSource := fun _ => (1700000000000, F64.ofRat false 1 2)

/-- An id source whose clock advances by a millisecond at every draw. -/
def tickingIds : IdSource := fun i => (1700000000000 + i, F64.ofRat false 1 4)

/-- A state whose ledger is the scenario ledger. -/
def scenarioState : AppState := { subscriptions := scenarioLedger, formData := emptyForm, showForm := false }

/-- A filled-in form. -/
def filledForm : Record :=
  [(utf16 "name", .str (utf16 "Netflix")), (utf16 "cost", .str (utf16 "9.99")),
   (utf16 "billingCycle", .str (utf16 "monthly")), (utf16 "nextBilling", .str (utf16 "2026-01-15")),
   (utf16 "category", .str (utf16 "entertainment"))]

/-- A state whose ledger was imported from a backup in which two records carry
an id that is an array with the same content, `[1]`: two distinct arrays. -/
def twinIdState : AppState :=
  (importData constantIds
    (some (utf16 "[\x7b\"id\":[1],\"name\":\"a\"\x7d,\x7b\"id\":[1],\"name\":\"b\"\x7d]"))
    initialState).1

/-- A state whose ledger holds one record with the id 5, with the form filled in. -/
def takenIdState : AppState :=
  { subscriptions := [[(utf16 "name", .str (utf16 "Old")), (idKey, .num (F64.ofNat 5))]],
    formData := filledForm, showForm := true }

/-- A ledger with a record whose cost is infinite, as the import of the text
`[{"id":1,"cost":1e999}]` leaves it. -/
def infiniteCostLedger : Ledger :=
  [[(idKey, .num (F64.ofNat 1)), (utf16 "cost", .num (F64.inf false))]]

/-- A record counts as having an id when `id` is neither absent nor `null`. -/
def hasId (r : Record) : Prop := keptId (.obj r) ≠ none

/-- How the record read back from a backup relates to the exported one: a record
with an id comes back as it was; a record without one comes back with the same
other properties and an id drawn from `env`. -/
def RestoredFrom (env : IdSource) (r r1 : Record) : Prop :=
  (hasId r → r1 = r) ∧ (∀ k, k ≠ idKey → getProp r1 k = getProp r k) ∧
    (¬ hasId r → ∃ i, getProp r1 idKey = some (freshId env i))

instance (st : AppState) (op : Op) : Decidable (BringsNewIds st op) := by
  cases op with
  | add now form => unfold BringsNewIds; infer_instance
  | delete id => unfold BringsNewIds; infer_instance
  | click i => unfold BringsNewIds; infer_instance
  | importFile env content => unfold BringsNewIds; infer_instance

/-- Whether every operation of a sequence brings no id already taken can be
computed. -/
def AllBringNewIds.decide : (ops : List Op) → (st : AppState) → Decidable (AllBringNewIds ops st)
  | [], _ => isTrue trivial
  | op :: rest, st =>
    match (inferInstance : Decidable (BringsNewIds st op)),
      AllBringNewIds.decide rest (applyOp st op) with
    | isTrue h1, isTrue h2 => isTrue ⟨h1, h2⟩
    | isFalse h1, _ => isFalse fun h => h1 h.1
    | _, isFalse h2 => isFalse fun h => h2 h.2

instance (ops : List Op) (st : AppState) : Decidable (AllBringNewIds ops st) :=
  AllBringNewIds.decide ops st

/-- A run of the component: two adds a second apart, a delete, and an import. -/
def sampleOps : List Op :=
  [.add 1000 filledForm, .add 2000 filledForm, .delete (some (.num (F64.ofNat 1000))),
   .importFile tickingIds
     (utf16 "[\x7b\"id\":7\x7d,\x7b\x7d,\x7b\"name\":\"Gym\"\x7d,\x7b\"id\":[1]\x7d]"),
   .click 3]

/-- A ledger as `exportData` can save it: one record added through the form at a
clock reading, and one record without id. -/
def savedLedger : Ledger :=
  [filledForm ++ [(idKey, .num (F64.ofNat 1700000000000))],
   costRecord (.str (utf16 "119.88")) "yearly"]

/-! ## Numbers from strings: `Number(string)` -/

/-- Trim white space and line terminators at both ends (`TrimString`). -/
def trimWs (s : JSString) : JSString :=
  ((s.dropWhile isWhiteSpace).reverse.dropWhile isWhiteSpace).reverse

/-- The length of an `ExponentPart` at the head of `s` (0 when there is none). -/
def exponentLength (s : JSString) : Nat :=
  match s with
  | [] => 0
  | c :: rest =>
    if c = 101 ∨ c = 69 then
      match rest with
      | [] => 0
      | g :: r =>
        if g = 43 ∨ g = 45 then
          (if r.takeWhile isDigit = [] then 0 else 2 + (r.takeWhile isDigit).length)
        else (if rest.takeWhile isDigit = [] then 0 else 1 + (rest.takeWhile isDigit).length)
    else 0

/-- The length of the longest prefix of `s` that is a
`StrUnsignedDecimalLiteral` (0 when there is none). -/
def unsignedDecimalLength (s : JSString) : Nat :=
  if (utf16 "Infinity").isPrefixOf s then 8
  else
    let ip := s.takeWhile isDigit
    match s.dropWhile isDigit with
    | 46 :: r =>
      let fp := r.takeWhile isDigit
      if ip = [] ∧ fp = [] then 0
      else ip.length + 1 + fp.length + exponentLength (r.dropWhile isDigit)
    | rest => if ip = [] then 0 else ip.length + exponentLength rest

/-- The Number written by the whole of `s` as a `StrUnsignedDecimalLiteral`,
with the sign given; `NaN` when `s` is not one. -/
def wholeUnsignedDecimal (neg : Bool) (s : JSString) : F64 :=
  if s ≠ [] ∧ unsignedDecimalLength s = s.length then parseUnsigned neg s else F64.nan

/-- The value of a digit in a radix up to 16, if it is one. -/
def radixDigit (base : Nat) (c : Nat) : Option Nat :=
  match hexValue c with
  | some v => if v < base then some v else none
  | none => none

/-- The natural number written by a non-empty run of digits of the radix. -/
def radixValue (base : Nat) (ds : JSString) : Option Nat :=
  if ds = [] then none
  else ds.foldl (fun acc c =>
    match acc, radixDigit base c with
    | some a, some v => some (a * base + v)
    | _, _ => none) (some 0)

/-- The Number of a `NonDecimalIntegerLiteral` body. -/
def radixNumber (base : Nat) (ds : JSString) : F64 :=
  match radixValue base ds with
  | some n => F64.ofNat n
  | none => F64.nan

/-- The abstract operation `StringToNumber`: what `Number(s)` returns for a
string. -/
def stringToNumber (s : JSString) : F64 :=
  match trimWs s with
  | [] => F64.zero
  | c :: rest =>
    if c = 43 then wholeUnsignedDecimal false rest
    else if c = 45 then wholeUnsignedDecimal true rest
    else
      match rest with
      | x :: ds =>
        if c = 48 ∧ (x = 120 ∨ x = 88) then radixNumber 16 ds
        else if c = 48 ∧ (x = 111 ∨ x = 79) then radixNumber 8 ds
        else if c = 48 ∧ (x = 98 ∨ x = 66) then radixNumber 2 ds
        else wholeUnsignedDecimal false (c :: rest)
      | [] => wholeUnsignedDecimal false (c :: rest)

/-- The method `String.prototype.split` with the separator `-`. -/
def splitDash : JSString → List JSString
  | [] => [[]]
  | c :: rest =>
    if c = 45 then [] :: splitDash rest
    else
      match splitDash rest with
      | [] => [[c]]
      | p :: ps => (c :: p) :: ps

/-! ## Calendar and dates -/

/-- Milliseconds per day. -/
def msPerDay : Int := 86400000

/-- The day number of the first day of year `y` (`DayFromYear`); day 0 is the
first of January 1970. -/
def dayFromYear (y : Int) : Int :=
  365 * (y - 1970) + (y - 1969) / 4 - (y - 1901) / 100 + (y - 1601) / 400

/-- Whether year `y` has 366 days. -/
def isLeapYear (y : Int) : Bool :=
  (decide (y % 4 = 0) && decide (y % 100 ≠ 0)) || decide (y % 400 = 0)

/-- The extra day of a leap year. -/
def leapDay (leap : Bool) : Int := if leap then 1 else 0

/-- The number of days of the year before month `mn` (0 for January to 11). -/
def daysBeforeMonth (mn : Int) (leap : Bool) : Int :=
  if mn = 0 then 0 else if mn = 1 then 31 else if mn = 2 then 59 + leapDay leap
  else if mn = 3 then 90 + leapDay leap else if mn = 4 then 120 + leapDay leap
  else if mn = 5 then 151 + leapDay leap else if mn = 6 then 181 + leapDay leap
  else if mn = 7 then 212 + leapDay leap else if mn = 8 then 243 + leapDay leap
  else if mn = 9 then 273 + leapDay leap else if mn = 10 then 304 + leapDay leap
  else 334 + leapDay leap

/-- The day number of the day `date` of month `month` of year `year` (`MakeDay`
on integers): months beyond 0..11 and days beyond the month roll over. -/
def makeDay (year month date : Int) : Int :=
  dayFromYear (year + month / 12) + daysBeforeMonth (month % 12) (isLeapYear (year + month / 12))
    + date - 1

/-- The year in which day `n` falls (`YearFromTime`): the largest `y` with
`dayFromYear y ≤ n`, found next to the estimate by the mean length of a year. -/
def yearFromDay (n : Int) : Int :=
  let c := 1970 + 400 * n / 146097
  if dayFromYear (c + 1) ≤ n then c + 1 else if n < dayFromYear c then c - 1 else c

/-- The day of day `n` within its year, from 0 (`DayWithinYear`). -/
def dayWithinYear (n : Int) : Int := n - dayFromYear (yearFromDay n)

/-- The month of the day `d` of a year (from 0), 0 for January to 11. -/
def monthOfYearDay (d : Int) (leap : Bool) : Int :=
  if d < 31 then 0 else if d < 59 + leapDay leap then 1 else if d < 90 + leapDay leap then 2
  else if d < 120 + leapDay leap then 3 else if d < 151 + leapDay leap then 4
  else if d < 181 + leapDay leap then 5 else if d < 212 + leapDay leap then 6
  else if d < 243 + leapDay leap then 7 else if d < 273 + leapDay leap then 8
  else if d < 304 + leapDay leap then 9 else if d < 334 + leapDay leap then 10 else 11

/-- The month in which day `n` falls, 0 for January to 11 (`MonthFromTime`). -/
def monthFromDay (n : Int) : Int :=
  monthOfYearDay (dayWithinYear n) (isLeapYear (yearFromDay n))

/-- The day of the month of day `n`, from 1 (`DateFromTime`). -/
def dateFromDay (n : Int) : Int :=
  dayWithinYear n - daysBeforeMonth (monthFromDay n) (isLeapYear (yearFromDay n)) + 1

/-- The day number of a time value (`Day`). -/
def dayOfTime (t : Int) : Int := t / msPerDay

/-- The time zone of the device: how a local time value maps to a time value
(`UTC`) and back (`LocalTime`). -/
structure TimeZone where
  utc : Int → Int
  localTime : Int → Int

/-- The time value of a Date object; `none` is `NaN`, the invalid Date. -/
abbrev TimeValue := Option Int

/-- The abstract operation `TimeClip`. -/
def timeClip (t : Int) : TimeValue :=
  if -8640000000000000 ≤ t ∧ t ≤ 8640000000000000 then some t else none

/-- The abstract operation `MakeFullYear` on an integer: a year from 0 to 99 is
a year of the twentieth century. -/
def makeFullYear (y : Int) : Int := if 0 ≤ y ∧ y ≤ 99 then 1900 + y else y

/-- The Date `new Date(y, m, d, 0, 0, 0, 0)` for integers: the local midnight
that starts the day. -/
def newDateInt (tz : TimeZone) (y m d : Int) : TimeValue :=
  timeClip (tz.utc (makeDay (makeFullYear y) m d * msPerDay))

/-- The integer part of a finite Number (`ToIntegerOrInfinity`), 0 otherwise. -/
def F64.trunc : F64 → Int
  | .fin neg m e =>
    let a : Int := ((m * 2 ^ e.toNat / 2 ^ (-e).toNat : Nat) : Int)
    if neg then -a else a
  | _ => 0

/-- The Date `new Date(y, m, d, 0, 0, 0, 0)` for Numbers: invalid when one of
them is not finite. -/
def newDate (tz : TimeZone) (y m d : F64) : TimeValue :=
  if y.isFinite && m.isFinite && d.isFinite then newDateInt tz y.trunc m.trunc d.trunc
  else none

/-- The methods `getFullYear`, `getMonth` and `getDate` of a valid Date. -/
def localFields (tz : TimeZone) (t : Int) : Int × Int × Int :=
  let n := dayOfTime (tz.localTime t)
  (yearFromDay n, monthFromDay n, dateFromDay n)

/-- The sign change of a Number. -/
def F64.neg : F64 → F64
  | .nan => .nan
  | .inf s => .inf (!s)
  | .fin s m e => .fin (!s) m e

/-- The operator `-` on Numbers. -/
def F64.sub (a b : F64) : F64 := a.add b.neg

/-- A Number that is neither zero nor `NaN` (`ToBoolean`). -/
def F64.truthy : F64 → Bool
  | .nan => false
  | .inf _ => true
  | .fin _ m _ => decide (m ≠ 0)

/-- What `parseLocalDate` does: it throws a `TypeError`, returns `null`, or
returns a Date. -/
inductive DateResult where
  | typeError
  | null
  | date (t : TimeValue)
deriving DecidableEq, Repr

/-- The function `parseLocalDate` on a property read. A truthy value that is not
a string has no method `split`, and the call throws. -/
def parseLocalDate (tz : TimeZone) (yyyyMmDd : Option JSValue) : DateResult :=
  if !truthy yyyyMmDd then .null
  else
    match yyyyMmDd with
    | some (.str s) =>
      match (splitDash s).map stringToNumber with
      | y :: m :: d :: _ =>
        if !y.truthy || !m.truthy || !d.truthy then .null
        else .date (newDate tz y (m.sub (F64.ofNat 1)) d)
      | _ => .null
    | _ => .typeError

/-- The clock and time zone of the device: the time value of `new Date()`. -/
structure Env where
  tz : TimeZone
  now : Int

/-- The function `startOfToday`. -/
def startOfToday (env : Env) : TimeValue :=
  let f := localFields env.tz env.now
  newDateInt env.tz f.1 f.2.1 f.2.2

/-- The Number of an integer, rounded to binary64. -/
def F64.ofInt (z : Int) : F64 := F64.ofRat (decide (z < 0)) z.natAbs 1

/-- The function `Math.round`: the nearest integer, a tie going up. -/
def mathRound : F64 → F64
  | .fin neg m e =>
    if 0 ≤ e then .fin neg m e
    else
      let den : Int := ((2 ^ (-e).toNat : Nat) : Int)
      let num : Int := if neg then -(m : Int) else (m : Int)
      let r : Int := (2 * num + den) / (2 * den)
      if r = 0 then .fin neg 0 (-1074) else F64.ofInt r
  | x => x

/-- The function `Math.abs`. -/
def mathAbs : F64 → F64
  | .nan => .nan
  | .inf _ => .inf false
  | .fin _ m e => .fin false m e

/-- The function `daysBetween` on two Dates. -/
def daysBetween (a b : TimeValue) : F64 :=
  match a, b with
  | some ta, some tb => mathRound ((F64.ofInt (tb - ta)).div (F64.ofNat 86400000))
  | _, _ => F64.nan

/-- The comparison `x < 0` on Numbers. -/
def F64.isNegative : F64 → Bool
  | .nan => false
  | .inf s => s
  | .fin s m _ => s && decide (m ≠ 0)

/-- The comparison `x === 0` on Numbers. -/
def F64.isZero : F64 → Bool
  | .fin _ m _ => decide (m = 0)
  | _ => false

/-- The object that `getDueLabel` returns. -/
structure Label where
  text : JSString
  tone : JSString
deriving DecidableEq, Repr

/-- The label of an overdue renewal. -/
def overdueLabel (diff : F64) : Label :=
  { text := utf16 "Overdue by " ++ numberToString (mathAbs diff) ++ utf16 "d",
    tone := utf16 "text-red-200 bg-red-500/10 border-red-500/20" }

/-- The label of a renewal due today. -/
def todayLabel : Label :=
  { text := utf16 "Due today", tone := utf16 "text-amber-200 bg-amber-500/10 border-amber-500/20" }

/-- The label of a renewal to come. -/
def normalLabel (diff : F64) : Label :=
  { text := utf16 "Due in " ++ numberToString diff ++ utf16 "d",
    tone := utf16 "text-slate-200 bg-white/5 border-white/10" }

/-- The function `getDueLabel`: `none` is a thrown `TypeError`, `some none` the
value `null`. -/
def getDueLabel (env : Env) (nextBilling : Option JSValue) : Option (Option Label) :=
  let today := startOfToday env
  match parseLocalDate env.tz nextBilling with
  | .typeError => none
  | .null => some none
  | .date due =>
    let diff := daysBetween today due
    if diff.isNegative then some (some (overdueLabel diff))
    else if diff.isZero then some (some todayLabel)
    else some (some (normalLabel diff))

/-- The Date `tenDaysFromNow` of `getUpcomingRenewals`. -/
def tenDaysFrom (tz : TimeZone) (today : TimeValue) : TimeValue :=
  match today with
  | some t =>
    let f := localFields tz t
    newDateInt tz f.1 f.2.1 (f.2.2 + 10)
  | none => none

/-- The callback of `filter` in `getUpcomingRenewals`; `none` is a thrown
`TypeError`. -/
def isUpcoming (tz : TimeZone) (today tenDaysFromNow : TimeValue) (sub : Record) : Option Bool :=
  match parseLocalDate tz (getProp sub (utf16 "nextBilling")) with
  | .typeError => none
  | .null => some false
  | .date renewalDate =>
    match renewalDate, today, tenDaysFromNow with
    | some r, some t, some u => some (decide (t ≤ r) && decide (r ≤ u))
    | _, _, _ => some false

/-- The method `Array.prototype.filter` with a callback that may throw. -/
def filterJS {α : Type} (p : α → Option Bool) : List α → Option (List α)
  | [] => some []
  | x :: xs =>
    match p x with
    | none => none
    | some b =>
      match filterJS p xs with
      | none => none
      | some l => some (if b then x :: l else l)

/-- The time value by which `sort` orders a record that passed the filter. -/
def renewalTime (tz : TimeZone) (sub : Record) : Int :=
  match parseLocalDate tz (getProp sub (utf16 "nextBilling")) with
  | .date (some t) => t
  | _ => 0

/-- The function `getUpcomingRenewals`; `none` is a thrown `TypeError`. The
comparator is a difference of valid time values, so `sort`, which is stable,
orders by them. -/
def getUpcomingRenewals (env : Env) (subscriptions : Ledger) : Option (List Record) :=
  let today := startOfToday env
  let tenDaysFromNow := tenDaysFrom env.tz today
  (filterJS (isUpcoming env.tz today tenDaysFromNow) subscriptions).map fun l =>
    l.insertionSort fun a b => renewalTime env.tz a ≤ renewalTime env.tz b

/-! ## Reference definitions for the date claims -/

/-- The local midnight that starts day `n` of the local calendar, as a Date. -/
def localMidnight (tz : TimeZone) (n : Int) : TimeValue := timeClip (tz.utc (n * msPerDay))

/-- A value that `parseLocalDate` can read without throwing: a string, or a
falsy value (absent, `null`, `false`, `0`, `NaN`). -/
def DateReadable (v : Option JSValue) : Prop :=
  match v with
  | some (.str _) => True
  | v => truthy v = false

instance (v : Option JSValue) : Decidable (DateReadable v) := by
  unfold DateReadable
  split <;> infer_instance

/-- The property `nextBilling` of a record can be read as a date without
throwing. -/
def NextBillingReadable (sub : Record) : Prop := DateReadable (getProp sub (utf16 "nextBilling"))

instance (sub : Record) : Decidable (NextBillingReadable sub) := by
  unfold NextBillingReadable
  infer_instance

/-- The number of days of month `mn` (0 for January to 11) of year `y`. -/
def daysInMonth (y mn : Int) : Int :=
  if mn = 1 then (if isLeapYear y then 29 else 28)
  else if mn = 3 ∨ mn = 5 ∨ mn = 8 ∨ mn = 10 then 30 else 31

/-- The text `year-month-day` of three components. -/
def isoDate (ys ms ds : JSString) : JSString := ys ++ 45 :: (ms ++ 45 :: ds)

/-- A zone at a fixed offset from universal time, in milliseconds. -/
def fixedZone (offset : Int) : TimeZone :=
  { utc := fun t => t - offset, localTime := fun t => t + offset }

/-- A device two hours east of Greenwich, on the 6th of November 2026 at
23:20 local time. -/
def sampleEnv : Env := { tz := fixedZone 7200000, now := 1794000000000 }

/-- A record with a name and a renewal date. -/
def renewalRecord (name date : String) : Record :=
  [(utf16 "name", .str (utf16 name)), (utf16 "nextBilling", .str (utf16 date))]

/-- A ledger with renewals inside and outside the ten days from the 6th of
November 2026, one empty date and one record without date. -/
def renewalLedger : Ledger :=
  [renewalRecord "a" "2026-11-16", renewalRecord "b" "2026-11-17",
   renewalRecord "c" "2026-11-06", renewalRecord "d" "2026-11-05",
   renewalRecord "e" "", [(utf16 "name", .str (utf16 "f"))],
   renewalRecord "g" "2026-11-06", renewalRecord "h" "2026-11-10"]

/-- The whole number of days nearest to `z` milliseconds, a tie going up, as
`Math.round` writes it: a result 0 reached from below is the negative zero. -/
def roundedDays (z : Int) : F64 :=
  let r : Int := (2 * z + msPerDay) / (2 * msPerDay)
  if r = 0 then (if z < 0 then F64.negZero else F64.zero) else F64.ofInt r

/-- A numeral: a non-empty run of decimal digits. -/
def IsNumeral (ds : JSString) : Prop := ds ≠ [] ∧ ∀ c ∈ ds, isDigit c = true

instance (ds : JSString) : Decidable (IsNumeral ds) := by
  unfold IsNumeral
  infer_instance

/-- The comparison `x > 0` on Numbers. -/
def F64.isPositive : F64 → Bool
  | .nan => false
  | .inf s => !s
  | .fin s m _ => !s && decide (m ≠ 0)

/-- The renewal of a record falls within `horizon` days from day `n0` of the
local calendar, as the specification words it: `nextBilling` parses to a valid
date `d` with `today ≤ d ≤ today + horizon days`, both ends included, `today`
being the local midnight that starts day `n0`. -/
def dueWithin (tz : TimeZone) (n0 horizon : Int) (sub : Record) : Bool :=
  match parseLocalDate tz (getProp sub (utf16 "nextBilling")), localMidnight tz n0,
    localMidnight tz (n0 + horizon) with
  | .date (some d), some t, some u => decide (t ≤ d) && decide (d ≤ u)
  | _, _, _ => false

/-- The day of the local calendar on which the clock of the device stands. -/
def localDay (env : Env) : Int := dayOfTime (env.tz.localTime env.now)

/-- The numerals `ys`, `ms`, `ds` write the year, the month (from 1) and the day
of day `n` of the calendar, as in `2026-11-16`. -/
def WritesDay (ys ms ds : JSString) (n : Int) : Prop :=
  IsNumeral ys ∧ IsNumeral ms ∧ IsNumeral ds ∧ (digitsValue ys : Int) = yearFromDay n ∧
    (digitsValue ms : Int) = monthFromDay n + 1 ∧ (digitsValue ds : Int) = dateFromDay n

instance (ys ms ds : JSString) (n : Int) : Decidable (WritesDay ys ms ds n) := by
  unfold WritesDay
  infer_instance

/-! ## Rounding to binary64 -/

namespace F64

theorem bitLenAux_spec (fuel : Nat) : ∀ n, n ≤ fuel →
    n < 2 ^ bitLenAux fuel n ∧ (0 < n → 2 ^ (bitLenAux fuel n - 1) ≤ n) := by
  induction fuel with
  | zero =>
    intro n h
    have : n = 0 := by omega
    subst this
    simp [bitLenAux]
  | succ f ih =>
    intro n h
    by_cases hn : n = 0
    · subst hn; simp [bitLenAux]
    · have h2 : n / 2 ≤ f := by omega
      obtain ⟨ih1, ih2⟩ := ih (n / 2) h2
      simp only [bitLenAux, hn, if_false]
      refine ⟨?_, fun _ => ?_⟩
      · rw [pow_succ]; omega
      · simp only [Nat.add_sub_cancel]
        by_cases h0 : n / 2 = 0
        · have : bitLenAux f (n / 2) = 0 := by
            rw [h0]; cases f <;> simp [bitLenAux]
          rw [this]; simp; omega
        · have h3 := ih2 (Nat.pos_of_ne_zero h0)
          have hk : 1 ≤ bitLenAux f (n / 2) := by
            by_contra hc
            have : bitLenAux f (n / 2) = 0 := by omega
            rw [this] at ih1; simp at ih1; exact h0 ih1
          have : 2 ^ bitLenAux f (n / 2) = 2 ^ (bitLenAux f (n / 2) - 1) * 2 := by
            rw [← pow_succ]; congr 1; omega
          omega

theorem lt_two_pow_bitLen (n : Nat) : n < 2 ^ bitLen n := (bitLenAux_spec n n le_rfl).1

theorem two_pow_bitLen_le (n : Nat) (h : 0 < n) : 2 ^ (bitLen n - 1) ≤ n :=
  (bitLenAux_spec n n le_rfl).2 h

theorem bitLen_pos (n : Nat) (h : 0 < n) : 0 < bitLen n := by
  by_contra hc
  have h0 : bitLen n = 0 := by omega
  have := lt_two_pow_bitLen n
  rw [h0] at this
  omega

/-- A power of two with an integer exponent, as a quotient of natural powers. -/
theorem zpow_split (z : Int) : (2 : ℚ) ^ z = (2 : ℚ) ^ z.toNat / (2 : ℚ) ^ (-z).toNat := by
  rcases le_total 0 z with h | h
  · have h1 : (-z).toNat = 0 := by omega
    rw [h1, pow_zero, div_one]
    conv_lhs => rw [← Int.toNat_of_nonneg h]
    rw [zpow_natCast]
  · have h1 : z.toNat = 0 := by omega
    rw [h1, pow_zero, one_div]
    have h2 : z = -((-z).toNat : Int) := by omega
    conv_lhs => rw [h2]
    rw [zpow_neg, zpow_natCast]

theorem geTwoPow_iff (n d : Nat) (hd : 0 < d) (l : Int) :
    geTwoPow n d l = true ↔ (2 : ℚ) ^ l ≤ (n : ℚ) / d := by
  have hd' : (0 : ℚ) < d := by exact_mod_cast hd
  have hp : (0 : ℚ) < (2 : ℚ) ^ (-l).toNat := by positivity
  unfold geTwoPow
  rw [decide_eq_true_iff, zpow_split, div_le_div_iff₀ hp hd']
  constructor
  · intro h
    have : ((d * 2 ^ l.toNat : Nat) : ℚ) ≤ ((n * 2 ^ (-l).toNat : Nat) : ℚ) := by exact_mod_cast h
    push_cast at this
    linarith
  · intro h
    have : ((d * 2 ^ l.toNat : Nat) : ℚ) ≤ ((n * 2 ^ (-l).toNat : Nat) : ℚ) := by
      push_cast; linarith
    exact_mod_cast this

theorem bitLen_bounds (n : Nat) (h : 0 < n) :
    (2 : ℚ) ^ ((bitLen n : Int) - 1) ≤ n ∧ (n : ℚ) < (2 : ℚ) ^ (bitLen n : Int) := by
  have h1 := two_pow_bitLen_le n h
  have h2 := lt_two_pow_bitLen n
  have hb := bitLen_pos n h
  constructor
  · have : ((bitLen n : Int) - 1) = ((bitLen n - 1 : Nat) : Int) := by omega
    rw [this, zpow_natCast]
    exact_mod_cast h1
  · rw [zpow_natCast]
    exact_mod_cast h2

theorem floorLog2_spec (n d : Nat) (hn : 0 < n) (hd : 0 < d) :
    (2 : ℚ) ^ floorLog2 n d ≤ (n : ℚ) / d ∧ (n : ℚ) / d < (2 : ℚ) ^ (floorLog2 n d + 1) := by
  have hd' : (0 : ℚ) < d := by exact_mod_cast hd
  have hn' : (0 : ℚ) < n := by exact_mod_cast hn
  obtain ⟨n1, n2⟩ := bitLen_bounds n hn
  obtain ⟨d1, d2⟩ := bitLen_bounds d hd
  have two_pos : ∀ z : Int, (0 : ℚ) < (2 : ℚ) ^ z := fun z => by positivity
  -- n / d < 2 ^ (l + 1)
  have up : (n : ℚ) / d < (2 : ℚ) ^ ((bitLen n : Int) - (bitLen d : Int) + 1) := by
    rw [div_lt_iff₀ hd']
    have e : (2 : ℚ) ^ ((bitLen n : Int) - (bitLen d : Int) + 1) * (2 : ℚ) ^ ((bitLen d : Int) - 1)
        = (2 : ℚ) ^ (bitLen n : Int) := by
      rw [← zpow_add₀ (by norm_num : (2 : ℚ) ≠ 0)]; congr 1; ring
    calc (n : ℚ) < (2 : ℚ) ^ (bitLen n : Int) := n2
      _ = (2 : ℚ) ^ ((bitLen n : Int) - (bitLen d : Int) + 1) * (2 : ℚ) ^ ((bitLen d : Int) - 1) := e.symm
      _ ≤ (2 : ℚ) ^ ((bitLen n : Int) - (bitLen d : Int) + 1) * d :=
        mul_le_mul_of_nonneg_left d1 (le_of_lt (two_pos _))
  -- 2 ^ (l - 1) ≤ n / d
  have low : (2 : ℚ) ^ ((bitLen n : Int) - (bitLen d : Int) - 1) ≤ (n : ℚ) / d := by
    rw [le_div_iff₀ hd']
    have e : (2 : ℚ) ^ ((bitLen n : Int) - (bitLen d : Int) - 1) * (2 : ℚ) ^ (bitLen d : Int)
        = (2 : ℚ) ^ ((bitLen n : Int) - 1) := by
      rw [← zpow_add₀ (by norm_num : (2 : ℚ) ≠ 0)]; congr 1; ring
    calc (2 : ℚ) ^ ((bitLen n : Int) - (bitLen d : Int) - 1) * d
        ≤ (2 : ℚ) ^ ((bitLen n : Int) - (bitLen d : Int) - 1) * (2 : ℚ) ^ (bitLen d : Int) :=
          mul_le_mul_of_nonneg_left (le_of_lt d2) (le_of_lt (two_pos _))
      _ = (2 : ℚ) ^ ((bitLen n : Int) - 1) := e
      _ ≤ n := n1
  unfold floorLog2
  simp only
  by_cases hg : geTwoPow n d ((bitLen n : Int) - (bitLen d : Int)) = true
  · rw [if_pos hg]
    exact ⟨(geTwoPow_iff n d hd _).1 hg, up⟩
  · rw [if_neg hg]
    refine ⟨low, ?_⟩
    have : ¬ (2 : ℚ) ^ ((bitLen n : Int) - (bitLen d : Int)) ≤ (n : ℚ) / d :=
      fun h => hg ((geTwoPow_iff n d hd _).2 h)
    have e : ((bitLen n : Int) - (bitLen d : Int) - 1 + 1) = (bitLen n : Int) - (bitLen d : Int) := by
      ring
    rw [e]
    exact lt_of_not_le this

theorem roundScaled_cases (neg : Bool) (e0 : Int) (num den : Nat) (hden : 0 < den)
    (he : -1074 ≤ e0) (hlt : num < 2 ^ 53 * den) (hge : 2 ^ 52 * den ≤ num ∨ e0 = -1074) :
    roundScaled neg e0 num den = inf neg ∨
      ∃ m e, roundScaled neg e0 num den = fin neg m e ∧ CanonicalFin m e ∧
        (m = 0 → e0 = -1074 ∧ 2 * num ≤ den) := by
  have hq : num / den < 2 ^ 53 := (Nat.div_lt_iff_lt_mul hden).2 hlt
  have hq2 : 2 ^ 52 * den ≤ num → 2 ^ 52 ≤ num / den := fun h =>
    (Nat.le_div_iff_mul_le hden).2 h
  have hmod := Nat.div_add_mod num den
  have hr : num % den < den := Nat.mod_lt _ hden
  unfold roundScaled
  simp only
  generalize hup : (decide (den < 2 * (num % den)) ||
    (decide (2 * (num % den) = den) && decide (num / den % 2 = 1))) = up
  by_cases h971 : (971 : Int) < (if (if up = true then num / den + 1 else num / den) = 2 ^ 53
      then e0 + 1 else e0)
  · left; rw [if_pos h971]
  · right
    rw [if_neg h971]
    refine ⟨_, _, rfl, ?_, ?_⟩
    · by_cases hm : (if up = true then num / den + 1 else num / den) = 2 ^ 53
      · rw [if_pos hm] at h971 ⊢
        rw [if_pos hm]
        refine ⟨by norm_num, by omega, by omega, Or.inl le_rfl⟩
      · rw [if_neg hm] at h971 ⊢
        rw [if_neg hm]
        refine ⟨?_, he, by omega, ?_⟩
        · cases up <;> simp at hm ⊢ <;> omega
        · rcases hge with h | h
          · left
            have := hq2 h
            cases up <;> simp <;> omega
          · right; exact h
    · intro hm0
      by_cases hm : (if up = true then num / den + 1 else num / den) = 2 ^ 53
      · rw [if_pos hm] at hm0; norm_num at hm0
      · rw [if_neg hm] at hm0
        cases up with
        | true => simp at hm0
        | false =>
          simp only [Bool.false_eq_true, if_false] at hm0
          rcases hge with h | h
          · have := hq2 h; omega
          · refine ⟨h, ?_⟩
            simp only [Bool.or_eq_false_iff, decide_eq_false_iff_not, not_lt] at hup
            have h1 := hup.1
            rw [hm0] at hmod
            simp at hmod
            omega

theorem roundScaled_exact (neg : Bool) (e0 : Int) (m den : Nat) (hden : 0 < den)
    (hm : m < 2 ^ 53) (he : e0 ≤ 971) : roundScaled neg e0 (m * den) den = fin neg m e0 := by
  unfold roundScaled
  have h1 : m * den / den = m := Nat.mul_div_cancel _ hden
  have h2 : m * den % den = 0 := Nat.mul_mod_left _ _
  simp only [h1, h2]
  have h3 : ¬ den < 2 * 0 := by omega
  have h4 : ¬ 2 * 0 = den := by omega
  simp only [h3, h4, decide_False, Bool.false_and, Bool.or_false, Bool.false_eq_true, if_false]
  have h5 : m ≠ 2 ^ 53 := by omega
  simp only [h5, if_false]
  rw [if_neg (by omega)]

theorem scaled_ratio (n d : Nat) (e0 : Int) :
    ((n * 2 ^ (-e0).toNat : Nat) : ℚ) / ((d * 2 ^ e0.toNat : Nat) : ℚ)
      = (n : ℚ) / d / (2 : ℚ) ^ e0 := by
  rw [zpow_split e0]
  push_cast
  have h1 : (0 : ℚ) < (2 : ℚ) ^ e0.toNat := by positivity
  have h2 : (0 : ℚ) < (2 : ℚ) ^ (-e0).toNat := by positivity
  by_cases hd : (d : ℚ) = 0
  · simp [hd]
  · field_simp

theorem zpow_two_lt_iff (a b : Int) : (2 : ℚ) ^ a < (2 : ℚ) ^ b ↔ a < b :=
  zpow_lt_zpow_iff_right₀ (by norm_num : (1 : ℚ) < 2)

theorem zpow_two_le_iff (a b : Int) : (2 : ℚ) ^ a ≤ (2 : ℚ) ^ b ↔ a ≤ b :=
  zpow_le_zpow_iff_right₀ (by norm_num : (1 : ℚ) < 2)

theorem scaled_bounds (n d : Nat) (hn : 0 < n) (hd : 0 < d) :
    let e0 : Int := max (floorLog2 n d - 52) (-1074)
    n * 2 ^ (-e0).toNat < 2 ^ 53 * (d * 2 ^ e0.toNat) ∧
      (2 ^ 52 * (d * 2 ^ e0.toNat) ≤ n * 2 ^ (-e0).toNat ∨ e0 = -1074) := by
  intro e0
  obtain ⟨lo, hi⟩ := floorLog2_spec n d hn hd
  have hden : (0 : ℚ) < ((d * 2 ^ e0.toNat : Nat) : ℚ) := by
    have : 0 < d * 2 ^ e0.toNat := Nat.mul_pos hd (by positivity)
    exact_mod_cast this
  have hr := scaled_ratio n d e0
  have hp : (0 : ℚ) < (2 : ℚ) ^ e0 := by positivity
  have he1 : floorLog2 n d - 52 ≤ e0 := le_max_left _ _
  constructor
  · have h1 : (n : ℚ) / d / (2 : ℚ) ^ e0 < 2 ^ 53 := by
      rw [div_lt_iff₀ hp]
      calc (n : ℚ) / d < (2 : ℚ) ^ (floorLog2 n d + 1) := hi
        _ ≤ (2 : ℚ) ^ ((53 : Int) + e0) := (zpow_two_le_iff _ _).2 (by omega)
        _ = 2 ^ 53 * (2 : ℚ) ^ e0 := by
          rw [zpow_add₀ (by norm_num : (2 : ℚ) ≠ 0)]; norm_num
    rw [← hr, div_lt_iff₀ hden] at h1
    exact_mod_cast h1
  · by_cases hc : floorLog2 n d - 52 ≤ -1074
    · right; exact max_eq_right hc
    · left
      have he : e0 = floorLog2 n d - 52 := max_eq_left (by omega)
      have h1 : (2 : ℚ) ^ 52 ≤ (n : ℚ) / d / (2 : ℚ) ^ e0 := by
        rw [le_div_iff₀ hp]
        calc (2 : ℚ) ^ 52 * (2 : ℚ) ^ e0 = (2 : ℚ) ^ ((52 : Int) + e0) := by
              rw [zpow_add₀ (by norm_num : (2 : ℚ) ≠ 0)]; norm_num
          _ = (2 : ℚ) ^ floorLog2 n d := by rw [he]; congr 1; ring
          _ ≤ (n : ℚ) / d := lo
      rw [← hr, le_div_iff₀ hden] at h1
      exact_mod_cast h1

theorem roundPos_cases (neg : Bool) (n d : Nat) (hn : 0 < n) (hd : 0 < d) :
    roundPos neg n d = inf neg ∨
      ∃ m e, roundPos neg n d = fin neg m e ∧ CanonicalFin m e ∧
        (m = 0 → 2 * (n * 2 ^ 1074) ≤ d) := by
  obtain ⟨h1, h2⟩ := scaled_bounds n d hn hd
  have hden : 0 < d * 2 ^ (max (floorLog2 n d - 52) (-1074)).toNat :=
    Nat.mul_pos hd (by positivity)
  rcases roundScaled_cases neg _ _ _ hden (le_max_right _ _) h1 h2 with h | ⟨m, e, h, hc, h0⟩
  · left; exact h
  · right
    refine ⟨m, e, h, hc, fun hm => ?_⟩
    obtain ⟨he, hle⟩ := h0 hm
    rw [he] at hle
    have e1 : (-(-1074 : Int)).toNat = 1074 := rfl
    have e2 : (-1074 : Int).toNat = 0 := rfl
    rw [e1, e2, pow_zero, Nat.mul_one] at hle
    exact hle

theorem roundPos_exact_aux (neg : Bool) (m : Nat) (e : Int) (K : Nat) (hK : (K : Int) = 1074)
    (hc : CanonicalFin m e) (hm : 0 < m) :
    roundPos neg (m * 2 ^ (e + K).toNat) (2 ^ K) = fin neg m e := by
  obtain ⟨hlt, hlo, hhi, hnorm⟩ := hc
  have hn : 0 < m * 2 ^ (e + K).toNat := Nat.mul_pos hm (by positivity)
  have hd : 0 < 2 ^ K := by positivity
  obtain ⟨lo, hi⟩ := floorLog2_spec _ _ hn hd
  -- the value is m * 2^e
  have hv : ((m * 2 ^ (e + K).toNat : Nat) : ℚ) / ((2 ^ K : Nat) : ℚ) = m * (2 : ℚ) ^ e := by
    push_cast
    have h2 : (2 : ℚ) ^ e = (2 : ℚ) ^ (e + K).toNat / 2 ^ K := by
      have : e = ((e + K).toNat : Int) - (K : Int) := by omega
      conv_lhs => rw [this]
      rw [zpow_sub₀ (by norm_num : (2 : ℚ) ≠ 0), zpow_natCast, zpow_natCast]
    rw [h2]; ring
  rw [hv] at lo hi
  have hmq : (m : ℚ) < 2 ^ 53 := by exact_mod_cast hlt
  have hm0 : (0 : ℚ) < m := by exact_mod_cast hm
  have hp : (0 : ℚ) < (2 : ℚ) ^ e := by positivity
  -- upper bound on the binade
  have hfl1 : floorLog2 (m * 2 ^ (e + K).toNat) (2 ^ K) < 53 + e := by
    rw [← zpow_two_lt_iff]
    calc (2 : ℚ) ^ floorLog2 (m * 2 ^ (e + K).toNat) (2 ^ K) ≤ m * (2 : ℚ) ^ e := lo
      _ < 2 ^ 53 * (2 : ℚ) ^ e := by
        exact mul_lt_mul_of_pos_right hmq hp
      _ = (2 : ℚ) ^ ((53 : Int) + e) := by
        rw [zpow_add₀ (by norm_num : (2 : ℚ) ≠ 0)]; norm_num
  have he0 : max (floorLog2 (m * 2 ^ (e + K).toNat) (2 ^ K) - 52) (-1074) = e := by
    rcases hnorm with h52 | h1074
    · have h52q : (2 : ℚ) ^ 52 ≤ m := by exact_mod_cast h52
      have hfl2 : 52 + e < floorLog2 (m * 2 ^ (e + K).toNat) (2 ^ K) + 1 := by
        rw [← zpow_two_lt_iff]
        calc (2 : ℚ) ^ ((52 : Int) + e) = 2 ^ 52 * (2 : ℚ) ^ e := by
              rw [zpow_add₀ (by norm_num : (2 : ℚ) ≠ 0)]; norm_num
          _ ≤ m * (2 : ℚ) ^ e := mul_le_mul_of_nonneg_right h52q (le_of_lt hp)
          _ < _ := hi
      rw [max_eq_left (by omega)]; omega
    · rw [max_eq_right (by omega)]; omega
  unfold roundPos
  simp only [he0]
  have hden : 0 < 2 ^ K * 2 ^ e.toNat := by positivity
  have hex : (e + K).toNat + (-e).toNat = K + e.toNat := by omega
  have hnum : m * 2 ^ (e + K).toNat * 2 ^ (-e).toNat = m * (2 ^ K * 2 ^ e.toNat) := by
    rw [Nat.mul_assoc, ← pow_add, ← pow_add, hex]
  rw [hnum]
  exact roundScaled_exact neg e m _ hden hlt hhi

theorem roundPos_exact (neg : Bool) (m : Nat) (e : Int) (hc : CanonicalFin m e) (hm : 0 < m) :
    roundPos neg (m * 2 ^ (e + 1074).toNat) (2 ^ 1074) = fin neg m e :=
  roundPos_exact_aux neg m e 1074 rfl hc hm

theorem canonical_roundPos (neg : Bool) (n d : Nat) (hn : 0 < n) (hd : 0 < d) :
    Canonical (roundPos neg n d) := by
  rcases roundPos_cases neg n d hn hd with h | ⟨m, e, h, hc, _⟩
  · rw [h]; trivial
  · rw [h]; exact hc

theorem canonicalFin_zero : CanonicalFin 0 (-1074) :=
  ⟨by positivity, le_rfl, by omega, Or.inr rfl⟩

theorem canonical_ofRat (neg : Bool) (n d : Nat) (hd : 0 < d) : Canonical (ofRat neg n d) := by
  unfold ofRat
  by_cases hn : n = 0
  · rw [if_pos hn]; exact canonicalFin_zero
  · rw [if_neg hn]; exact canonical_roundPos neg n d (Nat.pos_of_ne_zero hn) hd

theorem ofRat_units (neg : Bool) (m : Nat) (e : Int) (hc : CanonicalFin m e) :
    ofRat neg (units m e) (2 ^ 1074) = fin neg m e := by
  unfold ofRat units
  by_cases hm : m = 0
  · subst hm
    rcases hc with ⟨_, _, _, h | h⟩
    · exact absurd h (by norm_num)
    · rw [Nat.zero_mul, if_pos rfl, h]
  · have hpos : 0 < m := Nat.pos_of_ne_zero hm
    have hne : m * 2 ^ (e + 1074).toNat ≠ 0 := Nat.mul_ne_zero hm (by positivity)
    rw [if_neg hne]
    exact roundPos_exact neg m e hc hpos

theorem ofRat_mantissa_ne_zero (neg : Bool) (n : Nat) (hn : 0 < n) (s : Bool) (e : Int) :
    ofRat neg n (2 ^ 1074) ≠ fin s 0 e := by
  unfold ofRat
  rw [if_neg (by omega)]
  intro h
  rcases roundPos_cases neg n (2 ^ 1074) hn (by positivity) with h1 | ⟨m, e1, h1, _, h0⟩
  · rw [h1] at h; cases h
  · rw [h1] at h
    injection h with _ hm _
    have := h0 hm
    have h2 : 1 * 2 ^ 1074 ≤ n * 2 ^ 1074 := Nat.mul_le_mul_right _ hn
    have h3 : 0 < 2 ^ 1074 := by positivity
    omega

theorem signedUnits_natAbs (s : Bool) (m : Nat) (e : Int) :
    (signedUnits s m e).natAbs = units m e := by
  unfold signedUnits; cases s <;> simp

theorem units_pos (m : Nat) (e : Int) (hm : 0 < m) : 0 < units m e :=
  Nat.mul_pos hm (by positivity)

theorem signedUnits_zero_mantissa (s : Bool) (e : Int) : signedUnits s 0 e = 0 := by
  unfold signedUnits units; cases s <;> simp

theorem signedUnits_neg_iff (s : Bool) (m : Nat) (e : Int) (hm : 0 < m) :
    decide (signedUnits s m e < 0) = s := by
  have := units_pos m e hm
  unfold signedUnits
  cases s
  · simp
  · simp; omega

theorem signedUnits_ne_zero (s : Bool) (m : Nat) (e : Int) (hm : 0 < m) :
    signedUnits s m e ≠ 0 := by
  have := units_pos m e hm
  unfold signedUnits
  cases s <;> simp <;> omega

theorem add_nan_left (b : F64) : add nan b = nan := by cases b <;> rfl

theorem add_nan_right (a : F64) : add a nan = nan := by cases a <;> rfl

theorem add_inf_inf (a b : Bool) : add (inf a) (inf b) = if a = b then inf a else nan := rfl

theorem add_fin_fin (s1 : Bool) (m1 : Nat) (e1 : Int) (s2 : Bool) (m2 : Nat) (e2 : Int) :
    add (fin s1 m1 e1) (fin s2 m2 e2) =
      if signedUnits s1 m1 e1 + signedUnits s2 m2 e2 = 0 then
        fin (s1 && s2 && decide (m1 = 0) && decide (m2 = 0)) 0 (-1074)
      else ofRat (decide (signedUnits s1 m1 e1 + signedUnits s2 m2 e2 < 0))
        (signedUnits s1 m1 e1 + signedUnits s2 m2 e2).natAbs (2 ^ 1074) := rfl

theorem canonical_add (a b : F64) : Canonical (add a b) := by
  cases a with
  | nan => rw [add_nan_left]; trivial
  | inf sa =>
    cases b with
    | nan => trivial
    | inf sb => rw [add_inf_inf]; split <;> trivial
    | fin _ _ _ => trivial
  | fin s1 m1 e1 =>
    cases b with
    | nan => trivial
    | inf sb => trivial
    | fin s2 m2 e2 =>
      rw [add_fin_fin]
      split
      · exact canonicalFin_zero
      · exact canonical_ofRat _ _ _ (by positivity)

theorem add_zero_right (a : F64) (hc : Canonical a) (hz : a ≠ negZero) : add a zero = a := by
  cases a with
  | nan => rfl
  | inf s => rfl
  | fin s m e =>
    unfold zero
    rw [add_fin_fin]
    simp only [signedUnits_zero_mantissa, add_zero]
    by_cases hm : m = 0
    · subst hm
      rcases hc with ⟨_, _, _, h | h⟩
      · exact absurd h (by norm_num)
      · subst h
        rw [if_pos (signedUnits_zero_mantissa _ _)]
        cases s
        · rfl
        · exact absurd rfl hz
    · have hpos := Nat.pos_of_ne_zero hm
      rw [if_neg (signedUnits_ne_zero s m e hpos), signedUnits_neg_iff s m e hpos,
        signedUnits_natAbs]
      exact ofRat_units s m e hc

theorem add_zero_left (a : F64) (hc : Canonical a) (hz : a ≠ negZero) : add zero a = a := by
  cases a with
  | nan => rfl
  | inf s => rfl
  | fin s m e =>
    unfold zero
    rw [add_fin_fin]
    simp only [signedUnits_zero_mantissa, zero_add]
    by_cases hm : m = 0
    · subst hm
      rcases hc with ⟨_, _, _, h | h⟩
      · exact absurd h (by norm_num)
      · subst h
        rw [if_pos (signedUnits_zero_mantissa _ _)]
        cases s
        · rfl
        · exact absurd rfl hz
    · have hpos := Nat.pos_of_ne_zero hm
      rw [if_neg (signedUnits_ne_zero s m e hpos), signedUnits_neg_iff s m e hpos,
        signedUnits_natAbs]
      exact ofRat_units s m e hc

theorem add_ne_negZero (a b : F64) (hc : Canonical a) (hz : a ≠ negZero) :
    add a b ≠ negZero := by
  cases a with
  | nan => rw [add_nan_left]; intro h; cases h
  | inf sa =>
    cases b with
    | nan => intro h; cases h
    | inf sb => rw [add_inf_inf]; split <;> (intro h; cases h)
    | fin _ _ _ => intro h; cases h
  | fin s1 m1 e1 =>
    cases b with
    | nan => intro h; cases h
    | inf sb => intro h; cases h
    | fin s2 m2 e2 =>
      rw [add_fin_fin]
      split
      · intro h
        unfold negZero at h
        injection h with hs _ _
        simp only [Bool.and_eq_true, decide_eq_true_eq] at hs
        obtain ⟨⟨⟨h1, _⟩, h3⟩, _⟩ := hs
        subst h1; subst h3
        rcases hc with ⟨_, _, _, h | h⟩
        · exact absurd h (by norm_num)
        · subst h; exact hz rfl
      · rename_i ht
        exact ofRat_mantissa_ne_zero _ _ (Int.natAbs_pos.2 ht) _ _

end F64

/-! ## Aggregation: the code against the specification -/

theorem canonical_parseUnsigned (neg : Bool) (s : JSString) : (parseUnsigned neg s).Canonical := by
  unfold parseUnsigned
  split
  · trivial
  · simp only
    split
    · split
      · trivial
      · exact F64.canonical_ofRat _ _ _ (by positivity)
    · split
      · trivial
      · exact F64.canonical_ofRat _ _ _ (by positivity)

theorem canonical_parseFloatString (s : JSString) : (parseFloatString s).Canonical := by
  unfold parseFloatString
  split <;> exact canonical_parseUnsigned _ _

theorem canonical_parsedCost (sub : Record) (cost : F64) (h : parsedCost sub = some cost) :
    cost.Canonical := by
  unfold parsedCost parseFloatJS at h
  split at h
  · cases h; trivial
  · rename_i v _
    cases hv : toStringJS v with
    | none => rw [hv] at h; cases h
    | some t =>
      rw [hv] at h
      simp only [Option.map_some'] at h
      cases h
      exact canonical_parseFloatString t

theorem canonical_mul (a b : F64) : (a.mul b).Canonical := by
  cases a with
  | nan => cases b <;> trivial
  | inf sa =>
    cases b with
    | nan => trivial
    | inf sb => trivial
    | fin s m e => show (if m = 0 then F64.nan else F64.inf (xor sa s)).Canonical; split <;> trivial
  | fin s1 m1 e1 =>
    cases b with
    | nan => trivial
    | inf sb => show (if m1 = 0 then F64.nan else F64.inf (xor s1 sb)).Canonical; split <;> trivial
    | fin s2 m2 e2 => exact F64.canonical_ofRat _ _ _ (by positivity)

theorem reduceJS_cons {α β : Type} (f : β → α → Option β) (x : α) (xs : List α) (acc : β) :
    reduceJS f (x :: xs) acc = (f acc x).bind (reduceJS f xs) := by
  rw [reduceJS]
  cases f acc x <;> rfl

theorem monthlyStep_eq (total : F64) (sub : Record) (cost : F64) (h : parsedCost sub = some cost) :
    monthlyStep total sub = some (if cost.isFinite then
      (if hasCycle sub "monthly" then total.add cost
       else if hasCycle sub "yearly" then total.add (cost.div (F64.ofNat 12)) else total)
      else total) := by
  unfold parsedCost at h
  unfold monthlyStep hasCycle
  rw [h]
  dsimp only
  cases cost.isFinite
  · rfl
  · simp only [Bool.not_true, Bool.false_eq_true, if_false, if_true]
    split
    · rfl
    · split <;> rfl

theorem yearlyStep_eq (total : F64) (sub : Record) (cost : F64) (h : parsedCost sub = some cost) :
    yearlyStep total sub = some (if cost.isFinite then
      (if hasCycle sub "monthly" then total.add (cost.mul (F64.ofNat 12))
       else if hasCycle sub "yearly" then total.add cost else total)
      else total) := by
  unfold parsedCost at h
  unfold yearlyStep hasCycle
  rw [h]
  dsimp only
  cases cost.isFinite
  · rfl
  · simp only [Bool.not_true, Bool.false_eq_true, if_false, if_true]
    split
    · rfl
    · split <;> rfl

theorem reduce_monthly (subscriptions : Ledger) : ∀ acc : F64, acc.Canonical → acc ≠ F64.negZero →
    (∀ sub ∈ subscriptions, CostReadable sub) →
    reduceJS monthlyStep subscriptions acc =
      some (((subscriptions.filter costIsFinite).map specMonthlyContribution).foldl F64.add acc) := by
  induction subscriptions with
  | nil => intro acc _ _ _; rfl
  | cons sub rest ih =>
    intro acc hc hz hr
    have hsub : CostReadable sub := hr sub (List.mem_cons_self _ _)
    have hrest : ∀ s ∈ rest, CostReadable s := fun s hs => hr s (List.mem_cons_of_mem _ hs)
    unfold CostReadable at hsub
    obtain ⟨cost, hcost⟩ := Option.ne_none_iff_exists'.1 hsub
    have hfin : costIsFinite sub = cost.isFinite := by unfold costIsFinite; rw [hcost]
    rw [reduceJS_cons, monthlyStep_eq acc sub cost hcost, Option.some_bind, List.filter_cons, hfin]
    cases hf : cost.isFinite with
    | false => exact ih acc hc hz hrest
    | true =>
      simp only [if_true, List.map_cons, List.foldl_cons]
      have hcontrib : specMonthlyContribution sub =
          if hasCycle sub "monthly" then cost
          else if hasCycle sub "yearly" then cost.div (F64.ofNat 12) else F64.zero := by
        unfold specMonthlyContribution; rw [hcost]; rfl
      rw [hcontrib]
      by_cases hm : hasCycle sub "monthly"
      · rw [if_pos hm, if_pos hm]
        exact ih _ (F64.canonical_add _ _) (F64.add_ne_negZero _ _ hc hz) hrest
      · rw [if_neg hm, if_neg hm]
        by_cases hy : hasCycle sub "yearly"
        · rw [if_pos hy, if_pos hy]
          exact ih _ (F64.canonical_add _ _) (F64.add_ne_negZero _ _ hc hz) hrest
        · rw [if_neg hy, if_neg hy, F64.add_zero_right acc hc hz]
          exact ih acc hc hz hrest

theorem reduce_yearly (subscriptions : Ledger) : ∀ acc : F64, acc.Canonical → acc ≠ F64.negZero →
    (∀ sub ∈ subscriptions, CostReadable sub) →
    reduceJS yearlyStep subscriptions acc =
      some (((subscriptions.filter costIsFinite).map specYearlyContribution).foldl F64.add acc) := by
  induction subscriptions with
  | nil => intro acc _ _ _; rfl
  | cons sub rest ih =>
    intro acc hc hz hr
    have hsub : CostReadable sub := hr sub (List.mem_cons_self _ _)
    have hrest : ∀ s ∈ rest, CostReadable s := fun s hs => hr s (List.mem_cons_of_mem _ hs)
    unfold CostReadable at hsub
    obtain ⟨cost, hcost⟩ := Option.ne_none_iff_exists'.1 hsub
    have hfin : costIsFinite sub = cost.isFinite := by unfold costIsFinite; rw [hcost]
    rw [reduceJS_cons, yearlyStep_eq acc sub cost hcost, Option.some_bind, List.filter_cons, hfin]
    cases hf : cost.isFinite with
    | false => exact ih acc hc hz hrest
    | true =>
      simp only [if_true, List.map_cons, List.foldl_cons]
      have hcontrib : specYearlyContribution sub =
          if hasCycle sub "monthly" then cost.mul (F64.ofNat 12)
          else if hasCycle sub "yearly" then cost else F64.zero := by
        unfold specYearlyContribution; rw [hcost]; rfl
      rw [hcontrib]
      by_cases hm : hasCycle sub "monthly"
      · rw [if_pos hm, if_pos hm]
        exact ih _ (F64.canonical_add _ _) (F64.add_ne_negZero _ _ hc hz) hrest
      · rw [if_neg hm, if_neg hm]
        by_cases hy : hasCycle sub "yearly"
        · rw [if_pos hy, if_pos hy]
          exact ih _ (F64.canonical_add _ _) (F64.add_ne_negZero _ _ hc hz) hrest
        · rw [if_neg hy, if_neg hy, F64.add_zero_right acc hc hz]
          exact ih acc hc hz hrest

theorem zero_ne_negZero : F64.zero ≠ F64.negZero := by decide

theorem canonical_zero : F64.zero.Canonical := F64.canonicalFin_zero

set_option maxRecDepth 100000 in
/-- C1: for every ledger whose costs can be read, `calculateMonthlyTotal` returns,
to 2 decimals, the sum over the records whose cost parses to a finite number of
`cost` (monthly), `cost / 12` (yearly) and 0 (any other cycle); on the scenario
ledger it returns "19.98". -/
theorem calculateMonthlyTotal_spec (subscriptions : Ledger)
    (h : ∀ sub ∈ subscriptions, CostReadable sub) :
    calculateMonthlyTotal subscriptions = some (specMonthlyTotal subscriptions) ∧
      calculateMonthlyTotal scenarioLedger = some (utf16 "19.98") := by
  refine ⟨?_, by decide!⟩
  unfold calculateMonthlyTotal specMonthlyTotal sumNumbers
  rw [reduce_monthly subscriptions F64.zero canonical_zero zero_ne_negZero h]
  rfl

set_option maxRecDepth 100000 in
theorem calculateMonthlyTotal_spec_witness :
    (∀ sub ∈ scenarioLedger, CostReadable sub) ∧
      calculateMonthlyTotal scenarioLedger = some (specMonthlyTotal scenarioLedger) :=
  ⟨by decide!, (calculateMonthlyTotal_spec scenarioLedger (by decide!)).1⟩

set_option maxRecDepth 100000 in
/-- C2: for every ledger whose costs can be read, `calculateYearlyTotal` returns,
to 2 decimals, the sum over the records whose cost parses to a finite number of
`cost * 12` (monthly), `cost` (yearly) and 0 (any other cycle); on the scenario
ledger it returns "239.76". -/
theorem calculateYearlyTotal_spec (subscriptions : Ledger)
    (h : ∀ sub ∈ subscriptions, CostReadable sub) :
    calculateYearlyTotal subscriptions = some (specYearlyTotal subscriptions) ∧
      calculateYearlyTotal scenarioLedger = some (utf16 "239.76") := by
  refine ⟨?_, by decide!⟩
  unfold calculateYearlyTotal specYearlyTotal sumNumbers
  rw [reduce_yearly subscriptions F64.zero canonical_zero zero_ne_negZero h]
  rfl

set_option maxRecDepth 100000 in
theorem calculateYearlyTotal_spec_witness :
    (∀ sub ∈ scenarioLedger, CostReadable sub) ∧
      calculateYearlyTotal scenarioLedger = some (specYearlyTotal scenarioLedger) :=
  ⟨by decide!, (calculateYearlyTotal_spec scenarioLedger (by decide!)).1⟩

/-- The costs of the data model can be read: a record whose `cost` is absent, a
string, a Number, a boolean or `null` is `CostReadable`. -/
theorem costReadable_of_primitive (sub : Record)
    (h : getProp sub (utf16 "cost") = none ∨ (∃ s, getProp sub (utf16 "cost") = some (.str s)) ∨
      (∃ x, getProp sub (utf16 "cost") = some (.num x)) ∨
      (∃ b, getProp sub (utf16 "cost") = some (.bool b)) ∨
      getProp sub (utf16 "cost") = some .null) : CostReadable sub := by
  unfold CostReadable parsedCost
  rcases h with h | ⟨s, h⟩ | ⟨x, h⟩ | ⟨b, h⟩ | h <;> rw [h] <;> simp [parseFloatJS, toStringJS]

theorem reduceJS_append {α β : Type} (f : β → α → Option β) (xs ys : List α) :
    ∀ acc, reduceJS f (xs ++ ys) acc = (reduceJS f xs acc).bind (reduceJS f ys) := by
  induction xs with
  | nil => intro acc; rfl
  | cons x rest ih =>
    intro acc
    rw [List.cons_append, reduceJS_cons, reduceJS_cons]
    cases f acc x with
    | none => rfl
    | some acc1 => exact ih acc1

set_option maxRecDepth 100000 in
/-- C3, as stated, fails: the record with cost "-5" does not parse to a finite
non-negative number, yet it is counted, as -5.00 a month and -60.00 a year. -/
theorem negative_cost_counted :
    costIsFiniteNonNegative negativeRecord = false ∧
      calculateMonthlyTotal [negativeRecord] = some (utf16 "-5.00") ∧
      calculateMonthlyTotal [] = some (utf16 "0.00") ∧
      calculateYearlyTotal [negativeRecord] = some (utf16 "-60.00") ∧
      calculateYearlyTotal [] = some (utf16 "0.00") := by
  decide!

/-- C3, amended: a record whose cost parses, but not to a finite number, counts
as 0: both totals are the same with the record present as with it removed. -/
theorem nonfinite_cost_ignored (before after : Ledger) (sub : Record) (cost : F64)
    (h : parsedCost sub = some cost) (hf : cost.isFinite = false) :
    calculateMonthlyTotal (before ++ sub :: after) = calculateMonthlyTotal (before ++ after) ∧
      calculateYearlyTotal (before ++ sub :: after) = calculateYearlyTotal (before ++ after) := by
  have hm : ∀ acc, reduceJS monthlyStep (sub :: after) acc = reduceJS monthlyStep after acc := by
    intro acc
    rw [reduceJS_cons, monthlyStep_eq acc sub cost h, hf]
    rfl
  have hy : ∀ acc, reduceJS yearlyStep (sub :: after) acc = reduceJS yearlyStep after acc := by
    intro acc
    rw [reduceJS_cons, yearlyStep_eq acc sub cost h, hf]
    rfl
  unfold calculateMonthlyTotal calculateYearlyTotal
  rw [reduceJS_append, reduceJS_append, reduceJS_append, reduceJS_append]
  constructor
  · congr 2; funext acc; exact hm acc
  · congr 2; funext acc; exact hy acc

set_option maxRecDepth 100000 in
theorem nonfinite_cost_ignored_witness :
    parsedCost unparsedRecord = some F64.nan ∧ F64.nan.isFinite = false ∧
      (calculateMonthlyTotal (scenarioLedger ++ unparsedRecord :: scenarioLedger)
          = calculateMonthlyTotal (scenarioLedger ++ scenarioLedger) ∧
        calculateYearlyTotal (scenarioLedger ++ unparsedRecord :: scenarioLedger)
          = calculateYearlyTotal (scenarioLedger ++ scenarioLedger)) :=
  ⟨by decide!, rfl,
    nonfinite_cost_ignored scenarioLedger scenarioLedger unparsedRecord F64.nan (by decide!) rfl⟩

set_option maxRecDepth 100000 in
theorem toFixed_zero_add (x : F64) (hc : x.Canonical) :
    toFixed (F64.zero.add x) 2 = toFixed x 2 := by
  by_cases hz : x = F64.negZero
  · subst hz; decide!
  · rw [F64.add_zero_left x hc hz]

set_option maxRecDepth 100000 in
/-- C4: `calculateAnnualEquivalent` of a record is `calculateYearlyTotal` of the
ledger holding that record alone: `cost * 12` for a monthly record, `cost` for a
yearly one, "0.00" when the cost is not a finite number or the cycle is neither,
to 2 decimals. A monthly record of cost 10 gives "120.00", as does a yearly
record of cost 120. -/
theorem calculateAnnualEquivalent_spec (sub : Record) :
    calculateAnnualEquivalent sub = calculateYearlyTotal [sub] ∧
      (∀ cost, parsedCost sub = some cost →
        calculateAnnualEquivalent sub = some
          (if cost.isFinite = false then utf16 "0.00"
           else if hasCycle sub "monthly" then toFixed (cost.mul (F64.ofNat 12)) 2
           else if hasCycle sub "yearly" then toFixed cost 2
           else utf16 "0.00")) ∧
      calculateAnnualEquivalent (costRecord (.num (F64.ofNat 10)) "monthly") = some (utf16 "120.00") ∧
      calculateAnnualEquivalent (costRecord (.str (utf16 "10")) "monthly") = some (utf16 "120.00") ∧
      calculateAnnualEquivalent (costRecord (.num (F64.ofNat 120)) "yearly") = some (utf16 "120.00") ∧
      calculateAnnualEquivalent (costRecord (.str (utf16 "120")) "yearly") = some (utf16 "120.00") := by
  have hrule : ∀ cost, parsedCost sub = some cost →
      calculateAnnualEquivalent sub = some
        (if cost.isFinite = false then utf16 "0.00"
         else if hasCycle sub "monthly" then toFixed (cost.mul (F64.ofNat 12)) 2
         else if hasCycle sub "yearly" then toFixed cost 2
         else utf16 "0.00") := by
    intro cost h
    unfold parsedCost at h
    unfold calculateAnnualEquivalent hasCycle
    rw [h]
    dsimp only
    cases cost.isFinite
    · rfl
    · simp only [Bool.not_true, Bool.false_eq_true, if_false]
      split
      · rfl
      · split <;> rfl
  refine ⟨?_, hrule, by decide!, by decide!, by decide!, by decide!⟩
  unfold calculateYearlyTotal
  rw [reduceJS_cons]
  cases hp : parsedCost sub with
  | none =>
    have h1 : calculateAnnualEquivalent sub = none := by
      unfold parsedCost at hp
      unfold calculateAnnualEquivalent
      rw [hp]
    have h2 : yearlyStep F64.zero sub = none := by
      unfold parsedCost at hp
      unfold yearlyStep
      rw [hp]
    rw [h1, h2]; rfl
  | some cost =>
    have hcan := canonical_parsedCost sub cost hp
    rw [hrule cost hp, yearlyStep_eq F64.zero sub cost hp]
    cases hf : cost.isFinite with
    | false =>
      simp only [if_true, Bool.false_eq_true, if_false]
      decide!
    | true =>
      simp only [Bool.true_eq_false, if_false, if_true, Option.some_bind]
      by_cases hm : hasCycle sub "monthly"
      · rw [if_pos hm, if_pos hm]
        show _ = some (toFixed _ 2)
        rw [toFixed_zero_add _ (canonical_mul _ _)]
      · rw [if_neg hm, if_neg hm]
        by_cases hy : hasCycle sub "yearly"
        · rw [if_pos hy, if_pos hy]
          show _ = some (toFixed _ 2)
          rw [toFixed_zero_add _ hcan]
        · rw [if_neg hy, if_neg hy]
          decide!

set_option maxRecDepth 100000 in
theorem calculateAnnualEquivalent_spec_witness :
    parsedCost unparsedRecord = some F64.nan ∧
      calculateAnnualEquivalent unparsedRecord = some (utf16 "0.00") :=
  ⟨by decide!, ((calculateAnnualEquivalent_spec unparsedRecord).2.1 F64.nan (by decide!)).trans
    (by decide!)⟩

/-! ## Objects and their properties -/

theorem getProp_cons (k1 : JSString) (v : JSValue) (rest : Record) (k : JSString) :
    getProp ((k1, v) :: rest) k = if k1 = k then some v else getProp rest k := rfl

theorem getProp_replaceProp (o : Record) (k : JSString) (v : JSValue) (k1 : JSString)
    (h : hasProp o k = true) :
    getProp (replaceProp o k v) k1 = if k1 = k then some v else getProp o k1 := by
  induction o with
  | nil => simp [hasProp, getProp] at h
  | cons p rest ih =>
    obtain ⟨kp, vp⟩ := p
    unfold replaceProp
    by_cases hk : kp = k
    · rw [if_pos hk, getProp_cons, getProp_cons]
      by_cases h1 : k1 = k
      · rw [if_pos h1, if_pos (by rw [hk, h1])]
      · rw [if_neg h1, if_neg (by rw [hk]; exact fun h => h1 h.symm),
          if_neg (by rw [hk]; exact fun h => h1 h.symm)]
    · rw [if_neg hk, getProp_cons, getProp_cons]
      have hrest : hasProp rest k = true := by
        unfold hasProp at h ⊢
        rw [getProp_cons, if_neg hk] at h
        exact h
      by_cases h2 : kp = k1
      · rw [if_pos h2, if_pos h2, if_neg (by rw [← h2]; exact hk)]
      · rw [if_neg h2, if_neg h2]
        exact ih hrest

theorem getProp_append_single (o : Record) (k : JSString) (v : JSValue) (k1 : JSString)
    (h : hasProp o k = false) :
    getProp (o ++ [(k, v)]) k1 = if k1 = k then some v else getProp o k1 := by
  induction o with
  | nil =>
    rw [List.nil_append, getProp_cons]
    by_cases h1 : k1 = k
    · rw [if_pos h1, if_pos h1.symm]
    · rw [if_neg h1, if_neg (fun h => h1 h.symm)]
  | cons p rest ih =>
    obtain ⟨kp, vp⟩ := p
    have hk : kp ≠ k := by
      intro hk
      unfold hasProp at h
      rw [getProp_cons, if_pos hk] at h
      simp at h
    have hrest : hasProp rest k = false := by
      unfold hasProp at h ⊢
      rw [getProp_cons, if_neg hk] at h
      exact h
    rw [List.cons_append, getProp_cons, getProp_cons]
    by_cases h2 : kp = k1
    · rw [if_pos h2, if_pos h2, if_neg (by rw [← h2]; exact hk)]
    · rw [if_neg h2, if_neg h2]
      exact ih hrest

theorem getProp_insertIndexProp (o : Record) (n : Nat) (k : JSString) (v : JSValue)
    (k1 : JSString) (h : hasProp o k = false) :
    getProp (insertIndexProp o n k v) k1 = if k1 = k then some v else getProp o k1 := by
  have head : ∀ o1 : Record, getProp ((k, v) :: o1) k1 = if k1 = k then some v else getProp o1 k1 := by
    intro o1
    rw [getProp_cons]
    by_cases h1 : k1 = k
    · rw [if_pos h1, if_pos h1.symm]
    · rw [if_neg h1, if_neg (fun h => h1 h.symm)]
  induction o with
  | nil => exact head []
  | cons p rest ih =>
    obtain ⟨kp, vp⟩ := p
    have hk : kp ≠ k := by
      intro hk
      unfold hasProp at h
      rw [getProp_cons, if_pos hk] at h
      simp at h
    have hrest : hasProp rest k = false := by
      unfold hasProp at h ⊢
      rw [getProp_cons, if_neg hk] at h
      exact h
    unfold insertIndexProp
    cases arrayIndex kp with
    | none => exact head _
    | some n1 =>
      dsimp only
      by_cases hn : n < n1
      · rw [if_pos hn]; exact head _
      · rw [if_neg hn, getProp_cons, getProp_cons]
        by_cases h2 : kp = k1
        · rw [if_pos h2, if_pos h2, if_neg (by rw [← h2]; exact hk)]
        · rw [if_neg h2, if_neg h2]
          exact ih hrest

/-- Reading a property after `CreateDataProperty`: the new value at the key
defined, every other property as before. -/
theorem getProp_defineProp (o : Record) (k : JSString) (v : JSValue) (k1 : JSString) :
    getProp (defineProp o k v) k1 = if k1 = k then some v else getProp o k1 := by
  unfold defineProp
  cases h : hasProp o k with
  | true => simp only [if_true]; exact getProp_replaceProp o k v k1 h
  | false =>
    simp only [Bool.false_eq_true, if_false]
    cases arrayIndex k with
    | none => exact getProp_append_single o k v k1 h
    | some n => exact getProp_insertIndexProp o n k v k1 h

theorem replaceProp_self (o : Record) (k : JSString) (v : JSValue) (h : getProp o k = some v) :
    replaceProp o k v = o := by
  induction o with
  | nil => rfl
  | cons p rest ih =>
    obtain ⟨kp, vp⟩ := p
    unfold replaceProp
    rw [getProp_cons] at h
    by_cases hk : kp = k
    · rw [if_pos hk] at h ⊢
      cases h; rfl
    · rw [if_neg hk] at h ⊢
      rw [ih h]

theorem defineProp_self (o : Record) (k : JSString) (v : JSValue) (h : getProp o k = some v) :
    defineProp o k v = o := by
  unfold defineProp
  have hp : hasProp o k = true := by unfold hasProp; rw [h]; rfl
  rw [if_pos hp]
  exact replaceProp_self o k v h

theorem arrayIndex_idKey : arrayIndex idKey = none := by decide

theorem defineProp_id_new (o : Record) (v : JSValue) (h : getProp o idKey = none) :
    defineProp o idKey v = o ++ [(idKey, v)] := by
  unfold defineProp
  have hp : hasProp o idKey = false := by unfold hasProp; rw [h]; rfl
  rw [if_neg (by rw [hp]; exact Bool.false_ne_true), arrayIndex_idKey]

/-! ## Import -/

theorem jsonParse_nil : jsonParse [] = none := by decide

set_option maxRecDepth 100000 in
/-- C5, as stated, fails: the empty text does not parse, yet importing it raises
no alert and empties the ledger, because the handler reads an empty result as
the text `[]`. -/
theorem empty_backup_empties_ledger :
    jsonParse [] = none ∧ scenarioState.subscriptions ≠ [] ∧
      importData constantIds (some []) scenarioState =
        ({ scenarioState with subscriptions := [] }, none) := by
  decide!

/-- C5, amended: for every non-empty content that does not parse, or whose
top-level value is not an array, `importData` raises the invalid-backup alert
and leaves the state, the ledger with it, as it was. -/
theorem importData_rejects_invalid (env : IdSource) (content : JSString) (st : AppState)
    (hne : content ≠ [])
    (h : jsonParse content = none ∨ ∃ v, jsonParse content = some v ∧ ∀ xs, v ≠ .arr xs) :
    importData env (some content) st = (st, some invalidBackupAlert) := by
  unfold importData
  simp only [if_neg hne]
  rcases h with h | ⟨v, h, hv⟩
  · rw [h]; rfl
  · rw [h]
    cases v with
    | arr xs => exact absurd rfl (hv xs)
    | null => rfl
    | bool b => rfl
    | num x => rfl
    | str s => rfl
    | obj ps => rfl

set_option maxRecDepth 100000 in
theorem importData_rejects_invalid_witness :
    utf16 "\x7b\x7d" ≠ [] ∧
      (jsonParse (utf16 "\x7b\x7d") = none ∨
        ∃ v, jsonParse (utf16 "\x7b\x7d") = some v ∧ ∀ xs, v ≠ .arr xs) ∧
      importData constantIds (some (utf16 "\x7b\x7d")) scenarioState
        = (scenarioState, some invalidBackupAlert) :=
  ⟨by decide, Or.inr ⟨.obj [], by decide!, fun xs h => by cases h⟩,
    importData_rejects_invalid constantIds (utf16 "\x7b\x7d") scenarioState (by decide)
      (Or.inr ⟨.obj [], by decide!, fun xs h => by cases h⟩)⟩

theorem keptId_null : keptId .null = none := rfl

theorem withIds_cons (env : IdSource) (i : Nat) (s : JSValue) (rest : List JSValue)
    (hs : s ≠ .null) :
    withIds env i (s :: rest) =
      match keptId s with
      | none => (withIds env (i + 1) rest).map fun l =>
          defineProp (spreadProps s) idKey (freshId env i) :: l
      | some v => (withIds env i rest).map fun l => defineProp (spreadProps s) idKey v :: l := by
  cases s with
  | null => exact absurd rfl hs
  | bool b => rfl
  | num x => rfl
  | str t => rfl
  | arr xs => rfl
  | obj ps =>
    conv_lhs => unfold withIds
    unfold keptId
    cases h : elementId (.obj ps) with
    | none => rfl
    | some v => cases v <;> rfl

theorem importedFrom_defineProp (env : IdSource) (s : JSValue) (v : JSValue)
    (h : keptId s = some v ∨ (keptId s = none ∧ ∃ i, v = freshId env i)) :
    ImportedFrom env s (defineProp (spreadProps s) idKey v) := by
  refine ⟨fun k hk => ?_, fun w hw => ?_, fun hn => ?_⟩
  · rw [getProp_defineProp, if_neg hk]
  · rw [getProp_defineProp, if_pos rfl]
    rcases h with h | ⟨h, _⟩
    · rw [h] at hw; exact hw
    · rw [h] at hw; cases hw
  · rw [getProp_defineProp, if_pos rfl]
    rcases h with h | ⟨_, i, hi⟩
    · rw [h] at hn; cases hn
    · exact ⟨i, by rw [hi]⟩

theorem withIds_spec (env : IdSource) (parsed : List JSValue) :
    ∀ i, (∀ s ∈ parsed, s ≠ .null) →
      ∃ l, withIds env i parsed = some l ∧ List.Forall₂ (ImportedFrom env) parsed l := by
  induction parsed with
  | nil => intro i _; exact ⟨[], rfl, List.Forall₂.nil⟩
  | cons s rest ih =>
    intro i hnn
    have hs : s ≠ .null := hnn s (List.mem_cons_self _ _)
    have hrest : ∀ t ∈ rest, t ≠ .null := fun t ht => hnn t (List.mem_cons_of_mem _ ht)
    rw [withIds_cons env i s rest hs]
    cases hk : keptId s with
    | none =>
      obtain ⟨l, hl, hf⟩ := ih (i + 1) hrest
      refine ⟨defineProp (spreadProps s) idKey (freshId env i) :: l,
        by simp only [hl, Option.map_some'], List.Forall₂.cons ?_ hf⟩
      exact importedFrom_defineProp env s _ (Or.inr ⟨hk, i, rfl⟩)
    | some v =>
      obtain ⟨l, hl, hf⟩ := ih i hrest
      refine ⟨defineProp (spreadProps s) idKey v :: l,
        by simp only [hl, Option.map_some'], List.Forall₂.cons ?_ hf⟩
      exact importedFrom_defineProp env s _ (Or.inl hk)

set_option maxRecDepth 100000 in
/-- C6, as stated, fails: the text `[null]` parses to an array, yet importing it
raises the invalid-backup alert and leaves the ledger as it was, because reading
`id` from `null` throws. -/
theorem null_element_rejects_backup :
    jsonParse (utf16 "[null]") = some (.arr [.null]) ∧
      importData constantIds (some (utf16 "[null]")) scenarioState
        = (scenarioState, some invalidBackupAlert) := by
  decide!

set_option maxRecDepth 100000 in
/-- Two elements without id, imported while the clock and the random number stay
the same, receive the same id. -/
theorem drawn_ids_collide :
    (importData constantIds (some (utf16 "[\x7b\x7d,\x7b\x7d]")) initialState).1.subscriptions
      = [[(idKey, freshId constantIds 0)], [(idKey, freshId constantIds 0)]] ∧
    ¬ UniqueIds
      (importData constantIds (some (utf16 "[\x7b\x7d,\x7b\x7d]")) initialState).1.subscriptions := by
  decide!

/-- C6, amended: for every content that parses to an array with no `null`
element, `importData` raises no alert and replaces the ledger, whatever it held,
by one record per element, in the same order: each record has the element's
properties other than `id`, keeps the element's id when it had one (neither
absent nor `null`), and otherwise has an id drawn from the clock and the random
source. (That a drawn id differs from the others is not claimed.) -/
theorem importData_replaces_ledger (env : IdSource) (content : JSString)
    (parsed : List JSValue) (st : AppState)
    (hp : jsonParse content = some (.arr parsed)) (hnn : ∀ s ∈ parsed, s ≠ .null) :
    ∃ l, importData env (some content) st = ({ st with subscriptions := l }, none) ∧
      l.length = parsed.length ∧ List.Forall₂ (ImportedFrom env) parsed l := by
  have hne : content ≠ [] := by
    intro h; rw [h, jsonParse_nil] at hp; cases hp
  obtain ⟨l, hl, hf⟩ := withIds_spec env parsed 0 hnn
  refine ⟨l, ?_, hf.length_eq.symm, hf⟩
  unfold importData
  simp only [if_neg hne, hp, hl]

set_option maxRecDepth 100000 in
theorem importData_replaces_ledger_witness :
    jsonParse (utf16 "[\x7b\"id\":7\x7d,\x7b\"name\":\"Gym\"\x7d,5]")
        = some (.arr [.obj [(idKey, .num (F64.ofNat 7))],
            .obj [(utf16 "name", .str (utf16 "Gym"))], .num (F64.ofNat 5)]) ∧
      ∃ l, importData tickingIds
          (some (utf16 "[\x7b\"id\":7\x7d,\x7b\"name\":\"Gym\"\x7d,5]")) scenarioState
            = ({ scenarioState with subscriptions := l }, none) ∧
        l.length = 3 ∧
        List.Forall₂ (ImportedFrom tickingIds)
          [.obj [(idKey, .num (F64.ofNat 7))], .obj [(utf16 "name", .str (utf16 "Gym"))],
            .num (F64.ofNat 5)] l :=
  ⟨by decide!, importData_replaces_ledger tickingIds
    (utf16 "[\x7b\"id\":7\x7d,\x7b\"name\":\"Gym\"\x7d,5]")
    [.obj [(idKey, .num (F64.ofNat 7))], .obj [(utf16 "name", .str (utf16 "Gym"))],
      .num (F64.ofNat 5)] scenarioState (by decide!) (by decide)⟩

/-! ## Adding, deleting, and the ids of the ledger -/

/-- The condition under which `addSubscription` stores the form: `name`, `cost`
and `nextBilling` are all truthy (for the strings that the form holds: not
empty). -/
theorem addSubscription_of_filled (now : Nat) (st : AppState)
    (h : truthy (getProp st.formData (utf16 "name")) = true ∧
      truthy (getProp st.formData (utf16 "cost")) = true ∧
      truthy (getProp st.formData (utf16 "nextBilling")) = true) :
    addSubscription now st =
      { subscriptions :=
          st.subscriptions ++ [defineProp st.formData idKey (.num (F64.ofNat now))],
        formData := emptyForm, showForm := false } := by
  unfold addSubscription
  rw [h.1, h.2.1, h.2.2]
  rfl

theorem addSubscription_subscriptions (now : Nat) (st : AppState) :
    (addSubscription now st).subscriptions = st.subscriptions ∨
      (addSubscription now st).subscriptions =
        st.subscriptions ++ [defineProp st.formData idKey (.num (F64.ofNat now))] := by
  unfold addSubscription
  split
  · right; rfl
  · left; rfl

theorem F64.equal_comm (a b : F64) : F64.equal a b = F64.equal b a := by
  cases a <;> cases b <;> simp only [F64.equal]
  · exact decide_eq_decide.2 eq_comm
  · exact decide_eq_decide.2 eq_comm
  · exact decide_eq_decide.2 eq_comm
  · rw [Bool.and_comm]
    congr 1
    exact decide_eq_decide.2 eq_comm

theorem strictEq_comm (a b : Option JSValue) : strictEq a b = strictEq b a := by
  cases a with
  | none => cases b with
    | none => rfl
    | some y => cases y <;> rfl
  | some x =>
    cases b with
    | none => cases x <;> rfl
    | some y =>
      cases x <;> cases y <;> simp only [strictEq]
      · exact Bool.beq_comm
      · exact F64.equal_comm _ _
      · exact Bool.beq_comm

theorem keptIds_cons_none (s : JSValue) (rest : List JSValue) (h : keptId s = none) :
    keptIds (s :: rest) = keptIds rest ∧ missingIds (s :: rest) = missingIds rest + 1 := by
  unfold keptIds missingIds
  rw [List.filterMap_cons, h, List.filter_cons]
  simp [h]

theorem keptIds_cons_some (s : JSValue) (rest : List JSValue) (v : JSValue)
    (h : keptId s = some v) :
    keptIds (s :: rest) = v :: keptIds rest ∧ missingIds (s :: rest) = missingIds rest := by
  unfold keptIds missingIds
  rw [List.filterMap_cons, h, List.filter_cons]
  simp [h]

theorem withIds_null (env : IdSource) (i : Nat) (rest : List JSValue) :
    withIds env i (.null :: rest) = none := by
  unfold withIds
  rfl

/-- The ids of the imported records are the ids of the backup, kept, and the ids
drawn from `i` on, in turn; when these are new to each other, no two imported
records have the same id. -/
theorem withIds_uniqueIds (env : IdSource) (parsed : List JSValue) :
    ∀ (i : Nat) (l : Ledger), withIds env i parsed = some l →
      (keptIds parsed).Pairwise (fun a b => strictEq (some a) (some b) = false) →
      (∀ a b, i ≤ a → a < b → b < i + missingIds parsed →
        strictEq (some (freshId env a)) (some (freshId env b)) = false) →
      (∀ a, i ≤ a → a < i + missingIds parsed → ∀ v ∈ keptIds parsed,
        strictEq (some v) (some (freshId env a)) = false) →
      UniqueIds l ∧ ∀ r ∈ l,
        (∃ v ∈ keptIds parsed, getProp r idKey = some v) ∨
          (∃ a, i ≤ a ∧ a < i + missingIds parsed ∧ getProp r idKey = some (freshId env a)) := by
  induction parsed with
  | nil =>
    intro i l hl _ _ _
    have : l = [] := by
      unfold withIds at hl
      cases hl; rfl
    subst this
    exact ⟨List.Pairwise.nil, fun r hr => absurd hr (List.not_mem_nil r)⟩
  | cons s rest ih =>
    intro i l hl hk hf hm
    have hs : s ≠ .null := by
      intro h
      rw [h, withIds_null] at hl
      cases hl
    rw [withIds_cons env i s rest hs] at hl
    cases hks : keptId s with
    | none =>
      obtain ⟨e1, e2⟩ := keptIds_cons_none s rest hks
      simp only [e1, e2] at hk hf hm ⊢
      simp only [hks] at hl
      cases hw : withIds env (i + 1) rest with
      | none => rw [hw] at hl; cases hl
      | some l1 =>
        rw [hw] at hl
        simp only [Option.map_some', Option.some.injEq] at hl
        subst hl
        obtain ⟨hu, hids⟩ := ih (i + 1) l1 hw hk
          (fun a b ha hab hb => hf a b (by omega) hab (by omega))
          (fun a ha hb v hv => hm a (by omega) (by omega) v hv)
        refine ⟨?_, ?_⟩
        · unfold UniqueIds
          rw [List.pairwise_cons]
          refine ⟨fun r hr => ?_, hu⟩
          rw [getProp_defineProp, if_pos rfl]
          rcases hids r hr with ⟨v, hv, hrv⟩ | ⟨a, ha1, ha2, hra⟩
          · rw [hrv, strictEq_comm]
            exact hm i (le_refl i) (by omega) v hv
          · rw [hra]
            exact hf i a (le_refl i) (by omega) (by omega)
        · intro r hr
          rcases List.mem_cons.1 hr with h | h
          · right
            refine ⟨i, le_refl i, by omega, ?_⟩
            rw [h, getProp_defineProp, if_pos rfl]
          · rcases hids r h with ⟨v, hv, hrv⟩ | ⟨a, ha1, ha2, hra⟩
            · exact Or.inl ⟨v, hv, hrv⟩
            · exact Or.inr ⟨a, by omega, by omega, hra⟩
    | some v =>
      obtain ⟨e1, e2⟩ := keptIds_cons_some s rest v hks
      simp only [e1, e2] at hk hf hm ⊢
      simp only [hks] at hl
      cases hw : withIds env i rest with
      | none => rw [hw] at hl; cases hl
      | some l1 =>
        rw [hw] at hl
        simp only [Option.map_some', Option.some.injEq] at hl
        subst hl
        rw [List.pairwise_cons] at hk
        obtain ⟨hu, hids⟩ := ih i l1 hw hk.2 hf
          (fun a ha hb w hw' => hm a ha hb w (List.mem_cons_of_mem _ hw'))
        refine ⟨?_, ?_⟩
        · unfold UniqueIds
          rw [List.pairwise_cons]
          refine ⟨fun r hr => ?_, hu⟩
          rw [getProp_defineProp, if_pos rfl]
          rcases hids r hr with ⟨w, hw', hrw⟩ | ⟨a, ha1, ha2, hra⟩
          · rw [hrw]
            exact hk.1 w hw'
          · rw [hra]
            exact hm a ha1 ha2 v (List.mem_cons_self _ _)
        · intro r hr
          rcases List.mem_cons.1 hr with h | h
          · left
            refine ⟨v, List.mem_cons_self _ _, ?_⟩
            rw [h, getProp_defineProp, if_pos rfl]
          · rcases hids r h with ⟨w, hw', hrw⟩ | ⟨a, ha1, ha2, hra⟩
            · exact Or.inl ⟨w, List.mem_cons_of_mem _ hw', hrw⟩
            · exact Or.inr ⟨a, ha1, ha2, hra⟩

/-- An import whose backup brings ids new to each other leaves a ledger in which
no two records have the same id, whatever the ledger held before. -/
theorem importData_uniqueIds (env : IdSource) (content : JSString) (st : AppState)
    (hu : UniqueIds st.subscriptions)
    (h : ∀ parsed ∈ backupElements content, DistinctBackupIds env parsed) :
    UniqueIds (importData env (some content) st).1.subscriptions := by
  unfold importData
  simp only
  cases hp : jsonParse (if content = [] then [91, 93] else content) with
  | none => exact hu
  | some v =>
    cases v with
    | arr parsed =>
      simp only
      cases hw : withIds env 0 parsed with
      | none => exact hu
      | some l =>
        obtain ⟨h1, h2, h3⟩ := h parsed (by unfold backupElements; rw [hp]; rfl)
        refine (withIds_uniqueIds env parsed 0 l hw h1 (fun a b _ hab hb => ?_)
          (fun a _ ha v hv => ?_)).1
        · exact h2 a (by omega) b (by omega) (by omega)
        · exact h3 a (by omega) v hv
    | null => exact hu
    | bool b => exact hu
    | num x => exact hu
    | str t => exact hu
    | obj ps => exact hu

theorem uniqueIds_deleteCard (i : Nat) (st : AppState) (hu : UniqueIds st.subscriptions) :
    UniqueIds (deleteCard i st).subscriptions := by
  unfold deleteCard
  cases st.subscriptions.get? i with
  | none => exact hu
  | some sub =>
    simp only
    split
    · exact List.Pairwise.filter _ hu
    · exact List.Pairwise.sublist (List.eraseIdx_sublist _ _) hu

theorem uniqueIds_applyOp (st : AppState) (op : Op) (hu : UniqueIds st.subscriptions)
    (hop : BringsNewIds st op) : UniqueIds (applyOp st op).subscriptions := by
  cases op with
  | add now form =>
    show UniqueIds (addSubscription now { st with formData := form }).subscriptions
    rcases addSubscription_subscriptions now { st with formData := form } with h | h
    · rw [h]; exact hu
    · rw [h]
      unfold UniqueIds
      rw [List.pairwise_append]
      refine ⟨hu, List.pairwise_singleton _ _, fun a ha b hb => ?_⟩
      rw [List.mem_singleton] at hb
      subst hb
      rw [getProp_defineProp, if_pos rfl]
      exact hop a ha
  | delete id =>
    show UniqueIds (st.subscriptions.filter _)
    exact List.Pairwise.filter _ hu
  | click i => exact uniqueIds_deleteCard i st hu
  | importFile env content => exact importData_uniqueIds env content st hu hop

theorem uniqueIds_run (ops : List Op) : ∀ st : AppState, UniqueIds st.subscriptions →
    AllBringNewIds ops st → UniqueIds (run ops st).subscriptions := by
  induction ops with
  | nil => intro st hu _; exact hu
  | cons op rest ih =>
    intro st hu h
    exact ih (applyOp st op) (uniqueIds_applyOp st op hu h.1) h.2

set_option maxRecDepth 100000 in
/-- C8, as stated, fails: from the empty ledger, importing a backup in which two
records carry the id 1 leaves a ledger with two records of the same id; and so
does a backup of two records without id, when the clock and the random number
stay the same between the two draws. -/
theorem duplicate_ids_imported :
    (run [.importFile constantIds (utf16 "[\x7b\"id\":1\x7d,\x7b\"id\":1\x7d]")]
        initialState).subscriptions
      = [[(idKey, .num (F64.ofNat 1))], [(idKey, .num (F64.ofNat 1))]] ∧
    ¬ UniqueIds (run [.importFile constantIds (utf16 "[\x7b\"id\":1\x7d,\x7b\"id\":1\x7d]")]
        initialState).subscriptions ∧
    ¬ UniqueIds (run [.importFile constantIds (utf16 "[\x7b\x7d,\x7b\x7d]")]
        initialState).subscriptions := by
  decide!

/-- C8, amended: starting from the empty ledger, after any sequence of adds,
deletes (by id or by a click on a card) and imports in which every add happens at
a clock reading that is the id of no record of the ledger and every imported
backup brings ids new to each other (the ids its elements carry differ pairwise,
and the ids drawn for its elements without id differ from each other and from
those), no two records of the ledger have the same id. -/
theorem uniqueIds_invariant (ops : List Op) (h : AllBringNewIds ops initialState) :
    UniqueIds (run ops initialState).subscriptions :=
  uniqueIds_run ops initialState List.Pairwise.nil h

set_option maxRecDepth 100000 in
theorem uniqueIds_invariant_witness :
    AllBringNewIds sampleOps initialState ∧ (run sampleOps initialState).subscriptions.length = 3 ∧
      UniqueIds (run sampleOps initialState).subscriptions :=
  ⟨by decide!, by decide!, uniqueIds_invariant sampleOps (by decide!)⟩

set_option maxRecDepth 100000 in
/-- C9, as stated, fails: with a record of id 5 in the ledger, an add at the
clock reading 5 appends a record with that same id. -/
theorem clock_id_collides :
    truthy (getProp takenIdState.formData (utf16 "name")) = true ∧
      truthy (getProp takenIdState.formData (utf16 "cost")) = true ∧
      truthy (getProp takenIdState.formData (utf16 "nextBilling")) = true ∧
      (addSubscription 5 takenIdState).subscriptions =
        takenIdState.subscriptions ++ [filledForm ++ [(idKey, .num (F64.ofNat 5))]] ∧
      ¬ UniqueIds (addSubscription 5 takenIdState).subscriptions := by
  decide!

/-- C9, amended: for every ledger and every form whose name, cost and
nextBilling are all present and non-empty (truthy), `addSubscription` yields the
previous ledger, unchanged and in the same order, followed by exactly one new
record that has the form's properties (name, cost, billingCycle, nextBilling
and category among them) and the clock reading as id; that id collides with no
id of the ledger when no record has the clock reading as id. -/
theorem addSubscription_appends (now : Nat) (st : AppState)
    (h : truthy (getProp st.formData (utf16 "name")) = true ∧
      truthy (getProp st.formData (utf16 "cost")) = true ∧
      truthy (getProp st.formData (utf16 "nextBilling")) = true) :
    ∃ r, (addSubscription now st).subscriptions = st.subscriptions ++ [r] ∧
      (∀ k, k ≠ idKey → getProp r k = getProp st.formData k) ∧
      getProp r idKey = some (.num (F64.ofNat now)) ∧
      ((∀ sub ∈ st.subscriptions,
          strictEq (getProp sub idKey) (some (.num (F64.ofNat now))) = false) →
        ∀ sub ∈ st.subscriptions, strictEq (getProp sub idKey) (getProp r idKey) = false) := by
  refine ⟨defineProp st.formData idKey (.num (F64.ofNat now)), ?_, fun k hk => ?_, ?_, fun hf => ?_⟩
  · rw [addSubscription_of_filled now st h]
  · rw [getProp_defineProp, if_neg hk]
  · rw [getProp_defineProp, if_pos rfl]
  · rw [getProp_defineProp, if_pos rfl]; exact hf

set_option maxRecDepth 100000 in
theorem addSubscription_appends_witness :
    (truthy (getProp takenIdState.formData (utf16 "name")) = true ∧
      truthy (getProp takenIdState.formData (utf16 "cost")) = true ∧
      truthy (getProp takenIdState.formData (utf16 "nextBilling")) = true) ∧
    ∃ r, (addSubscription 6 takenIdState).subscriptions = takenIdState.subscriptions ++ [r] ∧
      (∀ k, k ≠ idKey → getProp r k = getProp takenIdState.formData k) ∧
      getProp r idKey = some (.num (F64.ofNat 6)) ∧
      ((∀ sub ∈ takenIdState.subscriptions,
          strictEq (getProp sub idKey) (some (.num (F64.ofNat 6))) = false) →
        ∀ sub ∈ takenIdState.subscriptions,
          strictEq (getProp sub idKey) (getProp r idKey) = false) :=
  ⟨by decide!, addSubscription_appends 6 takenIdState (by decide!)⟩

/-- C10: for every ledger and every form in which name, cost or nextBilling is
absent or empty (falsy), `addSubscription` changes nothing: the state after the
call, the ledger with it, is the state before, and no error is raised (the
function is total). An absent property and the empty string are both falsy. -/
theorem addSubscription_noop (now : Nat) (st : AppState)
    (h : truthy (getProp st.formData (utf16 "name")) = false ∨
      truthy (getProp st.formData (utf16 "cost")) = false ∨
      truthy (getProp st.formData (utf16 "nextBilling")) = false) :
    addSubscription now st = st ∧ truthy none = false ∧ truthy (some (.str [])) = false := by
  refine ⟨?_, rfl, rfl⟩
  unfold addSubscription
  rcases h with h | h | h <;> rw [h] <;> simp

set_option maxRecDepth 100000 in
theorem addSubscription_noop_witness :
    truthy (getProp scenarioState.formData (utf16 "name")) = false ∧
      addSubscription 1700000000000 scenarioState = scenarioState :=
  ⟨by decide!, (addSubscription_noop 1700000000000 scenarioState (Or.inl (by decide!))).1⟩

/-! ## Export followed by import -/

theorem elementId_of_keptId (s : JSValue) (v : JSValue) (h : keptId s = some v) :
    elementId s = some v := by
  unfold keptId at h
  cases he : elementId s with
  | none => rw [he] at h; cases h
  | some w =>
    rw [he] at h
    cases w <;> first | (cases h; done) | (injection h with h; rw [h])

theorem restoredFrom_defineProp (env : IdSource) (r : Record) (v : JSValue)
    (h : keptId (.obj r) = some v ∨ (keptId (.obj r) = none ∧ ∃ i, v = freshId env i)) :
    RestoredFrom env r (defineProp r idKey v) := by
  refine ⟨fun hid => ?_, fun k hk => ?_, fun hn => ?_⟩
  · rcases h with h | ⟨h, _⟩
    · exact defineProp_self r idKey v (elementId_of_keptId _ _ h)
    · exact absurd h hid
  · rw [getProp_defineProp, if_neg hk]
  · rw [getProp_defineProp, if_pos rfl]
    rcases h with h | ⟨_, i, hi⟩
    · exact absurd (show hasId r by unfold hasId; rw [h]; exact Option.some_ne_none v) hn
    · exact ⟨i, by rw [hi]⟩

theorem withIds_objects (env : IdSource) (ledger : Ledger) :
    ∀ i, ∃ l, withIds env i (ledger.map .obj) = some l ∧
      List.Forall₂ (RestoredFrom env) ledger l := by
  induction ledger with
  | nil => intro i; exact ⟨[], rfl, List.Forall₂.nil⟩
  | cons r rest ih =>
    intro i
    rw [List.map_cons, withIds_cons env i (.obj r) _ (by intro h; cases h)]
    cases hk : keptId (.obj r) with
    | none =>
      obtain ⟨l, hl, hf⟩ := ih (i + 1)
      refine ⟨defineProp r idKey (freshId env i) :: l,
        by simp only [hl, Option.map_some']; rfl, List.Forall₂.cons ?_ hf⟩
      exact restoredFrom_defineProp env r _ (Or.inr ⟨hk, i, rfl⟩)
    | some v =>
      obtain ⟨l, hl, hf⟩ := ih i
      refine ⟨defineProp r idKey v :: l,
        by simp only [hl, Option.map_some']; rfl, List.Forall₂.cons ?_ hf⟩
      exact restoredFrom_defineProp env r _ (Or.inl hk)

set_option maxRecDepth 100000 in
/-- C7, as stated, fails: the ledger that the import of `[{"id":1,"cost":1e999}]`
leaves holds an infinite cost; exported, the cost is written `null`, and the
ledger read back has the cost `null`, not the one exported. -/
theorem infinite_cost_lost :
    (importData constantIds (some (utf16 "[\x7b\"id\":1,\"cost\":1e999\x7d]"))
        initialState).1.subscriptions = infiniteCostLedger ∧
      (importData constantIds
          (some (exportData { initialState with subscriptions := infiniteCostLedger }))
          initialState).1.subscriptions
        = [[(idKey, .num (F64.ofNat 1)), (utf16 "cost", .null)]] ∧
      getProp [(idKey, .num (F64.ofNat 1)), (utf16 "cost", .null)] (utf16 "cost")
        ≠ getProp [(idKey, .num (F64.ofNat 1)), (utf16 "cost", .num (F64.inf false))]
            (utf16 "cost") := by
  decide!

theorem import_of_parsed_export (env : IdSource) (st st1 : AppState)
    (hrt : jsonParse (exportData st) = some (ledgerValue st.subscriptions)) :
    ∃ l, importData env (some (exportData st)) st1 = ({ st1 with subscriptions := l }, none) ∧
      l.length = st.subscriptions.length ∧
      List.Forall₂ (RestoredFrom env) st.subscriptions l := by
  have hne : exportData st ≠ [] := by
    intro h; rw [h, jsonParse_nil] at hrt; cases hrt
  obtain ⟨l, hl, hf⟩ := withIds_objects env st.subscriptions 0
  refine ⟨l, ?_, hf.length_eq.symm, hf⟩
  unfold importData
  unfold ledgerValue at hrt
  simp only [if_neg hne, hrt, hl]

/-! ## `JSON.parse` reads back what `JSON.stringify` writes -/

theorem hexValue_hexDigit (d : Nat) (h : d < 16) : hexValue (hexDigit d) = some d := by
  have : d = 0 ∨ d = 1 ∨ d = 2 ∨ d = 3 ∨ d = 4 ∨ d = 5 ∨ d = 6 ∨ d = 7 ∨ d = 8 ∨ d = 9 ∨
      d = 10 ∨ d = 11 ∨ d = 12 ∨ d = 13 ∨ d = 14 ∨ d = 15 := by omega
  rcases this with h | h | h | h | h | h | h | h | h | h | h | h | h | h | h | h <;>
    subst h <;> decide

theorem parseStringBody_literal (c : Nat) (t : JSString) (h32 : ¬ c < 32) (h34 : c ≠ 34)
    (h92 : c ≠ 92) :
    parseStringBody (c :: t) = (parseStringBody t).map fun p => (c :: p.1, p.2) := by
  rw [parseStringBody.eq_def]
  simp only [h34, h92, h32, if_false]

theorem parseStringBody_escape (e u : Nat) (t : JSString) (h : unescape e = some u)
    (h117 : e ≠ 117) :
    parseStringBody (92 :: e :: t) = (parseStringBody t).map fun p => (u :: p.1, p.2) := by
  rw [parseStringBody.eq_def]
  simp only [show (92 : Nat) ≠ 34 by decide, if_false, if_true, h117, h]

theorem parseStringBody_unicode (c : Nat) (t : JSString) (h : c < 65536) :
    parseStringBody (unicodeEscape c ++ t) = (parseStringBody t).map fun p => (c :: p.1, p.2) := by
  unfold unicodeEscape
  rw [List.cons_append, List.cons_append, List.cons_append, List.cons_append, List.cons_append,
    List.cons_append, List.nil_append, parseStringBody.eq_def]
  simp only [show (92 : Nat) ≠ 34 by decide, if_false, if_true,
    hexValue_hexDigit _ (Nat.mod_lt _ (by decide : 16 > 0))]
  have hc : c / 4096 % 16 * 4096 + c / 256 % 16 * 256 + c / 16 % 16 * 16 + c % 16 = c := by omega
  rw [hc]

theorem parseStringBody_quoteBodyAux (s : JSString) : ∀ (b : Bool) (rest : JSString),
    parseStringBody (quoteBodyAux b s ++ 34 :: rest) = some (s, rest) := by
  induction s with
  | nil =>
    intro b rest
    rw [quoteBodyAux, List.nil_append, parseStringBody.eq_def]
    simp
  | cons c t ih =>
    intro b rest
    rw [quoteBodyAux]
    by_cases h8 : c = 8
    · subst h8
      simp only [if_true, List.cons_append, List.nil_append]
      rw [parseStringBody_escape 98 8 _ (by decide) (by decide), ih]; rfl
    by_cases h9 : c = 9
    · subst h9
      simp only [show (9 : Nat) ≠ 8 by decide, if_false, if_true, List.cons_append, List.nil_append]
      rw [parseStringBody_escape 116 9 _ (by decide) (by decide), ih]; rfl
    by_cases h10 : c = 10
    · subst h10
      simp only [show (10 : Nat) ≠ 8 by decide, show (10 : Nat) ≠ 9 by decide, if_false, if_true,
        List.cons_append, List.nil_append]
      rw [parseStringBody_escape 110 10 _ (by decide) (by decide), ih]; rfl
    by_cases h12 : c = 12
    · subst h12
      simp only [show (12 : Nat) ≠ 8 by decide, show (12 : Nat) ≠ 9 by decide,
        show (12 : Nat) ≠ 10 by decide, if_false, if_true, List.cons_append, List.nil_append]
      rw [parseStringBody_escape 102 12 _ (by decide) (by decide), ih]; rfl
    by_cases h13 : c = 13
    · subst h13
      simp only [show (13 : Nat) ≠ 8 by decide, show (13 : Nat) ≠ 9 by decide,
        show (13 : Nat) ≠ 10 by decide, show (13 : Nat) ≠ 12 by decide, if_false, if_true,
        List.cons_append, List.nil_append]
      rw [parseStringBody_escape 114 13 _ (by decide) (by decide), ih]; rfl
    by_cases h34 : c = 34
    · subst h34
      simp only [show (34 : Nat) ≠ 8 by decide, show (34 : Nat) ≠ 9 by decide,
        show (34 : Nat) ≠ 10 by decide, show (34 : Nat) ≠ 12 by decide,
        show (34 : Nat) ≠ 13 by decide, if_false, if_true, List.cons_append, List.nil_append]
      rw [parseStringBody_escape 34 34 _ (by decide) (by decide), ih]; rfl
    by_cases h92 : c = 92
    · subst h92
      simp only [show (92 : Nat) ≠ 8 by decide, show (92 : Nat) ≠ 9 by decide,
        show (92 : Nat) ≠ 10 by decide, show (92 : Nat) ≠ 12 by decide,
        show (92 : Nat) ≠ 13 by decide, show (92 : Nat) ≠ 34 by decide, if_false, if_true,
        List.cons_append, List.nil_append]
      rw [parseStringBody_escape 92 92 _ (by decide) (by decide), ih]; rfl
    simp only [h8, h9, h10, h12, h13, h34, h92, if_false]
    by_cases h32 : c < 32
    · rw [if_pos h32, List.append_assoc, parseStringBody_unicode c _ (by omega), ih]; rfl
    rw [if_neg h32]
    by_cases hhi : 0xD800 ≤ c ∧ c ≤ 0xDBFF
    · rw [if_pos hhi]
      split
      · rw [List.cons_append, parseStringBody_literal c _ h32 h34 h92, ih]; rfl
      · rw [List.append_assoc, parseStringBody_unicode c _ (by omega), ih]; rfl
    rw [if_neg hhi]
    by_cases hlo : 0xDC00 ≤ c ∧ c ≤ 0xDFFF
    · rw [if_pos hlo]
      split
      · rw [List.cons_append, parseStringBody_literal c _ h32 h34 h92, ih]; rfl
      · rw [List.append_assoc, parseStringBody_unicode c _ (by omega), ih]; rfl
    rw [if_neg hlo, List.cons_append, parseStringBody_literal c _ h32 h34 h92, ih]; rfl

theorem parseStringBody_quoteJSON (s rest : JSString) :
    ∃ t, quoteJSON s ++ rest = 34 :: t ∧ parseStringBody t = some (s, rest) := by
  refine ⟨quoteBodyAux false s ++ 34 :: rest, ?_, parseStringBody_quoteBodyAux s false rest⟩
  unfold quoteJSON
  simp

theorem skipWs_cons_of_not_ws (c : Nat) (r : JSString) (h : isJsonWs c = false) :
    skipWs (c :: r) = c :: r := by
  unfold skipWs
  rw [List.dropWhile_cons, h]
  rfl

theorem skipWs_spaces (n : Nat) (t : JSString) :
    skipWs (List.replicate n 32 ++ t) = skipWs t := by
  induction n with
  | zero => rfl
  | succ k ih =>
    rw [List.replicate_succ, List.cons_append]
    unfold skipWs at ih ⊢
    rw [List.dropWhile_cons, show isJsonWs 32 = true by decide]
    exact ih

theorem skipWs_newline (n : Nat) (t : JSString) : skipWs (newline n ++ t) = skipWs t := by
  unfold newline
  rw [List.cons_append]
  have h := skipWs_spaces n t
  unfold skipWs at h ⊢
  rw [List.dropWhile_cons, show isJsonWs 10 = true by decide]
  exact h

theorem skipWs_space (t : JSString) : skipWs (32 :: t) = skipWs t := by
  unfold skipWs
  rw [List.dropWhile_cons, show isJsonWs 32 = true by decide]
  rfl

theorem parseValue_null (f : Nat) (rest : JSString) :
    parseValue (f + 1) ([110, 117, 108, 108] ++ rest) = some (.null, rest) := by
  show parseValue (f + 1) (110 :: 117 :: 108 :: 108 :: rest) = _
  rw [parseValue]
  simp [List.isPrefixOf]

theorem parseValue_true (f : Nat) (rest : JSString) :
    parseValue (f + 1) ([116, 114, 117, 101] ++ rest) = some (.bool true, rest) := by
  show parseValue (f + 1) (116 :: 114 :: 117 :: 101 :: rest) = _
  rw [parseValue]
  simp [List.isPrefixOf]

theorem parseValue_false (f : Nat) (rest : JSString) :
    parseValue (f + 1) ([102, 97, 108, 115, 101] ++ rest) = some (.bool false, rest) := by
  show parseValue (f + 1) (102 :: 97 :: 108 :: 115 :: 101 :: rest) = _
  rw [parseValue]
  simp [List.isPrefixOf]

theorem parseValue_string (f : Nat) (s rest : JSString) :
    parseValue (f + 1) (quoteJSON s ++ rest) = some (.str s, rest) := by
  obtain ⟨t, ht, hp⟩ := parseStringBody_quoteJSON s rest
  rw [ht, parseValue]
  simp [hp]

theorem parseValue_empty_array (f : Nat) (rest : JSString) :
    parseValue (f + 1) ([91, 93] ++ rest) = some (.arr [], rest) := by
  show parseValue (f + 1) (91 :: 93 :: rest) = _
  rw [parseValue]
  simp [skipWs_cons_of_not_ws 93 rest (by decide)]

theorem parseValue_empty_object (f : Nat) (rest : JSString) :
    parseValue (f + 1) ([123, 125] ++ rest) = some (.obj [], rest) := by
  show parseValue (f + 1) (123 :: 125 :: rest) = _
  rw [parseValue]
  simp [skipWs_cons_of_not_ws 125 rest (by decide)]

theorem parseValue_array (f n : Nat) (d : Nat) (t : JSString) (hws : isJsonWs d = false)
    (hd : d ≠ 93) :
    parseValue (f + 1) ([91] ++ newline n ++ d :: t) = parseElements f (d :: t) [] := by
  rw [List.append_assoc, List.singleton_append, parseValue]
  simp [skipWs_newline, skipWs_cons_of_not_ws d t hws, hd]

theorem parseValue_object (f n : Nat) (d : Nat) (t : JSString) (hws : isJsonWs d = false)
    (hd : d ≠ 125) :
    parseValue (f + 1) ([123] ++ newline n ++ d :: t) = parseMembers f (d :: t) [] := by
  rw [List.append_assoc, List.singleton_append, parseValue]
  simp [skipWs_newline, skipWs_cons_of_not_ws d t hws, hd]

theorem numberToString_head (x : F64) (hx : ReadsBackNumber x) :
    ∃ h t, numberToString x = h :: t ∧ (h = 45 ∨ isDigit h = true) := by
  have hp := hx.2 44 [] (Or.inl rfl)
  cases hs : numberToString x with
  | nil =>
    rw [hs] at hp
    have : parseNumber ([] ++ [44]) = none := by decide
    rw [this] at hp; cases hp
  | cons h t =>
    refine ⟨h, t, rfl, ?_⟩
    by_cases h45 : h = 45
    · left; exact h45
    · right
      rw [hs, List.cons_append] at hp
      unfold parseNumber at hp
      simp only [h45, if_false] at hp
      by_contra hd
      have hd' : isDigit h = false := by simpa using hd
      have h48 : h ≠ 48 := by
        intro h48; rw [h48] at hd'; exact absurd hd' (by decide)
      have hip : takeIntPart (h :: (t ++ [44])) = [] := by
        unfold takeIntPart
        simp only [h48, if_false]
        rw [List.takeWhile_cons, hd']
        rfl
      unfold parseUnsignedNumber at hp
      simp only [hip, if_true] at hp
      cases hp

theorem parseValue_number (f : Nat) (x : F64) (hx : ReadsBackNumber x) (c : Nat)
    (rest : JSString) (hc : c = 44 ∨ c = 10) :
    parseValue (f + 1) (numberToString x ++ c :: rest) = some (.num x, c :: rest) := by
  obtain ⟨h, t, hs, hh⟩ := numberToString_head x hx
  have hp := hx.2 c rest hc
  rw [hs, List.cons_append] at hp ⊢
  have hrange : h = 45 ∨ (48 ≤ h ∧ h ≤ 57) := by
    rcases hh with hh | hh
    · left; exact hh
    · right; unfold isDigit at hh; simpa using hh
  have h1 : h ≠ 123 := by omega
  have h2 : h ≠ 91 := by omega
  have h3 : h ≠ 34 := by omega
  have h4 : (116 == h) = false := by simp; omega
  have h5 : (102 == h) = false := by simp; omega
  have h6 : (110 == h) = false := by simp; omega
  rw [parseValue]
  simp only [h1, h2, h3, if_false, List.isPrefixOf, h4, h5, h6, Bool.false_and,
    Bool.false_eq_true, hp, Option.map_some']

theorem serializeValue_head (v : JSValue) (indent : Nat)
    (hnum : ∀ x, v = .num x → ReadsBackNumber x) :
    ∃ d t, serializeValue indent v = d :: t ∧ isJsonWs d = false ∧ d ≠ 93 ∧ d ≠ 125 := by
  cases v with
  | null => exact ⟨110, [117, 108, 108], by rw [serializeValue], by decide, by decide, by decide⟩
  | bool b =>
    cases b
    · exact ⟨102, [97, 108, 115, 101], by rw [serializeValue]; rfl, by decide, by decide,
        by decide⟩
    · exact ⟨116, [114, 117, 101], by rw [serializeValue]; rfl, by decide, by decide, by decide⟩
  | num x =>
    have hx := hnum x rfl
    obtain ⟨h, t, hs, hh⟩ := numberToString_head x hx
    refine ⟨h, t, by rw [serializeValue, hx.1, if_pos rfl, hs], ?_⟩
    rcases hh with hh | hh
    · subst hh; exact ⟨by decide, by decide, by decide⟩
    · unfold isDigit at hh
      have : 48 ≤ h ∧ h ≤ 57 := by simpa using hh
      refine ⟨?_, by omega, by omega⟩
      unfold isJsonWs
      have a1 : h ≠ 32 := by omega
      have a2 : h ≠ 9 := by omega
      have a3 : h ≠ 10 := by omega
      have a4 : h ≠ 13 := by omega
      simp [a1, a2, a3, a4]
  | str s =>
    exact ⟨34, quoteBodyAux false s ++ [34], by rw [serializeValue]; rfl, by decide, by decide,
      by decide⟩
  | arr xs =>
    cases xs with
    | nil => exact ⟨91, [93], by rw [serializeValue], by decide, by decide, by decide⟩
    | cons x rest =>
      exact ⟨91, _, by rw [serializeValue]; rfl, by decide, by decide, by decide⟩
  | obj ps =>
    cases ps with
    | nil => exact ⟨123, [125], by rw [serializeValue], by decide, by decide, by decide⟩
    | cons p rest =>
      exact ⟨123, _, by rw [serializeValue]; rfl, by decide, by decide, by decide⟩

theorem parseElements_last (f : Nat) (s r r2 : JSString) (v : JSValue) (acc : List JSValue)
    (h1 : parseValue f s = some (v, r)) (h2 : skipWs r = 93 :: r2) :
    parseElements (f + 1) s acc = some (.arr (v :: acc).reverse, r2) := by
  rw [parseElements]
  simp [h1, h2]

theorem parseElements_more (f : Nat) (s r r2 : JSString) (v : JSValue) (acc : List JSValue)
    (h1 : parseValue f s = some (v, r)) (h2 : skipWs r = 44 :: r2) :
    parseElements (f + 1) s acc = parseElements f (skipWs r2) (v :: acc) := by
  rw [parseElements]
  simp [h1, h2]

theorem parseMembers_last (f : Nat) (s1 k r r1 r2 r3 : JSString) (v : JSValue) (acc : Record)
    (h1 : parseStringBody s1 = some (k, r)) (h2 : skipWs r = 58 :: r1)
    (h3 : parseValue f (skipWs r1) = some (v, r2)) (h4 : skipWs r2 = 125 :: r3) :
    parseMembers (f + 1) (34 :: s1) acc = some (.obj (defineProp acc k v), r3) := by
  rw [parseMembers]
  simp [h1, h2, h3, h4]

theorem parseMembers_more (f : Nat) (s1 k r r1 r2 r3 : JSString) (v : JSValue) (acc : Record)
    (h1 : parseStringBody s1 = some (k, r)) (h2 : skipWs r = 58 :: r1)
    (h3 : parseValue f (skipWs r1) = some (v, r2)) (h4 : skipWs r2 = 44 :: r3) :
    parseMembers (f + 1) (34 :: s1) acc = parseMembers f (skipWs r3) (defineProp acc k v) := by
  rw [parseMembers]
  simp [h1, h2, h3, h4]

theorem readsBackNumber_of_readsBack (v : JSValue) (hv : v.ReadsBack) :
    ∀ x, v = .num x → ReadsBackNumber x := by
  intro x h
  subst h
  simpa [JSValue.ReadsBack] using hv

theorem skipWs_serializeValue (v : JSValue) (hv : v.ReadsBack) (indent : Nat) (rest : JSString) :
    skipWs (serializeValue indent v ++ rest) = serializeValue indent v ++ rest := by
  obtain ⟨d, t, hd, hws, _, _⟩ := serializeValue_head v indent (readsBackNumber_of_readsBack v hv)
  rw [hd, List.cons_append]
  exact skipWs_cons_of_not_ws d _ hws

theorem serializeElements_cons (indent : Nat) (x : JSValue) (xs : List JSValue) :
    ∃ t, serializeElements indent (x :: xs) = serializeValue indent x ++ t := by
  cases xs with
  | nil => exact ⟨[], by rw [serializeElements, List.append_nil]⟩
  | cons y rest => exact ⟨_, by rw [serializeElements, List.append_assoc, List.append_assoc]⟩

theorem serializeMembers_cons (indent : Nat) (p : JSString × JSValue) (ps : Record) :
    ∃ t, serializeMembers indent (p :: ps) = 34 :: t := by
  obtain ⟨k, v⟩ := p
  cases ps with
  | nil => exact ⟨_, by rw [serializeMembers]; rfl⟩
  | cons q rest => exact ⟨_, by rw [serializeMembers]; rfl⟩

mutual
/-- Parsing the text of a value that is read back gives the value and what
follows the text. -/
theorem parseValue_serializeValue : ∀ (v : JSValue), v.ReadsBack →
    ∀ (indent fuel : Nat) (rest : JSString), v.need ≤ fuel →
    (∀ x, v = .num x → ∃ c r, rest = c :: r ∧ (c = 44 ∨ c = 10)) →
    parseValue fuel (serializeValue indent v ++ rest) = some (v, rest)
  | .null, _, indent, fuel, rest, hf, _ => by
    obtain ⟨f, rfl⟩ : ∃ f, fuel = f + 1 := ⟨fuel - 1, by simp only [JSValue.need] at hf; omega⟩
    rw [serializeValue]; exact parseValue_null f rest
  | .bool b, _, indent, fuel, rest, hf, _ => by
    obtain ⟨f, rfl⟩ : ∃ f, fuel = f + 1 := ⟨fuel - 1, by simp only [JSValue.need] at hf; omega⟩
    rw [serializeValue]
    cases b
    · exact parseValue_false f rest
    · exact parseValue_true f rest
  | .num x, hv, indent, fuel, rest, hf, htail => by
    obtain ⟨f, rfl⟩ : ∃ f, fuel = f + 1 := ⟨fuel - 1, by simp only [JSValue.need] at hf; omega⟩
    obtain ⟨c, r, rfl, hc⟩ := htail x rfl
    have hx := readsBackNumber_of_readsBack _ hv x rfl
    rw [serializeValue, hx.1, if_pos rfl]
    exact parseValue_number f x hx c r hc
  | .str s, _, indent, fuel, rest, hf, _ => by
    obtain ⟨f, rfl⟩ : ∃ f, fuel = f + 1 := ⟨fuel - 1, by simp only [JSValue.need] at hf; omega⟩
    rw [serializeValue]; exact parseValue_string f s rest
  | .arr [], _, indent, fuel, rest, hf, _ => by
    obtain ⟨f, rfl⟩ : ∃ f, fuel = f + 1 := ⟨fuel - 1, by simp only [JSValue.need] at hf; omega⟩
    rw [serializeValue]; exact parseValue_empty_array f rest
  | .arr (x :: xs), hv, indent, fuel, rest, hf, _ => by
    obtain ⟨f, rfl⟩ : ∃ f, fuel = f + 1 := ⟨fuel - 1, by simp only [JSValue.need] at hf; omega⟩
    have hf' : JSValue.needList (x :: xs) ≤ f := by simp only [JSValue.need] at hf; omega
    have hl : JSValue.ReadsBackList (x :: xs) := by simpa only [JSValue.ReadsBack] using hv
    have hx : x.ReadsBack := by simp only [JSValue.ReadsBackList] at hl; exact hl.1
    obtain ⟨t, ht⟩ := serializeElements_cons (indent + 2) x xs
    obtain ⟨d, t1, hd, hws, h93, _⟩ :=
      serializeValue_head x (indent + 2) (readsBackNumber_of_readsBack x hx)
    have hT : serializeValue indent (.arr (x :: xs)) ++ rest =
        [91] ++ newline (indent + 2) ++
          d :: (t1 ++ t ++ (newline indent ++ 93 :: rest)) := by
      rw [serializeValue, ht, hd]; simp [List.append_assoc]
    have hE : d :: (t1 ++ t ++ (newline indent ++ 93 :: rest)) =
        serializeElements (indent + 2) (x :: xs) ++ (newline indent ++ 93 :: rest) := by
      rw [ht, hd]; simp [List.append_assoc]
    rw [hT, parseValue_array f (indent + 2) d _ hws h93, hE,
      parseElements_serializeElements (x :: xs) (by simp) hl (indent + 2) indent f rest [] hf']
    rfl
  | .obj [], _, indent, fuel, rest, hf, _ => by
    obtain ⟨f, rfl⟩ : ∃ f, fuel = f + 1 := ⟨fuel - 1, by simp only [JSValue.need] at hf; omega⟩
    rw [serializeValue]; exact parseValue_empty_object f rest
  | .obj (p :: ps), hv, indent, fuel, rest, hf, _ => by
    obtain ⟨f, rfl⟩ : ∃ f, fuel = f + 1 := ⟨fuel - 1, by simp only [JSValue.need] at hf; omega⟩
    have hf' : JSValue.needProps (p :: ps) ≤ f := by simp only [JSValue.need] at hf; omega
    have hl : InPropertyOrder (p :: ps) ∧ JSValue.ReadsBackProps (p :: ps) := by
      simpa only [JSValue.ReadsBack] using hv
    obtain ⟨t, ht⟩ := serializeMembers_cons (indent + 2) p ps
    have hT : serializeValue indent (.obj (p :: ps)) ++ rest =
        [123] ++ newline (indent + 2) ++ 34 :: (t ++ (newline indent ++ 125 :: rest)) := by
      rw [serializeValue, ht]; simp [List.append_assoc]
    have hE : 34 :: (t ++ (newline indent ++ 125 :: rest)) =
        serializeMembers (indent + 2) (p :: ps) ++ (newline indent ++ 125 :: rest) := by
      rw [ht]; simp
    rw [hT, parseValue_object f (indent + 2) 34 _ (by decide) (by decide), hE,
      parseMembers_serializeMembers (p :: ps) (by simp) hl.2 (indent + 2) indent f rest [] hf']
    have ho : List.foldl (fun acc p => defineProp acc p.1 p.2) [] (p :: ps) = p :: ps := hl.1
    rw [ho]
/-- Parsing the text of the elements of an array up to its closing bracket. -/
theorem parseElements_serializeElements : ∀ (xs : List JSValue), xs ≠ [] →
    JSValue.ReadsBackList xs → ∀ (indent ind0 fuel : Nat) (rest : JSString) (acc : List JSValue),
    JSValue.needList xs ≤ fuel →
    parseElements fuel (serializeElements indent xs ++ (newline ind0 ++ 93 :: rest)) acc
      = some (.arr (acc.reverse ++ xs), rest)
  | [], h, _, _, _, _, _, _, _ => absurd rfl h
  | [x], _, hl, indent, ind0, fuel, rest, acc, hf => by
    obtain ⟨f, rfl⟩ : ∃ f, fuel = f + 1 :=
      ⟨fuel - 1, by simp only [JSValue.needList] at hf; omega⟩
    have hf' : x.need ≤ f := by simp only [JSValue.needList] at hf; omega
    have hx : x.ReadsBack := by simp only [JSValue.ReadsBackList] at hl; exact hl.1
    have hv := parseValue_serializeValue x hx indent f (newline ind0 ++ 93 :: rest) hf'
      (fun _ _ => ⟨10, _, rfl, Or.inr rfl⟩)
    rw [serializeElements]
    rw [parseElements_last f _ _ rest x acc hv
      (by rw [skipWs_newline]; exact skipWs_cons_of_not_ws 93 rest (by decide))]
    simp
  | x :: y :: more, _, hl, indent, ind0, fuel, rest, acc, hf => by
    obtain ⟨f, rfl⟩ : ∃ f, fuel = f + 1 :=
      ⟨fuel - 1, by simp only [JSValue.needList] at hf; omega⟩
    have hfx : x.need ≤ f := by simp only [JSValue.needList] at hf; omega
    have hfr : JSValue.needList (y :: more) ≤ f := by
      simp only [JSValue.needList] at hf ⊢; omega
    have hx : x.ReadsBack := by simp only [JSValue.ReadsBackList] at hl; exact hl.1
    have hr : JSValue.ReadsBackList (y :: more) := by
      simp only [JSValue.ReadsBackList] at hl ⊢; exact hl.2
    have hy : y.ReadsBack := by simp only [JSValue.ReadsBackList] at hr; exact hr.1
    have hT : serializeElements indent (x :: y :: more) ++ (newline ind0 ++ 93 :: rest) =
        serializeValue indent x ++ 44 :: (newline indent ++
          (serializeElements indent (y :: more) ++ (newline ind0 ++ 93 :: rest))) := by
      rw [serializeElements]; simp [List.append_assoc]
    have hv := parseValue_serializeValue x hx indent f
      (44 :: (newline indent ++
        (serializeElements indent (y :: more) ++ (newline ind0 ++ 93 :: rest)))) hfx
      (fun _ _ => ⟨44, _, rfl, Or.inl rfl⟩)
    obtain ⟨t, ht⟩ := serializeElements_cons indent y more
    have hskip : skipWs (newline indent ++
        (serializeElements indent (y :: more) ++ (newline ind0 ++ 93 :: rest))) =
        serializeElements indent (y :: more) ++ (newline ind0 ++ 93 :: rest) := by
      rw [skipWs_newline, ht, List.append_assoc]
      exact skipWs_serializeValue y hy indent _
    rw [hT, parseElements_more f _ _ _ x acc hv (skipWs_cons_of_not_ws 44 _ (by decide)), hskip,
      parseElements_serializeElements (y :: more) (by simp) hr indent ind0 f rest (x :: acc) hfr]
    simp
/-- Parsing the text of the members of an object up to its closing brace. -/
theorem parseMembers_serializeMembers : ∀ (ps : Record), ps ≠ [] →
    JSValue.ReadsBackProps ps → ∀ (indent ind0 fuel : Nat) (rest : JSString) (acc : Record),
    JSValue.needProps ps ≤ fuel →
    parseMembers fuel (serializeMembers indent ps ++ (newline ind0 ++ 125 :: rest)) acc
      = some (.obj (ps.foldl (fun acc p => defineProp acc p.1 p.2) acc), rest)
  | [], h, _, _, _, _, _, _, _ => absurd rfl h
  | [(k, v)], _, hl, indent, ind0, fuel, rest, acc, hf => by
    obtain ⟨f, rfl⟩ : ∃ f, fuel = f + 1 :=
      ⟨fuel - 1, by simp only [JSValue.needProps] at hf; omega⟩
    have hf' : v.need ≤ f := by simp only [JSValue.needProps] at hf; omega
    have hx : v.ReadsBack := by simp only [JSValue.ReadsBackProps] at hl; exact hl.1
    have hv := parseValue_serializeValue v hx indent f (newline ind0 ++ 125 :: rest) hf'
      (fun _ _ => ⟨10, _, rfl, Or.inr rfl⟩)
    obtain ⟨s1, hs1, hk⟩ := parseStringBody_quoteJSON k
      (58 :: 32 :: (serializeValue indent v ++ (newline ind0 ++ 125 :: rest)))
    have hT : serializeMembers indent [(k, v)] ++ (newline ind0 ++ 125 :: rest) = 34 :: s1 := by
      rw [← hs1, serializeMembers]; simp [List.append_assoc]
    rw [hT, parseMembers_last f s1 k _ _ _ rest v acc hk
      (skipWs_cons_of_not_ws 58 _ (by decide))
      (by rw [skipWs_space, skipWs_serializeValue v hx]; exact hv)
      (by rw [skipWs_newline]; exact skipWs_cons_of_not_ws 125 rest (by decide))]
    rfl
  | (k, v) :: q :: more, _, hl, indent, ind0, fuel, rest, acc, hf => by
    obtain ⟨f, rfl⟩ : ∃ f, fuel = f + 1 :=
      ⟨fuel - 1, by simp only [JSValue.needProps] at hf; omega⟩
    have hfx : v.need ≤ f := by simp only [JSValue.needProps] at hf; omega
    have hfr : JSValue.needProps (q :: more) ≤ f := by
      simp only [JSValue.needProps] at hf ⊢; omega
    have hx : v.ReadsBack := by simp only [JSValue.ReadsBackProps] at hl; exact hl.1
    have hr : JSValue.ReadsBackProps (q :: more) := by
      simp only [JSValue.ReadsBackProps] at hl ⊢; exact hl.2
    have hv := parseValue_serializeValue v hx indent f
      (44 :: (newline indent ++
        (serializeMembers indent (q :: more) ++ (newline ind0 ++ 125 :: rest)))) hfx
      (fun _ _ => ⟨44, _, rfl, Or.inl rfl⟩)
    obtain ⟨s1, hs1, hk⟩ := parseStringBody_quoteJSON k
      (58 :: 32 :: (serializeValue indent v ++ 44 :: (newline indent ++
        (serializeMembers indent (q :: more) ++ (newline ind0 ++ 125 :: rest)))))
    have hT : serializeMembers indent ((k, v) :: q :: more) ++ (newline ind0 ++ 125 :: rest)
        = 34 :: s1 := by
      rw [← hs1, serializeMembers]; simp [List.append_assoc]
    obtain ⟨t, ht⟩ := serializeMembers_cons indent q more
    have hskip : skipWs (newline indent ++
        (serializeMembers indent (q :: more) ++ (newline ind0 ++ 125 :: rest))) =
        serializeMembers indent (q :: more) ++ (newline ind0 ++ 125 :: rest) := by
      rw [skipWs_newline, ht, List.cons_append]
      exact skipWs_cons_of_not_ws 34 _ (by decide)
    rw [hT, parseMembers_more f s1 k _ _ _ _ v acc hk
      (skipWs_cons_of_not_ws 58 _ (by decide))
      (by rw [skipWs_space, skipWs_serializeValue v hx]; exact hv)
      (skipWs_cons_of_not_ws 44 _ (by decide)), hskip,
      parseMembers_serializeMembers (q :: more) (by simp) hr indent ind0 f rest
        (defineProp acc k v) hfr]
    rfl
end

theorem length_newline (n : Nat) : (newline n).length = n + 1 := by
  unfold newline; simp

theorem length_serializeValue_pos (v : JSValue) (hv : v.ReadsBack) (indent : Nat) :
    1 ≤ (serializeValue indent v).length := by
  obtain ⟨d, t, hd, _⟩ := serializeValue_head v indent (readsBackNumber_of_readsBack v hv)
  rw [hd]; simp

mutual
/-- The recursion depth that a value takes is at most the length of its text. -/
theorem need_le_length : ∀ (v : JSValue), v.ReadsBack → ∀ indent : Nat,
    v.need ≤ (serializeValue indent v).length
  | .null, hv, indent => by
    have := length_serializeValue_pos .null hv indent; simp only [JSValue.need]; omega
  | .bool b, hv, indent => by
    have := length_serializeValue_pos (.bool b) hv indent; simp only [JSValue.need]; omega
  | .num x, hv, indent => by
    have := length_serializeValue_pos (.num x) hv indent; simp only [JSValue.need]; omega
  | .str s, hv, indent => by
    have := length_serializeValue_pos (.str s) hv indent; simp only [JSValue.need]; omega
  | .arr [], _, indent => by
    rw [serializeValue]; simp [JSValue.need, JSValue.needList]
  | .arr (x :: xs), hv, indent => by
    have hl : JSValue.ReadsBackList (x :: xs) := by simpa only [JSValue.ReadsBack] using hv
    have h := needList_le_length (x :: xs) (by simp) hl (indent + 2)
    rw [serializeValue]
    simp only [JSValue.need, List.length_append, length_newline, List.length_singleton]
    omega
  | .obj [], _, indent => by
    rw [serializeValue]; simp [JSValue.need, JSValue.needProps]
  | .obj (p :: ps), hv, indent => by
    have hl : InPropertyOrder (p :: ps) ∧ JSValue.ReadsBackProps (p :: ps) := by
      simpa only [JSValue.ReadsBack] using hv
    have h := needProps_le_length (p :: ps) (by simp) hl.2 (indent + 2)
    rw [serializeValue]
    simp only [JSValue.need, List.length_append, length_newline, List.length_singleton]
    omega
/-- The recursion depth that the elements of an array take. -/
theorem needList_le_length : ∀ (xs : List JSValue), xs ≠ [] → JSValue.ReadsBackList xs →
    ∀ indent : Nat, JSValue.needList xs ≤ (serializeElements indent xs).length + 1
  | [], h, _, _ => absurd rfl h
  | [x], _, hl, indent => by
    have hx : x.ReadsBack := by simp only [JSValue.ReadsBackList] at hl; exact hl.1
    have h := need_le_length x hx indent
    rw [serializeElements]
    simp only [JSValue.needList]
    omega
  | x :: y :: more, _, hl, indent => by
    have hx : x.ReadsBack := by simp only [JSValue.ReadsBackList] at hl; exact hl.1
    have hr : JSValue.ReadsBackList (y :: more) := by
      simp only [JSValue.ReadsBackList] at hl ⊢; exact hl.2
    have h1 := need_le_length x hx indent
    have h2 := needList_le_length (y :: more) (by simp) hr indent
    rw [serializeElements]
    simp only [JSValue.needList, List.length_append, length_newline, List.length_singleton]
      at h2 ⊢
    omega
/-- The recursion depth that the members of an object take. -/
theorem needProps_le_length : ∀ (ps : Record), ps ≠ [] → JSValue.ReadsBackProps ps →
    ∀ indent : Nat, JSValue.needProps ps ≤ (serializeMembers indent ps).length + 1
  | [], h, _, _ => absurd rfl h
  | [(k, v)], _, hl, indent => by
    have hx : v.ReadsBack := by simp only [JSValue.ReadsBackProps] at hl; exact hl.1
    have h := need_le_length v hx indent
    rw [serializeMembers]
    simp only [JSValue.needProps, List.length_append]
    omega
  | (k, v) :: q :: more, _, hl, indent => by
    have hx : v.ReadsBack := by simp only [JSValue.ReadsBackProps] at hl; exact hl.1
    have hr : JSValue.ReadsBackProps (q :: more) := by
      simp only [JSValue.ReadsBackProps] at hl ⊢; exact hl.2
    have h1 := need_le_length v hx indent
    have h2 := needProps_le_length (q :: more) (by simp) hr indent
    rw [serializeMembers]
    simp only [JSValue.needProps, List.length_append, length_newline, List.length_singleton]
      at h2 ⊢
    omega
end

/-- `JSON.parse` reads back from the text of `JSON.stringify(value, null, 2)` the
value written, for every array or object (or string, boolean, `null`) whose
Numbers are read back and whose objects are in property order. -/
theorem jsonParse_jsonStringify (v : JSValue) (hv : v.ReadsBack) (hnum : ∀ x, v ≠ .num x) :
    jsonParse (jsonStringify v) = some v := by
  unfold jsonParse jsonStringify
  have hskip : skipWs (serializeValue 0 v) = serializeValue 0 v := by
    have := skipWs_serializeValue v hv 0 []
    rwa [List.append_nil] at this
  have hfuel : v.need ≤ 2 * (serializeValue 0 v).length + 2 := by
    have := need_le_length v hv 0; omega
  have hp := parseValue_serializeValue v hv 0 _ [] hfuel (fun x hx => absurd hx (hnum x))
  rw [List.append_nil] at hp
  rw [hskip, hp]
  rfl

theorem takeWhile_append_stop (p : Nat → Bool) (ds : List Nat) (c : Nat) (rest : List Nat)
    (hall : ∀ a ∈ ds, p a = true) (hc : p c = false) :
    (ds ++ c :: rest).takeWhile p = ds := by
  induction ds with
  | nil => rw [List.nil_append, List.takeWhile_cons, hc]; rfl
  | cons a t ih =>
    rw [List.cons_append, List.takeWhile_cons, hall a (List.mem_cons_self _ _)]
    simp only [if_true]
    rw [ih (fun b hb => hall b (List.mem_cons_of_mem _ hb))]

/-- A finite Number whose text is a plain numeral (digits without sign, point or
exponent, as for the clock readings used as ids) is read back, provided the
numeral has the Number as value. -/
theorem readsBackNumber_of_numeral (x : F64) (ds : JSString) (hfin : x.isFinite = true)
    (hs : numberToString x = ds) (hne : ds ≠ []) (hall : ∀ a ∈ ds, isDigit a = true)
    (hlead : ds.head? ≠ some 48 ∨ ds = [48])
    (hval : F64.ofDecimal false (digitsValue ds) 0 = x) : ReadsBackNumber x := by
  refine ⟨hfin, fun c rest hc => ?_⟩
  have hcd : isDigit c = false := by rcases hc with h | h <;> subst h <;> decide
  have hc46 : c ≠ 46 := by rcases hc with h | h <;> subst h <;> decide
  have hc101 : ¬ (c = 101 ∨ c = 69) := by rcases hc with h | h <;> subst h <;> decide
  rw [hs]
  obtain ⟨d, t, rfl⟩ := List.exists_cons_of_ne_nil hne
  have hd : isDigit d = true := hall d (List.mem_cons_self _ _)
  have hd45 : d ≠ 45 := by
    intro h; rw [h] at hd; exact absurd hd (by decide)
  have hip : takeIntPart ((d :: t) ++ c :: rest) = d :: t := by
    rw [List.cons_append]
    unfold takeIntPart
    dsimp only
    by_cases h48 : d = 48
    · rw [if_pos h48]
      rcases hlead with h | h
      · rw [h48] at h; exact absurd rfl h
      · rw [h]
    · rw [if_neg h48]
      rw [← List.cons_append]
      exact takeWhile_append_stop isDigit (d :: t) c rest hall hcd
  have hr1 : ((d :: t) ++ c :: rest).drop (d :: t).length = c :: rest := by
    rw [List.drop_left]
  show parseNumber (d :: t ++ c :: rest) = some (x, c :: rest)
  unfold parseNumber
  rw [List.cons_append]
  dsimp only
  rw [if_neg hd45, ← List.cons_append]
  unfold parseUnsignedNumber
  simp only [hip, hr1]
  have hfr : takeFraction (c :: rest) = [] := by
    unfold takeFraction; dsimp only; rw [if_neg hc46]
  have hex : takeExponent (c :: rest) = (0, 0) := by
    unfold takeExponent; dsimp only; rw [if_neg hc101]
  simp only [hfr, hex, List.append_nil, List.length_nil, if_true]
  rw [if_neg (by simp)]
  simp only [Nat.cast_zero, sub_zero, List.drop_zero]
  rw [hval]

/-- C7, amended: for every ledger that `JSON.parse` reads back from its exported
text (its records hold their properties in property order, and each of its
Numbers is read back from the text written for it, which a Number that is not
finite, written `null`, is not), importing the export raises no alert and yields
a ledger with the same number of records in the same order: a record that had
an id (neither absent nor `null`) comes back as it was, and a record without one
comes back with its other properties as they were and an id drawn from the clock
and the random source. -/
theorem export_import_restores (env : IdSource) (st st1 : AppState)
    (hrb : (ledgerValue st.subscriptions).ReadsBack) :
    ∃ l, importData env (some (exportData st)) st1 = ({ st1 with subscriptions := l }, none) ∧
      l.length = st.subscriptions.length ∧
      List.Forall₂ (RestoredFrom env) st.subscriptions l :=
  import_of_parsed_export env st st1
    (jsonParse_jsonStringify (ledgerValue st.subscriptions) hrb (fun x h => by cases h))

set_option maxRecDepth 100000 in
theorem readsBackNumber_clock : ReadsBackNumber (F64.ofNat 1700000000000) :=
  readsBackNumber_of_numeral (F64.ofNat 1700000000000) (utf16 "1700000000000") (by decide!)
    (by decide!) (by decide) (by decide) (Or.inl (by decide)) (by decide!)

set_option maxRecDepth 100000 in
theorem readsBack_savedLedger : (ledgerValue savedLedger).ReadsBack := by
  have h1 : InPropertyOrder (filledForm ++ [(idKey, .num (F64.ofNat 1700000000000))]) := by
    unfold InPropertyOrder; decide!
  have h2 : InPropertyOrder (costRecord (.str (utf16 "119.88")) "yearly") := by
    unfold InPropertyOrder; decide!
  exact ⟨⟨h1, trivial, trivial, trivial, trivial, trivial, readsBackNumber_clock, trivial⟩,
    ⟨h2, trivial, trivial, trivial⟩, trivial⟩

set_option maxRecDepth 100000 in
theorem export_import_restores_witness :
    (ledgerValue savedLedger).ReadsBack ∧
      ∃ l, importData tickingIds
          (some (exportData { initialState with subscriptions := savedLedger })) scenarioState
          = ({ scenarioState with subscriptions := l }, none) ∧
        l.length = savedLedger.length ∧
        List.Forall₂ (RestoredFrom tickingIds) savedLedger l :=
  ⟨readsBack_savedLedger,
    export_import_restores tickingIds { initialState with subscriptions := savedLedger }
      scenarioState readsBack_savedLedger⟩

theorem hasProp_eq_false (o : Record) (k : JSString) (h : ∀ p ∈ o, p.1 ≠ k) :
    hasProp o k = false := by
  induction o with
  | nil => rfl
  | cons p rest ih =>
    obtain ⟨kp, vp⟩ := p
    unfold hasProp at ih ⊢
    rw [getProp_cons, if_neg (h (kp, vp) (List.mem_cons_self _ _))]
    exact ih fun q hq => h q (List.mem_cons_of_mem _ hq)

theorem foldl_defineProp_named (props : Record) : ∀ acc : Record,
    (props.map Prod.fst).Nodup → (∀ p ∈ props, arrayIndex p.1 = none) →
    (∀ p ∈ props, ∀ q ∈ acc, q.1 ≠ p.1) →
    props.foldl (fun acc p => defineProp acc p.1 p.2) acc = acc ++ props := by
  induction props with
  | nil => intro acc _ _ _; simp
  | cons p rest ih =>
    intro acc hnd hidx hdis
    rw [List.map_cons, List.nodup_cons] at hnd
    have hp : hasProp acc p.1 = false :=
      hasProp_eq_false acc p.1 (hdis p (List.mem_cons_self _ _))
    have hdef : defineProp acc p.1 p.2 = acc ++ [p] := by
      unfold defineProp
      rw [if_neg (by rw [hp]; exact Bool.false_ne_true), hidx p (List.mem_cons_self _ _)]
    rw [List.foldl_cons, hdef,
      ih (acc ++ [p]) hnd.2 (fun q hq => hidx q (List.mem_cons_of_mem _ hq)) ?_]
    · simp
    · intro q hq r hr
      rw [List.mem_append, List.mem_singleton] at hr
      rcases hr with hr | hr
      · exact hdis q (List.mem_cons_of_mem _ hq) r hr
      · subst hr
        intro heq
        exact hnd.1 (by rw [heq]; exact List.mem_map_of_mem Prod.fst hq)

/-- A record whose keys are pairwise different and none an array index (as the
records stored from the form are) holds its properties in property order. -/
theorem inPropertyOrder_of_named (props : Record) (hnd : (props.map Prod.fst).Nodup)
    (hidx : ∀ p ∈ props, arrayIndex p.1 = none) : InPropertyOrder props := by
  unfold InPropertyOrder
  rw [foldl_defineProp_named props [] hnd hidx (fun _ _ q hq => absurd hq (List.not_mem_nil q))]
  rfl

/-! ## Deleting -/

theorem filter_eq_self_of_all {α : Type} (p : α → Bool) (l : List α) (h : ∀ a ∈ l, p a = true) :
    l.filter p = l := List.filter_eq_self.2 h

theorem filter_eq_nil_of_none {α : Type} (p : α → Bool) (l : List α) (h : ∀ a ∈ l, p a = false) :
    l.filter p = [] := by
  induction l with
  | nil => rfl
  | cons a t ih =>
    rw [List.filter_cons, h a (List.mem_cons_self _ _)]
    exact ih fun b hb => h b (List.mem_cons_of_mem _ hb)

theorem get?_append_length {α : Type} (before : List α) (x : α) (after : List α) :
    (before ++ x :: after).get? before.length = some x := by
  induction before with
  | nil => rfl
  | cons a t ih => exact ih

theorem eraseIdx_append_length {α : Type} (before : List α) (x : α) (after : List α) :
    (before ++ x :: after).eraseIdx before.length = before ++ after := by
  induction before with
  | nil => rfl
  | cons a t ih =>
    show a :: (t ++ x :: after).eraseIdx t.length = a :: (t ++ after)
    rw [ih]

/-- C11: for every ledger and every id that is a primitive value (or absent),
`deleteSubscription(id)` leaves the rest of the state as it was and keeps exactly
the records whose id does not match (`===`), in their original relative order; a
ledger in which one record has the id comes back without that record, and when
no record has the id the state is unchanged. The function is total: no error is
raised. An id that is an array or an object reaches `deleteSubscription` only
from the click on the card of its record, with which alone it is identical: that
click removes this one record and keeps every other record in order, also a
record whose id has the same content. -/
theorem deleteSubscription_spec (id : Option JSValue) (st : AppState)
    (hid : isPrimitive id = true) :
    (deleteSubscription id st).formData = st.formData ∧
      (deleteSubscription id st).showForm = st.showForm ∧
      (deleteSubscription id st).subscriptions.Sublist st.subscriptions ∧
      (∀ sub, sub ∈ (deleteSubscription id st).subscriptions ↔
        sub ∈ st.subscriptions ∧ strictEq (getProp sub idKey) id = false) ∧
      (∀ before r after, st.subscriptions = before ++ r :: after →
        strictEq (getProp r idKey) id = true →
        (∀ sub ∈ before ++ after, strictEq (getProp sub idKey) id = false) →
        (deleteSubscription id st).subscriptions = before ++ after) ∧
      ((∀ sub ∈ st.subscriptions, strictEq (getProp sub idKey) id = false) →
        deleteSubscription id st = st) ∧
      (∀ i sub, st.subscriptions.get? i = some sub → getProp sub idKey = id →
        deleteCard i st = deleteSubscription id st) ∧
      (∀ before sub after, st.subscriptions = before ++ sub :: after →
        isPrimitive (getProp sub idKey) = false →
        deleteCard before.length st = { st with subscriptions := before ++ after }) := by
  refine ⟨rfl, rfl, List.filter_sublist _, fun sub => ?_, fun before r after hl hr hrest => ?_,
    fun hnone => ?_, fun i sub hi hsub => ?_, fun before sub after hl hobj => ?_⟩
  · show sub ∈ st.subscriptions.filter _ ↔ _
    rw [List.mem_filter]
    simp [idKey]
  · show st.subscriptions.filter _ = _
    have hkeep : ∀ l : Ledger, (∀ sub ∈ l, strictEq (getProp sub idKey) id = false) →
        l.filter (fun sub => !strictEq (getProp sub (utf16 "id")) id) = l := by
      intro l hl
      apply filter_eq_self_of_all
      intro a ha
      have := hl a ha
      unfold idKey at this
      rw [this]; rfl
    rw [hl, List.filter_append, List.filter_cons]
    have hr' : (!strictEq (getProp r (utf16 "id")) id) = false := by
      unfold idKey at hr; rw [hr]; rfl
    rw [hr']
    simp only [Bool.false_eq_true, if_false]
    rw [hkeep before fun s hs => hrest s (List.mem_append_left _ hs),
      hkeep after fun s hs => hrest s (List.mem_append_right _ hs)]
  · have : st.subscriptions.filter (fun sub => !strictEq (getProp sub (utf16 "id")) id)
        = st.subscriptions := by
      apply filter_eq_self_of_all
      intro a ha
      have := hnone a ha
      unfold idKey at this
      rw [this]; rfl
    unfold deleteSubscription
    rw [this]
  · unfold deleteCard
    unfold idKey at hsub
    rw [hi]
    simp only [hsub, hid, if_true]
  · unfold deleteCard
    unfold idKey at hobj
    rw [hl, get?_append_length]
    simp only [hobj, Bool.false_eq_true, if_false]
    rw [eraseIdx_append_length]

set_option maxRecDepth 100000 in
theorem deleteSubscription_spec_witness :
    (∀ sub ∈ takenIdState.subscriptions,
        strictEq (getProp sub idKey) (some (.num (F64.ofNat 6))) = false) ∧
      deleteSubscription (some (.num (F64.ofNat 6))) takenIdState = takenIdState ∧
      (deleteSubscription (some (.num (F64.ofNat 5))) takenIdState).subscriptions = [] ∧
      deleteCard 0 takenIdState = deleteSubscription (some (.num (F64.ofNat 5))) takenIdState ∧
      twinIdState.subscriptions =
        [[(idKey, .arr [.num (F64.ofNat 1)]), (utf16 "name", .str (utf16 "a"))],
         [(idKey, .arr [.num (F64.ofNat 1)]), (utf16 "name", .str (utf16 "b"))]] ∧
      deleteCard 0 twinIdState =
        { twinIdState with subscriptions :=
            [[(idKey, .arr [.num (F64.ofNat 1)]), (utf16 "name", .str (utf16 "b"))]] } :=
  ⟨by decide!,
    (deleteSubscription_spec (some (.num (F64.ofNat 6))) takenIdState rfl).2.2.2.2.2.1
      (by decide!),
    (deleteSubscription_spec (some (.num (F64.ofNat 5))) takenIdState rfl).2.2.2.2.1 []
      [(utf16 "name", .str (utf16 "Old")), (idKey, .num (F64.ofNat 5))] [] rfl (by decide!)
      (fun _ h => absurd h (List.not_mem_nil _)),
    (deleteSubscription_spec (some (.num (F64.ofNat 5))) takenIdState rfl).2.2.2.2.2.2.1 0
      [(utf16 "name", .str (utf16 "Old")), (idKey, .num (F64.ofNat 5))] rfl (by decide!),
    by decide!,
    (deleteSubscription_spec none twinIdState rfl).2.2.2.2.2.2.2 []
      [(idKey, .arr [.num (F64.ofNat 1)]), (utf16 "name", .str (utf16 "a"))]
      [[(idKey, .arr [.num (F64.ofNat 1)]), (utf16 "name", .str (utf16 "b"))]]
      (by decide!) (by decide!)⟩

/-! ## Adding, then deleting -/

theorem F64.equal_self (x : F64) (h : x ≠ F64.nan) : F64.equal x x = true := by
  cases x with
  | nan => exact absurd rfl h
  | inf s => simp [F64.equal]
  | fin s m e => simp [F64.equal]

theorem F64.roundScaled_ne_nan (neg : Bool) (e0 : Int) (num den : Nat) :
    F64.roundScaled neg e0 num den ≠ F64.nan := by
  unfold F64.roundScaled
  simp only
  split_ifs <;> (intro h; cases h)

theorem F64.ofRat_ne_nan (neg : Bool) (n d : Nat) : F64.ofRat neg n d ≠ F64.nan := by
  unfold F64.ofRat
  split
  · intro h; cases h
  · unfold F64.roundPos; exact F64.roundScaled_ne_nan _ _ _ _

theorem strictEq_clock (now : Nat) :
    strictEq (some (.num (F64.ofNat now))) (some (.num (F64.ofNat now))) = true := by
  show F64.equal _ _ = true
  exact F64.equal_self _ (F64.ofRat_ne_nan _ _ _)

set_option maxRecDepth 100000 in
/-- C12, as stated, fails: with a record of id 5 in the ledger, an add at the
clock reading 5 followed by the delete of the id assigned removes both records,
and the ledger is left empty instead of as it was. -/
theorem add_delete_removes_older :
    truthy (getProp takenIdState.formData (utf16 "name")) = true ∧
      truthy (getProp takenIdState.formData (utf16 "cost")) = true ∧
      truthy (getProp takenIdState.formData (utf16 "nextBilling")) = true ∧
      takenIdState.subscriptions.length = 1 ∧
      (deleteSubscription (some (.num (F64.ofNat 5)))
        (addSubscription 5 takenIdState)).subscriptions = [] := by
  decide!

/-- C12, amended: for every ledger and every form whose name, cost and
nextBilling are present and non-empty (truthy), when no record of the ledger has
the clock reading as id, `addSubscription` at that clock reading followed by
`deleteSubscription` of the id assigned (the clock reading) leaves the ledger as
it was before the add: the same records in the same order. -/
theorem add_then_delete_restores (now : Nat) (st : AppState)
    (h : truthy (getProp st.formData (utf16 "name")) = true ∧
      truthy (getProp st.formData (utf16 "cost")) = true ∧
      truthy (getProp st.formData (utf16 "nextBilling")) = true)
    (hnew : ∀ sub ∈ st.subscriptions,
      strictEq (getProp sub idKey) (some (.num (F64.ofNat now))) = false) :
    (∃ r, (addSubscription now st).subscriptions = st.subscriptions ++ [r] ∧
        getProp r idKey = some (.num (F64.ofNat now))) ∧
      (deleteSubscription (some (.num (F64.ofNat now)))
        (addSubscription now st)).subscriptions = st.subscriptions := by
  rw [addSubscription_of_filled now st h]
  constructor
  · exact ⟨_, rfl, by rw [getProp_defineProp, if_pos rfl]⟩
  · show (st.subscriptions ++ [defineProp st.formData idKey (.num (F64.ofNat now))]).filter _ = _
    rw [List.filter_append]
    have h1 : st.subscriptions.filter
        (fun sub => !strictEq (getProp sub (utf16 "id")) (some (.num (F64.ofNat now))))
        = st.subscriptions := by
      apply filter_eq_self_of_all
      intro a ha
      have := hnew a ha
      unfold idKey at this
      rw [this]; rfl
    have h2 : [defineProp st.formData idKey (.num (F64.ofNat now))].filter
        (fun sub => !strictEq (getProp sub (utf16 "id")) (some (.num (F64.ofNat now)))) = [] := by
      apply filter_eq_nil_of_none
      intro a ha
      rw [List.mem_singleton] at ha
      subst ha
      have : getProp (defineProp st.formData idKey (.num (F64.ofNat now))) (utf16 "id")
          = some (.num (F64.ofNat now)) := by
        show getProp _ idKey = _
        rw [getProp_defineProp, if_pos rfl]
      rw [this, strictEq_clock]; rfl
    rw [h1, h2, List.append_nil]

set_option maxRecDepth 100000 in
theorem add_then_delete_restores_witness :
    (truthy (getProp takenIdState.formData (utf16 "name")) = true ∧
      truthy (getProp takenIdState.formData (utf16 "cost")) = true ∧
      truthy (getProp takenIdState.formData (utf16 "nextBilling")) = true) ∧
    (∀ sub ∈ takenIdState.subscriptions,
      strictEq (getProp sub idKey) (some (.num (F64.ofNat 6))) = false) ∧
    (deleteSubscription (some (.num (F64.ofNat 6)))
      (addSubscription 6 takenIdState)).subscriptions = takenIdState.subscriptions :=
  ⟨by decide!, by decide!, (add_then_delete_restores 6 takenIdState (by decide!) (by decide!)).2⟩


/-! ## The calendar -/

theorem leapDay_range (leap : Bool) : 0 ≤ leapDay leap ∧ leapDay leap ≤ 1 := by
  cases leap <;> decide

theorem dayFromYear_succ (y : Int) :
    dayFromYear (y + 1) = dayFromYear y + 365 + leapDay (isLeapYear y) := by
  unfold dayFromYear isLeapYear leapDay
  by_cases h4 : y % 4 = 0 <;> by_cases h100 : y % 100 = 0 <;> by_cases h400 : y % 400 = 0 <;>
    simp [h4, h100, h400] <;> omega

theorem dayFromYear_lt_succ (y : Int) : dayFromYear y < dayFromYear (y + 1) := by
  rw [dayFromYear_succ]
  have := leapDay_range (isLeapYear y)
  omega

theorem dayFromYear_estimate (y : Int) :
    146097 * (y - 1970) - 506 ≤ 400 * dayFromYear y ∧
      400 * dayFromYear y ≤ 146097 * (y - 1970) + 589 := by
  unfold dayFromYear
  constructor <;> omega

theorem yearFromDay_spec (y n : Int) (h1 : dayFromYear y ≤ n) (h2 : n < dayFromYear (y + 1)) :
    yearFromDay n = y := by
  have hl := (dayFromYear_estimate y).1
  have hu := (dayFromYear_estimate (y + 1)).2
  have hs0 := dayFromYear_lt_succ y
  have hs1 := dayFromYear_lt_succ (y + 1)
  have hc : 400 * n / 146097 = y - 1971 ∨ 400 * n / 146097 = y - 1970 ∨
      400 * n / 146097 = y - 1969 := by omega
  unfold yearFromDay
  simp only
  rcases hc with h | h | h <;> rw [h]
  · have e1 : 1970 + (y - 1971) + 1 = y := by ring
    rw [e1, if_pos h1]
  · have e1 : 1970 + (y - 1970) + 1 = y + 1 := by ring
    have e2 : 1970 + (y - 1970) = y := by ring
    rw [e1, e2, if_neg (by omega), if_neg (by omega)]
  · have e1 : 1970 + (y - 1969) + 1 = y + 1 + 1 := by ring
    have e2 : 1970 + (y - 1969) = y + 1 := by ring
    rw [e1, e2, if_neg (by omega), if_pos h2]
    ring

theorem yearFromDay_bounds (n : Int) :
    dayFromYear (yearFromDay n) ≤ n ∧ n < dayFromYear (yearFromDay n + 1) := by
  have hc := dayFromYear_estimate (1970 + 400 * n / 146097)
  have hc1 := dayFromYear_estimate (1970 + 400 * n / 146097 + 1)
  have hm := dayFromYear_estimate (1970 + 400 * n / 146097 - 1)
  have s1 := dayFromYear_succ (1970 + 400 * n / 146097 + 1)
  have s0 := dayFromYear_succ (1970 + 400 * n / 146097 - 1)
  have e0 : 1970 + 400 * n / 146097 - 1 + 1 = 1970 + 400 * n / 146097 := by ring
  rw [e0] at s0
  unfold yearFromDay
  simp only
  split_ifs with h1 h2
  · refine ⟨h1, ?_⟩
    rw [s1]
    have := leapDay_range (isLeapYear (1970 + 400 * n / 146097 + 1))
    omega
  · rw [e0]
    refine ⟨?_, h2⟩
    have := leapDay_range (isLeapYear (1970 + 400 * n / 146097 - 1))
    omega
  · exact ⟨by omega, by omega⟩

theorem ite_both {P : Int → Prop} (c : Prop) [Decidable c] (a b : Int) (ha : c → P a)
    (hb : ¬ c → P b) : P (if c then a else b) := by
  by_cases h : c
  · rw [if_pos h]; exact ha h
  · rw [if_neg h]; exact hb h

theorem monthOfYearDay_range (d : Int) (leap : Bool) :
    0 ≤ monthOfYearDay d leap ∧ monthOfYearDay d leap ≤ 11 := by
  unfold monthOfYearDay
  refine ite_both (P := fun k => 0 ≤ k ∧ k ≤ 11) _ _ _ (fun _ => by decide) fun _ => ?_
  refine ite_both (P := fun k => 0 ≤ k ∧ k ≤ 11) _ _ _ (fun _ => by decide) fun _ => ?_
  refine ite_both (P := fun k => 0 ≤ k ∧ k ≤ 11) _ _ _ (fun _ => by decide) fun _ => ?_
  refine ite_both (P := fun k => 0 ≤ k ∧ k ≤ 11) _ _ _ (fun _ => by decide) fun _ => ?_
  refine ite_both (P := fun k => 0 ≤ k ∧ k ≤ 11) _ _ _ (fun _ => by decide) fun _ => ?_
  refine ite_both (P := fun k => 0 ≤ k ∧ k ≤ 11) _ _ _ (fun _ => by decide) fun _ => ?_
  refine ite_both (P := fun k => 0 ≤ k ∧ k ≤ 11) _ _ _ (fun _ => by decide) fun _ => ?_
  refine ite_both (P := fun k => 0 ≤ k ∧ k ≤ 11) _ _ _ (fun _ => by decide) fun _ => ?_
  refine ite_both (P := fun k => 0 ≤ k ∧ k ≤ 11) _ _ _ (fun _ => by decide) fun _ => ?_
  refine ite_both (P := fun k => 0 ≤ k ∧ k ≤ 11) _ _ _ (fun _ => by decide) fun _ => ?_
  exact ite_both (P := fun k => 0 ≤ k ∧ k ≤ 11) _ _ _ (fun _ => by decide) fun _ => by decide

theorem dayWithinYear_range (n : Int) :
    0 ≤ dayWithinYear n ∧ dayWithinYear n < 365 + leapDay (isLeapYear (yearFromDay n)) := by
  have h := yearFromDay_bounds n
  rw [dayFromYear_succ] at h
  unfold dayWithinYear
  constructor <;> omega

/-- The day of year, month and date of a day is that day, and a date beyond the
month counts on from it. -/
theorem makeDay_fields (n k : Int) :
    makeDay (yearFromDay n) (monthFromDay n) (dateFromDay n + k) = n + k := by
  have hm := monthOfYearDay_range (dayWithinYear n) (isLeapYear (yearFromDay n))
  have h1 : monthFromDay n / 12 = 0 := by unfold monthFromDay; omega
  have h2 : monthFromDay n % 12 = monthFromDay n := by unfold monthFromDay; omega
  unfold makeDay
  rw [h1, h2, add_zero]
  unfold dateFromDay dayWithinYear
  ring

theorem daysBeforeMonth_values (leap : Bool) :
    daysBeforeMonth 0 leap = 0 ∧ daysBeforeMonth 1 leap = 31 ∧
    daysBeforeMonth 2 leap = 59 + leapDay leap ∧ daysBeforeMonth 3 leap = 90 + leapDay leap ∧
    daysBeforeMonth 4 leap = 120 + leapDay leap ∧ daysBeforeMonth 5 leap = 151 + leapDay leap ∧
    daysBeforeMonth 6 leap = 181 + leapDay leap ∧ daysBeforeMonth 7 leap = 212 + leapDay leap ∧
    daysBeforeMonth 8 leap = 243 + leapDay leap ∧ daysBeforeMonth 9 leap = 273 + leapDay leap ∧
    daysBeforeMonth 10 leap = 304 + leapDay leap ∧ daysBeforeMonth 11 leap = 334 + leapDay leap := by
  cases leap <;> decide

theorem monthOfYearDay_daysBeforeMonth (mn d : Int) (leap : Bool) (hm0 : 0 ≤ mn) (hm1 : mn ≤ 11)
    (hd0 : 1 ≤ d)
    (hd1 : d ≤ (if mn = 1 then (if leap then 29 else 28)
      else if mn = 3 ∨ mn = 5 ∨ mn = 8 ∨ mn = 10 then 30 else 31)) :
    monthOfYearDay (daysBeforeMonth mn leap + d - 1) leap = mn ∧
      daysBeforeMonth mn leap + d - 1 < 365 + leapDay leap ∧ 0 ≤ daysBeforeMonth mn leap := by
  obtain ⟨v0, v1, v2, v3, v4, v5, v6, v7, v8, v9, v10, v11⟩ := daysBeforeMonth_values leap
  have hl : leapDay leap = if leap then 1 else 0 := rfl
  have hc : mn = 0 ∨ mn = 1 ∨ mn = 2 ∨ mn = 3 ∨ mn = 4 ∨ mn = 5 ∨ mn = 6 ∨ mn = 7 ∨ mn = 8 ∨
      mn = 9 ∨ mn = 10 ∨ mn = 11 := by omega
  unfold monthOfYearDay
  rcases hc with h | h | h | h | h | h | h | h | h | h | h | h <;> subst h <;>
    norm_num at hd1 <;>
    simp only [v0, v1, v2, v3, v4, v5, v6, v7, v8, v9, v10, v11] <;>
    cases leap <;> simp only [hl, if_true, if_false, Bool.false_eq_true] at hd1 ⊢ <;>
    refine ⟨?_, by omega, by omega⟩ <;>
    simp (disch := omega) only [if_pos, if_neg]

/-- The year, month and date of the day made from a date of the calendar are
that date. -/
theorem fields_makeDay (y mn d : Int) (hm0 : 0 ≤ mn) (hm1 : mn ≤ 11) (hd0 : 1 ≤ d)
    (hd1 : d ≤ daysInMonth y mn) :
    yearFromDay (makeDay y mn d) = y ∧ monthFromDay (makeDay y mn d) = mn ∧
      dateFromDay (makeDay y mn d) = d := by
  have h1 : mn / 12 = 0 := by omega
  have h2 : mn % 12 = mn := by omega
  obtain ⟨k1, k2, k3⟩ := monthOfYearDay_daysBeforeMonth mn d (isLeapYear y) hm0 hm1 hd0 hd1
  have k4 := leapDay_range (isLeapYear y)
  have hmk : makeDay y mn d = dayFromYear y + (daysBeforeMonth mn (isLeapYear y) + d - 1) := by
    unfold makeDay
    rw [h1, h2, add_zero]
    ring
  have hy : yearFromDay (makeDay y mn d) = y := by
    apply yearFromDay_spec
    · rw [hmk]; omega
    · rw [dayFromYear_succ, hmk]; omega
  have hw : dayWithinYear (makeDay y mn d) = daysBeforeMonth mn (isLeapYear y) + d - 1 := by
    unfold dayWithinYear
    rw [hy, hmk]
    ring
  have hmo : monthFromDay (makeDay y mn d) = mn := by
    unfold monthFromDay
    rw [hw, hy, k1]
  refine ⟨hy, hmo, ?_⟩
  unfold dateFromDay
  rw [hw, hmo, hy]
  ring

/-! ## Whole numbers as Numbers -/

namespace F64

theorem bitLen_le_of_lt (n k : Nat) (hn : 0 < n) (h : n < 2 ^ k) : bitLen n ≤ k := by
  by_contra hc
  have h1 := two_pow_bitLen_le n hn
  have h2 : 2 ^ k ≤ 2 ^ (bitLen n - 1) := Nat.pow_le_pow_right (by norm_num) (by omega)
  omega

theorem floorLog2_one (n : Nat) (hn : 0 < n) : floorLog2 n 1 = (bitLen n : Int) - 1 := by
  have hb := bitLen_pos n hn
  have h1 := two_pow_bitLen_le n hn
  have hb1 : bitLen 1 = 1 := by decide
  unfold floorLog2
  simp only [hb1]
  have e1 : ((bitLen n : Int) - ((1 : Nat) : Int)).toNat = bitLen n - 1 := by omega
  have e2 : (-((bitLen n : Int) - ((1 : Nat) : Int))).toNat = 0 := by omega
  have hg : geTwoPow n 1 ((bitLen n : Int) - ((1 : Nat) : Int)) = true := by
    unfold geTwoPow
    rw [e1, e2, decide_eq_true_iff]
    omega
  rw [hg, if_pos rfl]
  rfl

/-- A whole number below `2^53` is a Number, with the sign given. -/
theorem ofRat_whole (neg : Bool) (n : Nat) (hn : 0 < n) (h : n < 2 ^ 53) :
    ofRat neg n 1 = fin neg (n * 2 ^ (53 - bitLen n)) ((bitLen n : Int) - 53) := by
  have hb := bitLen_pos n hn
  have hb2 := bitLen_le_of_lt n 53 hn h
  have hlt := lt_two_pow_bitLen n
  unfold ofRat
  rw [if_neg (by omega)]
  unfold roundPos
  simp only [floorLog2_one n hn]
  have e0 : max ((bitLen n : Int) - 1 - 52) (-1074) = (bitLen n : Int) - 53 := by
    rw [max_eq_left (by omega)]; omega
  rw [e0]
  have e1 : (-((bitLen n : Int) - 53)).toNat = 53 - bitLen n := by omega
  have e2 : ((bitLen n : Int) - 53).toNat = 0 := by omega
  rw [e1, e2]
  have hm : n * 2 ^ (53 - bitLen n) < 2 ^ 53 := by
    calc n * 2 ^ (53 - bitLen n) < 2 ^ bitLen n * 2 ^ (53 - bitLen n) :=
          Nat.mul_lt_mul_of_pos_right hlt (by positivity)
      _ = 2 ^ 53 := by rw [← pow_add]; congr 1; omega
  have h3 := roundScaled_exact neg ((bitLen n : Int) - 53) (n * 2 ^ (53 - bitLen n)) (1 * 2 ^ 0)
    (by norm_num) hm (by omega)
  rw [show n * 2 ^ (53 - bitLen n) * (1 * 2 ^ 0) = n * 2 ^ (53 - bitLen n) by simp] at h3
  exact h3

theorem trunc_ofRat_whole (neg : Bool) (n : Nat) (h : n < 2 ^ 53) :
    (ofRat neg n 1).trunc = if neg then -(n : Int) else (n : Int) := by
  by_cases hn : n = 0
  · subst hn
    show trunc (fin neg 0 (-1074)) = _
    unfold trunc
    cases neg <;> simp
  · have hpos : 0 < n := Nat.pos_of_ne_zero hn
    have hb2 := bitLen_le_of_lt n 53 hpos h
    rw [ofRat_whole neg n hpos h]
    unfold trunc
    have e1 : (-((bitLen n : Int) - 53)).toNat = 53 - bitLen n := by omega
    have e2 : ((bitLen n : Int) - 53).toNat = 0 := by omega
    simp only [e1, e2, pow_zero, Nat.mul_one]
    rw [Nat.mul_div_cancel _ (by positivity)]

theorem isFinite_ofRat_whole (neg : Bool) (n : Nat) (h : n < 2 ^ 53) :
    (ofRat neg n 1).isFinite = true := by
  by_cases hn : n = 0
  · subst hn; rfl
  · rw [ofRat_whole neg n (Nat.pos_of_ne_zero hn) h]; rfl

theorem truthy_ofRat_whole (neg : Bool) (n : Nat) (h : n < 2 ^ 53) :
    (ofRat neg n 1).truthy = decide (n ≠ 0) := by
  by_cases hn : n = 0
  · subst hn; rfl
  · have hpos : 0 < n := Nat.pos_of_ne_zero hn
    rw [ofRat_whole neg n hpos h]
    unfold truthy
    have : n * 2 ^ (53 - bitLen n) ≠ 0 := Nat.mul_ne_zero hn (by positivity)
    simp [this, hn]

theorem units_whole (n : Nat) (hn : 0 < n) (h : n < 2 ^ 53) (K : Nat) (hK : (K : Int) = 1074) :
    n * 2 ^ (53 - bitLen n) * 2 ^ ((bitLen n : Int) - 53 + K).toNat = n * 2 ^ K := by
  have hb2 := bitLen_le_of_lt n 53 hn h
  rw [Nat.mul_assoc, ← pow_add]
  congr 2
  omega

theorem canonicalFin_whole (n : Nat) (hn : 0 < n) (h : n < 2 ^ 53) :
    CanonicalFin (n * 2 ^ (53 - bitLen n)) ((bitLen n : Int) - 53) := by
  have hc := canonical_ofRat false n 1 (by norm_num)
  rw [ofRat_whole false n hn h] at hc
  exact hc

/-- Taking 1 from a whole number is exact. -/
theorem sub_one_whole (n : Nat) (hn : 0 < n) (h : n < 2 ^ 53) :
    (ofNat n).sub (ofNat 1) = ofNat (n - 1) := by
  have h1 : ofNat 1 = fin false (2 ^ 52) (-52) := by decide
  unfold sub
  rw [h1]
  unfold neg
  unfold ofNat
  rw [ofRat_whole false n hn h]
  simp only [Bool.not_false]
  rw [add_fin_fin]
  have u1 : units (n * 2 ^ (53 - bitLen n)) ((bitLen n : Int) - 53) = n * 2 ^ 1074 :=
    units_whole n hn h 1074 rfl
  have u2 : units (2 ^ 52) (-52) = 2 ^ 1074 := by
    unfold units
    rw [← pow_add]
    rfl
  unfold signedUnits
  simp only [u1, u2, Bool.false_eq_true, if_false, if_true]
  generalize hP : (2 : Nat) ^ 1074 = P
  have hPpos : 0 < P := by rw [← hP]; positivity
  by_cases hn1 : n = 1
  · subst hn1
    have : ((1 * P : Nat) : Int) + -(P : Int) = 0 := by push_cast; ring
    rw [if_pos this]
    decide
  · have hgt : 1 < n := by omega
    have hne : ((n * P : Nat) : Int) + -(P : Int) ≠ 0 := by
      push_cast
      have : (P : Int) < (n : Int) * P := by
        have h2 : (1 : Int) * P < (n : Int) * P :=
          mul_lt_mul_of_pos_right (by exact_mod_cast hgt) (by exact_mod_cast hPpos)
        linarith
      omega
    rw [if_neg hne]
    have hval : (((n * P : Nat) : Int) + -(P : Int)).natAbs = (n - 1) * P := by
      have : ((n * P : Nat) : Int) + -(P : Int) = (((n - 1) * P : Nat) : Int) := by
        have h3 : ((n - 1 : Nat) : Int) = (n : Int) - 1 := by omega
        push_cast
        rw [h3]
        ring
      rw [this, Int.natAbs_ofNat]
    have hsign : decide (((n * P : Nat) : Int) + -(P : Int) < 0) = false := by
      rw [decide_eq_false_iff_not]
      have : ((n * P : Nat) : Int) + -(P : Int) = (((n - 1) * P : Nat) : Int) := by
        have h3 : ((n - 1 : Nat) : Int) = (n : Int) - 1 := by omega
        push_cast
        rw [h3]
        ring
      rw [this]
      omega
    rw [hval, hsign]
    have hn' : 0 < n - 1 := by omega
    have hlt' : n - 1 < 2 ^ 53 := by omega
    rw [ofRat_whole false (n - 1) hn' hlt']
    have hu := units_whole (n - 1) hn' hlt' 1074 rfl
    rw [hP] at hu
    rw [← hu, ← hP]
    exact ofRat_units false _ _ (canonicalFin_whole (n - 1) hn' hlt')

end F64

/-! ## Reading a date -/

theorem isDigit_bounds (c : Nat) (h : isDigit c = true) : 48 ≤ c ∧ c ≤ 57 := by
  unfold isDigit at h
  simpa using h

theorem isWhiteSpace_digit (c : Nat) (h : isDigit c = true) : isWhiteSpace c = false := by
  obtain ⟨h1, h2⟩ := isDigit_bounds c h
  interval_cases c <;> rfl

theorem dropWhile_head_false (p : Nat → Bool) (c : Nat) (t : List Nat) (h : p c = false) :
    (c :: t).dropWhile p = c :: t := by
  rw [List.dropWhile_cons, h]
  rfl

theorem trimWs_numeral (ds : JSString) (h : IsNumeral ds) : trimWs ds = ds := by
  obtain ⟨hne, hall⟩ := h
  unfold trimWs
  obtain ⟨c, t, rfl⟩ := List.exists_cons_of_ne_nil hne
  rw [dropWhile_head_false _ c t (isWhiteSpace_digit c (hall c (List.mem_cons_self _ _)))]
  have hr : (c :: t).reverse ≠ [] := by simp
  obtain ⟨x, u, hx⟩ := List.exists_cons_of_ne_nil hr
  have hxm : x ∈ c :: t := by
    rw [← List.mem_reverse, hx]
    exact List.mem_cons_self _ _
  rw [hx, dropWhile_head_false _ x u (isWhiteSpace_digit x (hall x hxm)), ← hx,
    List.reverse_reverse]

theorem takeWhile_all (p : Nat → Bool) (l : List Nat) (h : ∀ c ∈ l, p c = true) :
    l.takeWhile p = l := by
  induction l with
  | nil => rfl
  | cons a t ih =>
    rw [List.takeWhile_cons, h a (List.mem_cons_self _ _)]
    simp only [if_true]
    rw [ih (fun b hb => h b (List.mem_cons_of_mem _ hb))]

theorem dropWhile_all (p : Nat → Bool) (l : List Nat) (h : ∀ c ∈ l, p c = true) :
    l.dropWhile p = [] := by
  induction l with
  | nil => rfl
  | cons a t ih =>
    rw [List.dropWhile_cons, h a (List.mem_cons_self _ _)]
    simp only [if_true]
    exact ih (fun b hb => h b (List.mem_cons_of_mem _ hb))

theorem unsignedDecimalLength_numeral (ds : JSString) (h : IsNumeral ds) :
    unsignedDecimalLength ds = ds.length := by
  obtain ⟨hne, hall⟩ := h
  have hinf : (utf16 "Infinity").isPrefixOf ds = false := by
    obtain ⟨c, t, rfl⟩ := List.exists_cons_of_ne_nil hne
    have hc := isDigit_bounds c (hall c (List.mem_cons_self _ _))
    have e : utf16 "Infinity" = [73, 110, 102, 105, 110, 105, 116, 121] := by decide
    rw [e, List.isPrefixOf]
    have : (73 == c) = false := by
      rw [beq_eq_false_iff_ne]; omega
    rw [this]; rfl
  unfold unsignedDecimalLength
  rw [hinf]
  simp only [Bool.false_eq_true, if_false]
  rw [dropWhile_all isDigit ds hall, takeWhile_all isDigit ds hall]
  simp only [exponentLength, if_neg hne, Nat.add_zero]

theorem parseUnsigned_numeral (ds : JSString) (h : IsNumeral ds) :
    parseUnsigned false ds = F64.ofNat (digitsValue ds) := by
  obtain ⟨hne, hall⟩ := h
  have hinf : (utf16 "Infinity").isPrefixOf ds = false := by
    obtain ⟨c, t, rfl⟩ := List.exists_cons_of_ne_nil hne
    have hc := isDigit_bounds c (hall c (List.mem_cons_self _ _))
    have e : utf16 "Infinity" = [73, 110, 102, 105, 110, 105, 116, 121] := by decide
    rw [e, List.isPrefixOf]
    have : (73 == c) = false := by
      rw [beq_eq_false_iff_ne]; omega
    rw [this]; rfl
  unfold parseUnsigned
  rw [hinf]
  simp only [Bool.false_eq_true, if_false]
  rw [dropWhile_all isDigit ds hall, takeWhile_all isDigit ds hall]
  simp only [if_neg hne, parseExponent, F64.ofDecimal, F64.ofNat]
  simp

/-- The Number of a numeral is the whole number it writes. -/
theorem stringToNumber_numeral (ds : JSString) (h : IsNumeral ds) :
    stringToNumber ds = F64.ofNat (digitsValue ds) := by
  have hw : wholeUnsignedDecimal false ds = F64.ofNat (digitsValue ds) := by
    unfold wholeUnsignedDecimal
    rw [if_pos ⟨h.1, unsignedDecimalLength_numeral ds h⟩]
    exact parseUnsigned_numeral ds h
  unfold stringToNumber
  rw [trimWs_numeral ds h]
  obtain ⟨hne, hall⟩ := h
  obtain ⟨c, t, rfl⟩ := List.exists_cons_of_ne_nil hne
  have hc := isDigit_bounds c (hall c (List.mem_cons_self _ _))
  simp only
  rw [if_neg (by omega), if_neg (by omega)]
  cases t with
  | nil => exact hw
  | cons x u =>
    have hx := isDigit_bounds x (hall x (List.mem_cons_of_mem _ (List.mem_cons_self _ _)))
    simp only
    rw [if_neg (by omega), if_neg (by omega), if_neg (by omega)]
    exact hw

theorem splitDash_ne_nil (s : JSString) : splitDash s ≠ [] := by
  induction s with
  | nil => simp [splitDash]
  | cons c t ih =>
    unfold splitDash
    split
    · simp
    · split <;> simp

theorem splitDash_numeral (ds : JSString) (h : ∀ c ∈ ds, isDigit c = true) :
    splitDash ds = [ds] := by
  induction ds with
  | nil => rfl
  | cons c t ih =>
    have hc := isDigit_bounds c (h c (List.mem_cons_self _ _))
    unfold splitDash
    rw [if_neg (by omega), ih (fun b hb => h b (List.mem_cons_of_mem _ hb))]

theorem splitDash_append (p rest : JSString) (h : ∀ c ∈ p, isDigit c = true) :
    splitDash (p ++ 45 :: rest) = p :: splitDash rest := by
  induction p with
  | nil =>
    rw [List.nil_append]
    conv_lhs => unfold splitDash
    rw [if_pos rfl]
  | cons c t ih =>
    have hc := isDigit_bounds c (h c (List.mem_cons_self _ _))
    rw [List.cons_append]
    conv_lhs => unfold splitDash
    rw [if_neg (by omega), ih (fun b hb => h b (List.mem_cons_of_mem _ hb))]

theorem splitDash_isoDate (ys ms ds : JSString) (hy : IsNumeral ys) (hm : IsNumeral ms)
    (hd : IsNumeral ds) : splitDash (isoDate ys ms ds) = [ys, ms, ds] := by
  unfold isoDate
  rw [splitDash_append ys _ hy.2, splitDash_append ms _ hm.2, splitDash_numeral ds hd.2]

/-- The Date that `parseLocalDate` returns for three numerals joined by `-`:
`null` when one of them is zero, and else the Date that the constructor makes of
the three whole numbers, the month counted from 0. -/
theorem parseLocalDate_isoDate (tz : TimeZone) (ys ms ds : JSString) (hy : IsNumeral ys)
    (hm : IsNumeral ms) (hd : IsNumeral ds) (by53 : digitsValue ys < 2 ^ 53)
    (bm53 : digitsValue ms < 2 ^ 53) (bd53 : digitsValue ds < 2 ^ 53) :
    parseLocalDate tz (some (.str (isoDate ys ms ds))) =
      if digitsValue ys = 0 ∨ digitsValue ms = 0 ∨ digitsValue ds = 0 then .null
      else .date (newDateInt tz (digitsValue ys) ((digitsValue ms : Int) - 1) (digitsValue ds)) := by
  have hne : isoDate ys ms ds ≠ [] := by
    unfold isoDate
    obtain ⟨c, t, rfl⟩ := List.exists_cons_of_ne_nil hy.1
    simp
  unfold parseLocalDate
  have ht : truthy (some (.str (isoDate ys ms ds))) = true := by
    unfold truthy
    exact decide_eq_true hne
  rw [ht]
  simp only [Bool.not_true, Bool.false_eq_true, if_false]
  rw [splitDash_isoDate ys ms ds hy hm hd]
  simp only [List.map_cons, List.map_nil]
  rw [stringToNumber_numeral ys hy, stringToNumber_numeral ms hm, stringToNumber_numeral ds hd]
  unfold F64.ofNat
  rw [F64.truthy_ofRat_whole _ _ by53, F64.truthy_ofRat_whole _ _ bm53,
    F64.truthy_ofRat_whole _ _ bd53]
  by_cases h0 : digitsValue ys = 0 ∨ digitsValue ms = 0 ∨ digitsValue ds = 0
  · rw [if_pos h0, if_pos]
    rcases h0 with h | h | h <;> simp [h]
  · rw [if_neg h0]
    push_neg at h0
    obtain ⟨h1, h2, h3⟩ := h0
    rw [if_neg (by simp [h1, h2, h3])]
    have hs := F64.sub_one_whole (digitsValue ms) (Nat.pos_of_ne_zero h2) bm53
    unfold F64.ofNat at hs
    rw [hs]
    unfold newDate
    have bm1 : digitsValue ms - 1 < 2 ^ 53 := by omega
    rw [F64.isFinite_ofRat_whole _ _ by53, F64.isFinite_ofRat_whole _ _ bm1,
      F64.isFinite_ofRat_whole _ _ bd53, F64.trunc_ofRat_whole _ _ by53,
      F64.trunc_ofRat_whole _ _ bm1, F64.trunc_ofRat_whole _ _ bd53]
    simp only [Bool.and_self, if_true, Bool.false_eq_true, if_false]
    have e : ((digitsValue ms - 1 : Nat) : Int) = (digitsValue ms : Int) - 1 := by omega
    rw [e]

/-! ## `parseLocalDate` against the specification -/

theorem dayOfTime_midnight (n : Int) : dayOfTime (n * msPerDay) = n := by
  unfold dayOfTime msPerDay
  omega

theorem timeClip_eq_some (x t : Int) (h : timeClip x = some t) : t = x := by
  unfold timeClip at h
  split at h
  · cases h; rfl
  · cases h

theorem localMidnight_fields (tz : TimeZone) (n t : Int)
    (hz : dayOfTime (tz.localTime (tz.utc (n * msPerDay))) = n) (ht : localMidnight tz n = some t) :
    localFields tz t = (yearFromDay n, monthFromDay n, dateFromDay n) := by
  unfold localMidnight timeClip at ht
  split at ht
  · cases ht
    unfold localFields
    rw [hz]
  · cases ht

theorem parseLocalDate_string_cases (tz : TimeZone) (s : JSString) :
    parseLocalDate tz (some (.str s)) =
      if s = [] then .null
      else
        match (splitDash s).map stringToNumber with
        | y :: m :: d :: _ =>
          if !y.truthy || !m.truthy || !d.truthy then .null
          else .date (newDate tz y (m.sub (F64.ofNat 1)) d)
        | _ => .null := by
  unfold parseLocalDate truthy
  by_cases h : s = []
  · subst h; rfl
  · simp only [h, ne_eq, not_false_eq_true, decide_True, Bool.not_true, Bool.false_eq_true,
      if_false]

/-- C15, as stated, fails: a string that is no calendar date is not rejected:
the 30th of February 2024 is read as the 1st of March 2024. -/
theorem parseLocalDate_rolls_over :
    ∃ t, parseLocalDate (fixedZone 7200000) (some (.str (utf16 "2024-02-30"))) = .date (some t) ∧
      localFields (fixedZone 7200000) t = (2024, 2, 1) :=
  ⟨1709244000000, by decide!, by decide!⟩

/-- A year below 100 is read as a year of the twentieth century: the first of
January of the year 50 comes back as the first of January 1950. -/
theorem parseLocalDate_short_year :
    ∃ t, parseLocalDate (fixedZone 7200000) (some (.str (utf16 "0050-01-01"))) = .date (some t) ∧
      localFields (fixedZone 7200000) t = (1950, 0, 1) :=
  ⟨-631159200000, by decide!, by decide!⟩

/-- C15, amended: `parseLocalDate` never throws on a string; it returns
`null` exactly when the string is empty or its first three `-`-separated
components are not all present with a Number that is neither `NaN` nor zero; and
for numerals that write a date of the calendar (year from 100, month 1 to 12, day
within the month) it returns the local midnight of that day, whose local year,
month (from 0) and day are the three components, when that midnight exists in
the zone. -/
theorem parseLocalDate_spec (tz : TimeZone) (s ys ms ds : JSString) (hy : IsNumeral ys)
    (hm : IsNumeral ms) (hd : IsNumeral ds) (hy100 : 100 ≤ digitsValue ys)
    (hy53 : digitsValue ys < 2 ^ 53) (hm1 : 1 ≤ digitsValue ms) (hm12 : digitsValue ms ≤ 12)
    (hd1 : 1 ≤ digitsValue ds)
    (hdm : (digitsValue ds : Int) ≤ daysInMonth (digitsValue ys) ((digitsValue ms : Int) - 1))
    (hz : tz.localTime (tz.utc
        (makeDay (digitsValue ys) ((digitsValue ms : Int) - 1) (digitsValue ds) * msPerDay)) =
      makeDay (digitsValue ys) ((digitsValue ms : Int) - 1) (digitsValue ds) * msPerDay) :
    parseLocalDate tz (some (.str s)) ≠ .typeError ∧
      (parseLocalDate tz (some (.str s)) = .null ↔
        s = [] ∨ ¬ ∃ y m d rest, (splitDash s).map stringToNumber = y :: m :: d :: rest ∧
          y.truthy = true ∧ m.truthy = true ∧ d.truthy = true) ∧
      parseLocalDate tz (some (.str (isoDate ys ms ds))) =
        .date (localMidnight tz
          (makeDay (digitsValue ys) ((digitsValue ms : Int) - 1) (digitsValue ds))) ∧
      ∀ t, localMidnight tz
          (makeDay (digitsValue ys) ((digitsValue ms : Int) - 1) (digitsValue ds)) = some t →
        localFields tz t = ((digitsValue ys : Int), (digitsValue ms : Int) - 1,
          (digitsValue ds : Int)) ∧ tz.localTime t % msPerDay = 0 := by
  refine ⟨?_, ?_, ?_, ?_⟩
  · rw [parseLocalDate_string_cases]
    split_ifs
    · simp
    · split
      · split_ifs <;> simp
      · simp
  · rw [parseLocalDate_string_cases]
    by_cases h : s = []
    · simp [h]
    · rw [if_neg h]
      simp only [h, false_or]
      split
      · rename_i y m d rest heq
        by_cases ht : (!y.truthy || !m.truthy || !d.truthy) = true
        · rw [if_pos ht]
          simp only [true_iff]
          rintro ⟨y1, m1, d1, r1, he, h1, h2, h3⟩
          rw [heq] at he
          injection he with e1 he
          injection he with e2 he
          injection he with e3 he
          subst e1 e2 e3
          simp [h1, h2, h3] at ht
        · rw [if_neg ht]
          simp only [reduceCtorEq, false_iff, not_not]
          simp only [Bool.or_eq_true, Bool.not_eq_true', not_or, Bool.not_eq_false] at ht
          exact ⟨y, m, d, rest, heq, ht.1.1, ht.1.2, ht.2⟩
      · rename_i hno
        simp only [true_iff]
        rintro ⟨y1, m1, d1, r1, he, -⟩
        exact hno y1 m1 d1 r1 he
  · have hd53 : digitsValue ds < 2 ^ 53 := by
      have h1 : daysInMonth (digitsValue ys) ((digitsValue ms : Int) - 1) ≤ 31 := by
        unfold daysInMonth
        split_ifs <;> omega
      have h2 : (digitsValue ds : Int) ≤ 31 := le_trans hdm h1
      have h3 : digitsValue ds ≤ 31 := by exact_mod_cast h2
      exact lt_of_le_of_lt h3 (by norm_num)
    rw [parseLocalDate_isoDate tz ys ms ds hy hm hd hy53
      (lt_of_le_of_lt hm12 (by norm_num)) hd53, if_neg (by omega)]
    unfold newDateInt localMidnight makeFullYear
    rw [if_neg (by omega)]
  · intro t ht
    obtain ⟨f1, f2, f3⟩ := fields_makeDay (digitsValue ys) ((digitsValue ms : Int) - 1)
      (digitsValue ds) (by omega) (by omega) (by omega) hdm
    have hday : dayOfTime (tz.localTime (tz.utc
        (makeDay (digitsValue ys) ((digitsValue ms : Int) - 1) (digitsValue ds) * msPerDay))) =
        makeDay (digitsValue ys) ((digitsValue ms : Int) - 1) (digitsValue ds) := by
      rw [hz, dayOfTime_midnight]
    have h := localMidnight_fields tz _ t hday ht
    rw [f1, f2, f3] at h
    refine ⟨h, ?_⟩
    have e := timeClip_eq_some _ _ ht
    rw [e, hz]
    unfold msPerDay
    omega

theorem parseLocalDate_spec_witness :
    parseLocalDate (fixedZone 7200000) (some (.str (utf16 "2026-11"))) ≠ .typeError ∧
      (parseLocalDate (fixedZone 7200000) (some (.str (utf16 "2026-11"))) = .null ↔
        utf16 "2026-11" = [] ∨
          ¬ ∃ y m d rest, (splitDash (utf16 "2026-11")).map stringToNumber = y :: m :: d :: rest ∧
            y.truthy = true ∧ m.truthy = true ∧ d.truthy = true) ∧
      parseLocalDate (fixedZone 7200000)
          (some (.str (isoDate (utf16 "2026") (utf16 "11") (utf16 "16")))) =
        .date (localMidnight (fixedZone 7200000)
          (makeDay (digitsValue (utf16 "2026")) ((digitsValue (utf16 "11") : Int) - 1)
            (digitsValue (utf16 "16")))) ∧
      ∀ t, localMidnight (fixedZone 7200000)
          (makeDay (digitsValue (utf16 "2026")) ((digitsValue (utf16 "11") : Int) - 1)
            (digitsValue (utf16 "16"))) = some t →
        localFields (fixedZone 7200000) t = ((digitsValue (utf16 "2026") : Int),
          (digitsValue (utf16 "11") : Int) - 1, (digitsValue (utf16 "16") : Int)) ∧
          (fixedZone 7200000).localTime t % msPerDay = 0 :=
  parseLocalDate_spec (fixedZone 7200000) (utf16 "2026-11") (utf16 "2026") (utf16 "11")
    (utf16 "16") (by decide) (by decide) (by decide) (by decide) (by decide) (by decide)
    (by decide) (by decide) (by decide) (by decide)

/-! ## `getDueLabel` against the specification -/

theorem parseLocalDate_falsy (tz : TimeZone) (v : Option JSValue) (h : truthy v = false) :
    parseLocalDate tz v = .null := by
  unfold parseLocalDate
  rw [h]
  rfl

theorem parseLocalDate_readable (tz : TimeZone) (v : Option JSValue) (h : DateReadable v) :
    parseLocalDate tz v ≠ .typeError := by
  unfold DateReadable at h
  split at h
  · rename_i s
    rw [parseLocalDate_string_cases]
    split_ifs
    · simp
    · split
      · split_ifs <;> simp
      · simp
  · rw [parseLocalDate_falsy tz v h]
    simp

/-- C14, as stated, fails: a string that is no calendar date gets a label, and
the label counts the days with the letter `d`: on the 6th of November 2026, the
30th of February 2026 is `Overdue by 249d`, and the 9th of November is
`Due in 3d`. -/
theorem getDueLabel_labels_invalid_date :
    getDueLabel sampleEnv (some (.str (utf16 "2026-02-30"))) =
        some (some { text := utf16 "Overdue by 249d",
                     tone := utf16 "text-red-200 bg-red-500/10 border-red-500/20" }) ∧
      getDueLabel sampleEnv (some (.str (utf16 "2026-11-09"))) =
        some (some { text := utf16 "Due in 3d",
                     tone := utf16 "text-slate-200 bg-white/5 border-white/10" }) := by
  constructor <;> decide!

/-- A string whose year is no finite number yields an invalid Date, and the label
made of it is the normal label with the text `Due in NaNd`. -/
theorem getDueLabel_invalid_date_sample :
    parseLocalDate sampleEnv.tz (some (.str (utf16 "Infinity-1-1"))) = .date none ∧
      getDueLabel sampleEnv (some (.str (utf16 "Infinity-1-1"))) =
        some (some { text := utf16 "Due in NaNd",
                     tone := utf16 "text-slate-200 bg-white/5 border-white/10" }) := by
  constructor <;> decide!

/-- C14, amended: for a value that is a string or falsy, `getDueLabel` does not
throw; it returns `null` when the value is falsy (absent, `undefined`, the empty
string) or `parseLocalDate` returns `null` for it; when `parseLocalDate` returns a Date,
with `diff = daysBetween(today, due)`, it returns the overdue label with text
`Overdue by |diff|d` when `diff < 0`, the today label with text `Due today` when
`diff = 0`, and the normal label with text `Due in diffd` when `diff > 0`; the
three labels differ pairwise in text and in tone. -/
theorem getDueLabel_spec (env : Env) (v : Option JSValue) (hv : DateReadable v) :
    (getDueLabel env v).isSome = true ∧
      (truthy v = false → getDueLabel env v = some none) ∧
      (parseLocalDate env.tz v = .null → getDueLabel env v = some none) ∧
      (∀ due, parseLocalDate env.tz v = .date due →
        ((daysBetween (startOfToday env) due).isNegative = true →
          getDueLabel env v = some (some (overdueLabel (daysBetween (startOfToday env) due))) ∧
          (overdueLabel (daysBetween (startOfToday env) due)).text =
            utf16 "Overdue by " ++
              numberToString (mathAbs (daysBetween (startOfToday env) due)) ++ utf16 "d") ∧
        ((daysBetween (startOfToday env) due).isZero = true →
          getDueLabel env v = some (some todayLabel) ∧ todayLabel.text = utf16 "Due today") ∧
        ((daysBetween (startOfToday env) due).isPositive = true →
          getDueLabel env v = some (some (normalLabel (daysBetween (startOfToday env) due))) ∧
          (normalLabel (daysBetween (startOfToday env) due)).text =
            utf16 "Due in " ++ numberToString (daysBetween (startOfToday env) due) ++
              utf16 "d")) ∧
      (∀ x y, (overdueLabel x).tone ≠ todayLabel.tone ∧ (overdueLabel x).tone ≠ (normalLabel y).tone ∧
        todayLabel.tone ≠ (normalLabel y).tone ∧ (overdueLabel x).text ≠ todayLabel.text ∧
        (overdueLabel x).text ≠ (normalLabel y).text ∧ todayLabel.text ≠ (normalLabel y).text) := by
  have hnull : parseLocalDate env.tz v = .null → getDueLabel env v = some none := by
    intro h
    unfold getDueLabel
    simp only [h]
  refine ⟨?_, fun h => hnull (parseLocalDate_falsy env.tz v h), hnull, ?_, ?_⟩
  · have hr := parseLocalDate_readable env.tz v hv
    unfold getDueLabel
    cases hp : parseLocalDate env.tz v with
    | typeError => exact absurd hp hr
    | null => rfl
    | date due =>
      simp only
      split_ifs <;> rfl
  · intro due hdue
    refine ⟨fun h => ⟨?_, rfl⟩, fun h => ⟨?_, rfl⟩, fun h => ⟨?_, rfl⟩⟩
    · unfold getDueLabel
      simp only [hdue, h, if_true]
    · have hn : (daysBetween (startOfToday env) due).isNegative = false := by
        revert h
        cases daysBetween (startOfToday env) due with
        | nan => intro h; rfl
        | inf s => intro h; cases h
        | fin s m e =>
          intro h
          simp only [F64.isZero, decide_eq_true_eq] at h
          simp [F64.isNegative, h]
      unfold getDueLabel
      simp only [hdue, h, hn, if_true, Bool.false_eq_true, if_false]
    · have hn : (daysBetween (startOfToday env) due).isNegative = false ∧
          (daysBetween (startOfToday env) due).isZero = false := by
        revert h
        cases daysBetween (startOfToday env) due with
        | nan => intro h; cases h
        | inf s => intro h; cases s <;> simp_all [F64.isPositive, F64.isNegative, F64.isZero]
        | fin s m e =>
          intro h
          cases s <;> simp_all [F64.isPositive, F64.isNegative, F64.isZero]
      unfold getDueLabel
      simp only [hdue, hn.1, hn.2, Bool.false_eq_true, if_false]
  · intro x y
    have e1 : utf16 "Overdue by " = 79 :: (utf16 "verdue by ") := by decide
    have e2 : utf16 "Due today" = 68 :: 117 :: 101 :: 32 :: 116 :: (utf16 "oday") := by decide
    have e3 : utf16 "Due in " = 68 :: 117 :: 101 :: 32 :: 105 :: (utf16 "n ") := by decide
    refine ⟨?_, ?_, ?_, ?_, ?_, ?_⟩
    · show utf16 "text-red-200 bg-red-500/10 border-red-500/20" ≠
        utf16 "text-amber-200 bg-amber-500/10 border-amber-500/20"
      decide
    · show utf16 "text-red-200 bg-red-500/10 border-red-500/20" ≠
        utf16 "text-slate-200 bg-white/5 border-white/10"
      decide
    · show utf16 "text-amber-200 bg-amber-500/10 border-amber-500/20" ≠
        utf16 "text-slate-200 bg-white/5 border-white/10"
      decide
    · unfold overdueLabel todayLabel
      simp only [e1, e2, List.cons_append]
      intro h
      injection h with h1 _
      exact absurd h1 (by decide)
    · unfold overdueLabel normalLabel
      simp only [e1, e3, List.cons_append]
      intro h
      injection h with h1 _
      exact absurd h1 (by decide)
    · unfold todayLabel normalLabel
      simp only [e2, e3, List.cons_append]
      intro h
      injection h with _ h
      injection h with _ h
      injection h with _ h
      injection h with _ h
      injection h with h1 _
      exact absurd h1 (by decide)

theorem getDueLabel_spec_witness :
    (getDueLabel sampleEnv (some (.str (utf16 "2026-11-01")))).isSome = true ∧
      (truthy (some (.str (utf16 "2026-11-01"))) = false →
        getDueLabel sampleEnv (some (.str (utf16 "2026-11-01"))) = some none) ∧
      (parseLocalDate sampleEnv.tz (some (.str (utf16 "2026-11-01"))) = .null →
        getDueLabel sampleEnv (some (.str (utf16 "2026-11-01"))) = some none) ∧
      (∀ due, parseLocalDate sampleEnv.tz (some (.str (utf16 "2026-11-01"))) = .date due →
        ((daysBetween (startOfToday sampleEnv) due).isNegative = true →
          getDueLabel sampleEnv (some (.str (utf16 "2026-11-01"))) =
            some (some (overdueLabel (daysBetween (startOfToday sampleEnv) due))) ∧
          (overdueLabel (daysBetween (startOfToday sampleEnv) due)).text =
            utf16 "Overdue by " ++
              numberToString (mathAbs (daysBetween (startOfToday sampleEnv) due)) ++ utf16 "d") ∧
        ((daysBetween (startOfToday sampleEnv) due).isZero = true →
          getDueLabel sampleEnv (some (.str (utf16 "2026-11-01"))) = some (some todayLabel) ∧
            todayLabel.text = utf16 "Due today") ∧
        ((daysBetween (startOfToday sampleEnv) due).isPositive = true →
          getDueLabel sampleEnv (some (.str (utf16 "2026-11-01"))) =
            some (some (normalLabel (daysBetween (startOfToday sampleEnv) due))) ∧
          (normalLabel (daysBetween (startOfToday sampleEnv) due)).text =
            utf16 "Due in " ++ numberToString (daysBetween (startOfToday sampleEnv) due) ++
              utf16 "d")) ∧
      (∀ x y, (overdueLabel x).tone ≠ todayLabel.tone ∧ (overdueLabel x).tone ≠ (normalLabel y).tone ∧
        todayLabel.tone ≠ (normalLabel y).tone ∧ (overdueLabel x).text ≠ todayLabel.text ∧
        (overdueLabel x).text ≠ (normalLabel y).text ∧ todayLabel.text ≠ (normalLabel y).text) :=
  getDueLabel_spec sampleEnv (some (.str (utf16 "2026-11-01"))) (by decide)

/-! ## `getUpcomingRenewals` against the specification -/

theorem monthOfYearDay_le (d : Int) (leap : Bool) (hd : 0 ≤ d) :
    daysBeforeMonth (monthOfYearDay d leap) leap ≤ d := by
  have key : ∀ (c : Int) (k : Int) (rest : Int), daysBeforeMonth (k + 1) leap = c →
      daysBeforeMonth k leap ≤ d → (c ≤ d → daysBeforeMonth rest leap ≤ d) →
      daysBeforeMonth (if d < c then k else rest) leap ≤ d := by
    intro c k rest _ h1 h2
    by_cases h : d < c
    · rw [if_pos h]; exact h1
    · rw [if_neg h]; exact h2 (by omega)
  obtain ⟨v0, v1, v2, v3, v4, v5, v6, v7, v8, v9, v10, v11⟩ := daysBeforeMonth_values leap
  unfold monthOfYearDay
  refine key _ 0 _ v1 (by rw [v0]; exact hd) fun h1 => ?_
  refine key _ 1 _ v2 (by rw [v1]; exact h1) fun h2 => ?_
  refine key _ 2 _ v3 (by rw [v2]; exact h2) fun h3 => ?_
  refine key _ 3 _ v4 (by rw [v3]; exact h3) fun h4 => ?_
  refine key _ 4 _ v5 (by rw [v4]; exact h4) fun h5 => ?_
  refine key _ 5 _ v6 (by rw [v5]; exact h5) fun h6 => ?_
  refine key _ 6 _ v7 (by rw [v6]; exact h6) fun h7 => ?_
  refine key _ 7 _ v8 (by rw [v7]; exact h7) fun h8 => ?_
  refine key _ 8 _ v9 (by rw [v8]; exact h8) fun h9 => ?_
  refine key _ 9 _ v10 (by rw [v9]; exact h9) fun h10 => ?_
  refine key _ 10 _ v11 (by rw [v10]; exact h10) fun h11 => ?_
  rw [v11]; exact h11

theorem daysBeforeMonth_nonneg (mn : Int) (leap : Bool) : 0 ≤ daysBeforeMonth mn leap := by
  have hl := (leapDay_range leap).1
  have key : ∀ (c : Prop) [Decidable c] (a b : Int), 0 ≤ a → 0 ≤ b →
      0 ≤ (if c then a else b) := by
    intro c _ a b ha hb
    split <;> assumption
  have k2 : ∀ x : Int, 0 ≤ x → 0 ≤ x + leapDay leap := fun x hx => add_nonneg hx hl
  unfold daysBeforeMonth
  exact key _ _ _ le_rfl (key _ _ _ (by norm_num) (key _ _ _ (k2 _ (by norm_num))
    (key _ _ _ (k2 _ (by norm_num)) (key _ _ _ (k2 _ (by norm_num))
    (key _ _ _ (k2 _ (by norm_num)) (key _ _ _ (k2 _ (by norm_num))
    (key _ _ _ (k2 _ (by norm_num)) (key _ _ _ (k2 _ (by norm_num))
    (key _ _ _ (k2 _ (by norm_num)) (key _ _ _ (k2 _ (by norm_num))
    (k2 _ (by norm_num))))))))))))

theorem dayFromYear_mono (a b : Int) (h : a ≤ b) : dayFromYear a ≤ dayFromYear b := by
  obtain ⟨k, rfl⟩ : ∃ k : Nat, b = a + k := ⟨(b - a).toNat, by omega⟩
  induction k with
  | zero => simp
  | succ k ih =>
    have h1 := dayFromYear_lt_succ (a + k)
    have e : a + ((k + 1 : Nat) : Int) = a + k + 1 := by push_cast; ring
    rw [e]
    exact le_trans (ih (by omega)) (le_of_lt h1)

theorem yearFromDay_mono (n k : Int) (h : n ≤ k) : yearFromDay n ≤ yearFromDay k := by
  by_contra hc
  have h1 := (yearFromDay_bounds n).1
  have h2 := (yearFromDay_bounds k).2
  have h3 := dayFromYear_mono (yearFromDay k + 1) (yearFromDay n) (by omega)
  omega

theorem newDateInt_fields (tz : TimeZone) (n k : Int) (hy : 100 ≤ yearFromDay n) :
    newDateInt tz (yearFromDay n) (monthFromDay n) (dateFromDay n + k) =
      localMidnight tz (n + k) := by
  unfold newDateInt localMidnight makeFullYear
  rw [if_neg (by omega), makeDay_fields]

theorem startOfToday_eq (env : Env) (hy : 100 ≤ yearFromDay (localDay env)) :
    startOfToday env = localMidnight env.tz (localDay env) := by
  have h := newDateInt_fields env.tz (localDay env) 0 hy
  rw [add_zero, add_zero] at h
  exact h

theorem tenDaysFrom_eq (env : Env) (hy : 100 ≤ yearFromDay (localDay env))
    (hz : dayOfTime (env.tz.localTime (env.tz.utc (localDay env * msPerDay))) = localDay env) :
    tenDaysFrom env.tz (localMidnight env.tz (localDay env)) =
      match localMidnight env.tz (localDay env) with
      | some _ => localMidnight env.tz (localDay env + 10)
      | none => none := by
  cases ht : localMidnight env.tz (localDay env) with
  | none => rfl
  | some t =>
    have hf := localMidnight_fields env.tz (localDay env) t hz ht
    unfold tenDaysFrom
    simp only [hf]
    exact newDateInt_fields env.tz (localDay env) 10 hy

theorem filterJS_total {α : Type} (p : α → Option Bool) (q : α → Bool) (l : List α)
    (h : ∀ x ∈ l, p x = some (q x)) : filterJS p l = some (l.filter q) := by
  induction l with
  | nil => rfl
  | cons a t ih =>
    unfold filterJS
    rw [h a (List.mem_cons_self _ _), ih (fun x hx => h x (List.mem_cons_of_mem _ hx))]
    simp only [List.filter_cons]

theorem isUpcoming_eq (env : Env) (sub : Record) (hr : NextBillingReadable sub)
    (hy : 100 ≤ yearFromDay (localDay env))
    (hz : dayOfTime (env.tz.localTime (env.tz.utc (localDay env * msPerDay))) = localDay env) :
    isUpcoming env.tz (startOfToday env) (tenDaysFrom env.tz (startOfToday env)) sub =
      some (dueWithin env.tz (localDay env) 10 sub) := by
  have hp := parseLocalDate_readable env.tz _ hr
  rw [startOfToday_eq env hy, tenDaysFrom_eq env hy hz]
  unfold isUpcoming dueWithin
  cases hd : parseLocalDate env.tz (getProp sub (utf16 "nextBilling")) with
  | typeError => exact absurd hd hp
  | null => rfl
  | date d =>
    cases d with
    | none => rfl
    | some d =>
      cases localMidnight env.tz (localDay env) with
      | none => rfl
      | some t =>
        simp only
        cases localMidnight env.tz (localDay env + 10) <;> rfl

theorem getUpcomingRenewals_eq (env : Env) (subscriptions : Ledger)
    (hread : ∀ sub ∈ subscriptions, NextBillingReadable sub)
    (hy : 100 ≤ yearFromDay (localDay env))
    (hz : dayOfTime (env.tz.localTime (env.tz.utc (localDay env * msPerDay))) = localDay env) :
    getUpcomingRenewals env subscriptions =
      some ((subscriptions.filter (dueWithin env.tz (localDay env) 10)).insertionSort
        fun a b => renewalTime env.tz a ≤ renewalTime env.tz b) := by
  unfold getUpcomingRenewals
  simp only
  rw [filterJS_total _ (dueWithin env.tz (localDay env) 10) subscriptions
    (fun sub hs => isUpcoming_eq env sub (hread sub hs) hy hz)]
  rfl

theorem parseLocalDate_calendar (tz : TimeZone) (n : Int) (ys ms ds : JSString)
    (hy : IsNumeral ys) (hm : IsNumeral ms) (hd : IsNumeral ds) (h100 : 100 ≤ yearFromDay n)
    (h53 : digitsValue ys < 2 ^ 53)
    (ey : (digitsValue ys : Int) = yearFromDay n) (em : (digitsValue ms : Int) = monthFromDay n + 1)
    (ed : (digitsValue ds : Int) = dateFromDay n) :
    parseLocalDate tz (some (.str (isoDate ys ms ds))) = .date (localMidnight tz n) := by
  have hmr := monthOfYearDay_range (dayWithinYear n) (isLeapYear (yearFromDay n))
  have hm12 : digitsValue ms ≤ 12 := by
    unfold monthFromDay at em; omega
  have hm1 : 1 ≤ digitsValue ms := by
    unfold monthFromDay at em; omega
  have hf := makeDay_fields n 0
  rw [add_zero, add_zero] at hf
  have hdw := dayWithinYear_range n
  have hlr := leapDay_range (isLeapYear (yearFromDay n))
  have hdb := daysBeforeMonth_nonneg (monthFromDay n) (isLeapYear (yearFromDay n))
  have hd366 : (digitsValue ds : Int) ≤ 366 := by
    rw [ed]
    unfold dateFromDay
    omega
  have hd53 : digitsValue ds < 2 ^ 53 := by
    have : digitsValue ds ≤ 366 := by exact_mod_cast hd366
    exact lt_of_le_of_lt this (by norm_num)
  rw [parseLocalDate_isoDate tz ys ms ds hy hm hd h53 (lt_of_le_of_lt hm12 (by norm_num)) hd53]
  by_cases hd0 : digitsValue ds = 0
  · exfalso
    have hmd := monthOfYearDay_le (dayWithinYear n) (isLeapYear (yearFromDay n)) hdw.1
    rw [hd0] at ed
    unfold dateFromDay monthFromDay at ed
    simp only [Nat.cast_zero] at ed
    omega
  · rw [if_neg (by omega)]
    unfold newDateInt localMidnight makeFullYear
    rw [ey, em, ed, if_neg (by omega)]
    have e1 : monthFromDay n + 1 - 1 = monthFromDay n := by ring
    rw [e1, hf]

theorem parseLocalDate_writesDay (tz : TimeZone) (n : Int) (ys ms ds : JSString)
    (hw : WritesDay ys ms ds n) (h100 : 100 ≤ yearFromDay n) (h9999 : yearFromDay n ≤ 9999) :
    parseLocalDate tz (some (.str (isoDate ys ms ds))) = .date (localMidnight tz n) := by
  obtain ⟨hy, hm, hd, ey, em, ed⟩ := hw
  have h53 : digitsValue ys < 2 ^ 53 := by
    have h1 : (digitsValue ys : Int) ≤ 9999 := by omega
    have h2 : digitsValue ys ≤ 9999 := by exact_mod_cast h1
    exact lt_of_le_of_lt h2 (by norm_num)
  exact parseLocalDate_calendar tz n ys ms ds hy hm hd h100 h53 ey em ed

/-- C13: on a ledger whose `nextBilling` fields can be read (strings, or
falsy values), on a day of a year from 100 to 9999, in a zone where the instant
made for the midnight of today falls in today and the midnights of today, of the
tenth and of the eleventh day after it follow in that order,
`getUpcomingRenewals` returns the records whose `nextBilling` parses to a valid
date `d` with `today ≤ d ≤ today + 10 days`, each as often as the ledger holds
it, in ascending order of renewal date; a record whose `nextBilling` is missing,
empty or parsed to no valid date is not in the result; a record whose
`nextBilling` writes the tenth day after today is in the result, and one that
writes the eleventh is not. -/
theorem getUpcomingRenewals_spec (env : Env) (subscriptions : Ledger)
    (hread : ∀ sub ∈ subscriptions, NextBillingReadable sub)
    (hy : 100 ≤ yearFromDay (localDay env)) (hy4 : yearFromDay (localDay env + 11) ≤ 9999)
    (hz : dayOfTime (env.tz.localTime (env.tz.utc (localDay env * msPerDay))) = localDay env)
    (hmono : env.tz.utc (localDay env * msPerDay) ≤ env.tz.utc ((localDay env + 10) * msPerDay) ∧
      env.tz.utc ((localDay env + 10) * msPerDay) <
        env.tz.utc ((localDay env + 11) * msPerDay)) :
    ∃ result, getUpcomingRenewals env subscriptions = some result ∧
      (∀ sub, sub ∈ result ↔
        sub ∈ subscriptions ∧ dueWithin env.tz (localDay env) 10 sub = true) ∧
      result.Perm (subscriptions.filter (dueWithin env.tz (localDay env) 10)) ∧
      result.Sorted (fun a b => renewalTime env.tz a ≤ renewalTime env.tz b) ∧
      (∀ sub ∈ result, ∃ d,
        parseLocalDate env.tz (getProp sub (utf16 "nextBilling")) = .date (some d) ∧
          renewalTime env.tz sub = d) ∧
      (∀ sub, truthy (getProp sub (utf16 "nextBilling")) = false → sub ∉ result) ∧
      (∀ sub ∈ subscriptions, ∀ ys ms ds, WritesDay ys ms ds (localDay env + 10) →
        getProp sub (utf16 "nextBilling") = some (.str (isoDate ys ms ds)) →
        (localMidnight env.tz (localDay env)).isSome = true →
        (localMidnight env.tz (localDay env + 10)).isSome = true → sub ∈ result) ∧
      (∀ sub ys ms ds, WritesDay ys ms ds (localDay env + 11) →
        getProp sub (utf16 "nextBilling") = some (.str (isoDate ys ms ds)) → sub ∉ result) := by
  have hmem : ∀ sub, sub ∈ (subscriptions.filter (dueWithin env.tz (localDay env) 10)).insertionSort
      (fun a b => renewalTime env.tz a ≤ renewalTime env.tz b) ↔
      sub ∈ subscriptions ∧ dueWithin env.tz (localDay env) 10 sub = true := by
    intro sub
    rw [(List.perm_insertionSort _ _).mem_iff, List.mem_filter]
  have hy10 : 100 ≤ yearFromDay (localDay env + 10) :=
    le_trans hy (yearFromDay_mono _ _ (by omega))
  have hy10b : yearFromDay (localDay env + 10) ≤ 9999 :=
    le_trans (yearFromDay_mono _ _ (by omega)) hy4
  have hy11 : 100 ≤ yearFromDay (localDay env + 11) :=
    le_trans hy (yearFromDay_mono _ _ (by omega))
  refine ⟨_, getUpcomingRenewals_eq env subscriptions hread hy hz, hmem,
    List.perm_insertionSort _ _, ?_, ?_, ?_, ?_, ?_⟩
  · haveI : IsTotal Record (fun a b => renewalTime env.tz a ≤ renewalTime env.tz b) :=
      ⟨fun a b => le_total _ _⟩
    haveI : IsTrans Record (fun a b => renewalTime env.tz a ≤ renewalTime env.tz b) :=
      ⟨fun a b c h1 h2 => le_trans h1 h2⟩
    exact List.sorted_insertionSort _ _
  · intro sub hs
    have hd := ((hmem sub).1 hs).2
    unfold dueWithin at hd
    split at hd
    · rename_i d t u hp _ _
      refine ⟨d, hp, ?_⟩
      unfold renewalTime
      rw [hp]
    · cases hd
  · intro sub hf hs
    have hd := ((hmem sub).1 hs).2
    unfold dueWithin at hd
    rw [parseLocalDate_falsy env.tz _ hf] at hd
    cases hd
  · intro sub hs ys ms ds hw hnb ht hu
    refine (hmem sub).2 ⟨hs, ?_⟩
    unfold dueWithin
    rw [hnb, parseLocalDate_writesDay env.tz _ ys ms ds hw hy10 hy10b]
    obtain ⟨t, ht⟩ := Option.isSome_iff_exists.1 ht
    obtain ⟨u, hu⟩ := Option.isSome_iff_exists.1 hu
    rw [ht, hu]
    have e1 := timeClip_eq_some _ _ ht
    have e2 := timeClip_eq_some _ _ hu
    have h1 := hmono.1
    simp only [decide_eq_true_eq, Bool.and_eq_true, le_refl, and_true]
    rw [e1, e2]
    exact h1
  · intro sub ys ms ds hw hnb hs
    have hd := ((hmem sub).1 hs).2
    unfold dueWithin at hd
    rw [hnb, parseLocalDate_writesDay env.tz _ ys ms ds hw hy11 hy4] at hd
    split at hd
    · rename_i d t u hp _ hu
      injection hp with hp
      have e1 := timeClip_eq_some _ _ hp
      have e2 := timeClip_eq_some _ _ hu
      have h2 := hmono.2
      simp only [decide_eq_true_eq, Bool.and_eq_true] at hd
      omega
    · cases hd

theorem getUpcomingRenewals_spec_witness :
    ∃ result, getUpcomingRenewals sampleEnv renewalLedger = some result ∧
      (∀ sub, sub ∈ result ↔
        sub ∈ renewalLedger ∧ dueWithin sampleEnv.tz (localDay sampleEnv) 10 sub = true) ∧
      result.Perm (renewalLedger.filter (dueWithin sampleEnv.tz (localDay sampleEnv) 10)) ∧
      result.Sorted (fun a b => renewalTime sampleEnv.tz a ≤ renewalTime sampleEnv.tz b) ∧
      (∀ sub ∈ result, ∃ d,
        parseLocalDate sampleEnv.tz (getProp sub (utf16 "nextBilling")) = .date (some d) ∧
          renewalTime sampleEnv.tz sub = d) ∧
      (∀ sub, truthy (getProp sub (utf16 "nextBilling")) = false → sub ∉ result) ∧
      (∀ sub ∈ renewalLedger, ∀ ys ms ds, WritesDay ys ms ds (localDay sampleEnv + 10) →
        getProp sub (utf16 "nextBilling") = some (.str (isoDate ys ms ds)) →
        (localMidnight sampleEnv.tz (localDay sampleEnv)).isSome = true →
        (localMidnight sampleEnv.tz (localDay sampleEnv + 10)).isSome = true → sub ∈ result) ∧
      (∀ sub ys ms ds, WritesDay ys ms ds (localDay sampleEnv + 11) →
        getProp sub (utf16 "nextBilling") = some (.str (isoDate ys ms ds)) → sub ∉ result) :=
  getUpcomingRenewals_spec sampleEnv renewalLedger (by decide) (by decide) (by decide)
    (by decide) (by decide)

/-- The renewals of the sample ledger on the 6th of November 2026: the 6th twice,
in ledger order, the 10th and the 16th; the 5th and the 17th are outside, and the
records without date are left out. -/
theorem getUpcomingRenewals_sample :
    getUpcomingRenewals sampleEnv renewalLedger =
      some [renewalRecord "c" "2026-11-06", renewalRecord "g" "2026-11-06",
        renewalRecord "h" "2026-11-10", renewalRecord "a" "2026-11-16"] ∧
      WritesDay (utf16 "2026") (utf16 "11") (utf16 "16") (localDay sampleEnv + 10) ∧
      WritesDay (utf16 "2026") (utf16 "11") (utf16 "17") (localDay sampleEnv + 11) := by
  refine ⟨?_, ?_, ?_⟩ <;> decide!

/-! ## Dividing whole numbers and rounding the quotient -/

namespace F64

theorem floorLog2_unique (n d : Nat) (hn : 0 < n) (hd : 0 < d) (L : Int)
    (h1 : (2 : ℚ) ^ L ≤ (n : ℚ) / d) (h2 : (n : ℚ) / d < (2 : ℚ) ^ (L + 1)) :
    floorLog2 n d = L := by
  obtain ⟨lo, hi⟩ := floorLog2_spec n d hn hd
  have a1 : L < floorLog2 n d + 1 := (zpow_two_lt_iff _ _).1 (lt_of_le_of_lt h1 hi)
  have a2 : floorLog2 n d < L + 1 := (zpow_two_lt_iff _ _).1 (lt_of_le_of_lt lo h2)
  omega

theorem floorLog2_scale (n d c : Nat) (hn : 0 < n) (hd : 0 < d) (hc : 0 < c) :
    floorLog2 (n * c) (d * c) = floorLog2 n d := by
  obtain ⟨lo, hi⟩ := floorLog2_spec n d hn hd
  have hc' : (c : ℚ) ≠ 0 := by exact_mod_cast hc.ne'
  have e : ((n * c : Nat) : ℚ) / ((d * c : Nat) : ℚ) = (n : ℚ) / d := by
    push_cast
    rw [mul_div_mul_right _ _ hc']
  apply floorLog2_unique _ _ (Nat.mul_pos hn hc) (Nat.mul_pos hd hc)
  · rw [e]; exact lo
  · rw [e]; exact hi

theorem roundScaled_scale (neg : Bool) (e0 : Int) (n d c : Nat) (hc : 0 < c) :
    roundScaled neg e0 (n * c) (d * c) = roundScaled neg e0 n d := by
  unfold roundScaled
  have h1 : n * c / (d * c) = n / d := Nat.mul_div_mul_right _ _ hc
  have h2 : n * c % (d * c) = n % d * c := Nat.mul_mod_mul_right _ _ _
  have h3 : (d * c < 2 * (n % d * c)) ↔ (d < 2 * (n % d)) := by
    rw [← Nat.mul_assoc]
    exact Nat.mul_lt_mul_right hc
  have h4 : (2 * (n % d * c) = d * c) ↔ (2 * (n % d) = d) := by
    rw [← Nat.mul_assoc]
    exact Nat.mul_left_inj hc.ne'
  simp only [h1, h2, h3, h4]

theorem roundPos_scale (neg : Bool) (n d c : Nat) (hn : 0 < n) (hd : 0 < d) (hc : 0 < c) :
    roundPos neg (n * c) (d * c) = roundPos neg n d := by
  unfold roundPos
  simp only [floorLog2_scale n d c hn hd hc]
  rw [Nat.mul_right_comm n c, Nat.mul_right_comm d c]
  exact roundScaled_scale neg _ _ _ c hc

theorem ofRat_scale (neg : Bool) (n d c : Nat) (hd : 0 < d) (hc : 0 < c) :
    ofRat neg (n * c) (d * c) = ofRat neg n d := by
  unfold ofRat
  by_cases hn : n = 0
  · subst hn; simp
  · have hnc : n * c ≠ 0 := Nat.mul_ne_zero hn hc.ne'
    rw [if_neg hn, if_neg hnc]
    exact roundPos_scale neg n d c (Nat.pos_of_ne_zero hn) hd hc

/-- The quotient of two whole numbers below `2^53` is the rounding of their
ratio. -/
theorem div_whole (s : Bool) (a d : Nat) (ha : a < 2 ^ 53) (hd0 : 0 < d) (hd : d < 2 ^ 53) :
    (ofRat s a 1).div (ofRat false d 1) = ofRat s a d := by
  have hbd := bitLen_le_of_lt d 53 hd0 hd
  have hbd0 := bitLen_pos d hd0
  rw [ofRat_whole false d hd0 hd]
  by_cases ha0 : a = 0
  · subst ha0
    have hm2 : d * 2 ^ (53 - bitLen d) ≠ 0 := Nat.mul_ne_zero hd0.ne' (by positivity)
    show div (fin s 0 (-1074)) _ = fin s 0 (-1074)
    unfold div
    simp only [hm2, if_false, Nat.zero_mul, Bool.xor_false]
    rfl
  · have hapos : 0 < a := Nat.pos_of_ne_zero ha0
    have hba := bitLen_le_of_lt a 53 hapos ha
    have hba0 := bitLen_pos a hapos
    rw [ofRat_whole s a hapos ha]
    have hm2 : d * 2 ^ (53 - bitLen d) ≠ 0 := Nat.mul_ne_zero hd0.ne' (by positivity)
    unfold div
    simp only [hm2, if_false, Bool.xor_false]
    rcases le_total (bitLen d) (bitLen a) with h | h
    · have e1 : ((bitLen a : Int) - 53 - ((bitLen d : Int) - 53)).toNat = bitLen a - bitLen d := by
        omega
      have e2 : ((bitLen d : Int) - 53 - ((bitLen a : Int) - 53)).toNat = 0 := by omega
      rw [e1, e2, pow_zero, Nat.mul_one, Nat.mul_assoc, ← pow_add]
      have e3 : 53 - bitLen a + (bitLen a - bitLen d) = 53 - bitLen d := by omega
      rw [e3]
      exact ofRat_scale s a d _ hd0 (by positivity)
    · have e1 : ((bitLen a : Int) - 53 - ((bitLen d : Int) - 53)).toNat = 0 := by omega
      have e2 : ((bitLen d : Int) - 53 - ((bitLen a : Int) - 53)).toNat = bitLen d - bitLen a := by
        omega
      rw [e1, e2, pow_zero, Nat.mul_one, Nat.mul_assoc d, ← pow_add]
      have e3 : 53 - bitLen d + (bitLen d - bitLen a) = 53 - bitLen a := by omega
      rw [e3]
      exact ofRat_scale s a d _ hd0 (by positivity)

/-- What `roundScaled` returns, when the exponent cannot overflow: the mantissa
`M` is the quotient or, when the division leaves a remainder, the next whole
number. -/
theorem roundScaled_near (neg : Bool) (e0 : Int) (num den : Nat) (hden : 0 < den)
    (he : e0 + 1 ≤ 971) :
    ∃ M : Nat, M * den < num + den ∧ num < (M + 1) * den ∧
      roundScaled neg e0 num den =
        if M = 2 ^ 53 then fin neg (2 ^ 52) (e0 + 1) else fin neg M e0 := by
  have hmod := Nat.div_add_mod num den
  have hr : num % den < den := Nat.mod_lt _ hden
  have hq : num / den * den = den * (num / den) := Nat.mul_comm _ _
  unfold roundScaled
  simp only
  generalize hup : (decide (den < 2 * (num % den)) ||
    (decide (2 * (num % den) = den) && decide (num / den % 2 = 1))) = up
  cases up with
  | false =>
    refine ⟨num / den, by omega, ?_, ?_⟩
    · rw [Nat.add_mul]; omega
    · simp only [Bool.false_eq_true, if_false]
      by_cases hm : num / den = 2 ^ 53
      · rw [if_pos hm, if_pos hm, if_pos hm, if_neg (by omega)]
      · rw [if_neg hm, if_neg hm, if_neg hm, if_neg (by omega)]
  | true =>
    have hrpos : 0 < num % den := by
      simp only [Bool.or_eq_true, Bool.and_eq_true, decide_eq_true_eq] at hup
      rcases hup with h | ⟨h, _⟩ <;> omega
    refine ⟨num / den + 1, ?_, ?_, ?_⟩
    · rw [Nat.add_mul]; omega
    · rw [Nat.add_mul, Nat.add_mul]; omega
    · simp only [if_true]
      by_cases hm : num / den + 1 = 2 ^ 53
      · rw [if_pos hm, if_pos hm, if_pos hm, if_neg (by omega)]
      · rw [if_neg hm, if_neg hm, if_neg hm, if_neg (by omega)]

end F64

/-- Rounding to whole days survives the rounding of the quotient: a mantissa `M`
within one unit of `a * T / D`, in units of `1 / T` with `T` an even number above
`D = 86400000`, rounds to the same whole number as `a / D`. -/
theorem round_quotient (a M T : Int) (hT : 86400000 < T) (hT2 : T % 2 = 0)
    (h1 : M * 86400000 < a * T + 86400000) (h2 : a * T < (M + 1) * 86400000) :
    (2 * M + T) / (2 * T) = (2 * a + 86400000) / (2 * 86400000) := by
  generalize hR : (2 * a + 86400000) / (2 * 86400000) = R
  have hTpos : 0 < T := by omega
  have r1 : (2 * R - 1) * 86400000 ≤ 2 * a := by omega
  have r2 : 2 * a ≤ (2 * R + 1) * 86400000 - 2 := by omega
  have m1 : (2 * R - 1) * 86400000 * T ≤ 2 * a * T := mul_le_mul_of_nonneg_right r1 hTpos.le
  have m2 : 2 * a * T ≤ ((2 * R + 1) * 86400000 - 2) * T := mul_le_mul_of_nonneg_right r2 hTpos.le
  have e1 : (2 * R - 1) * 86400000 * T = (2 * (R * T) - T) * 86400000 := by ring
  have e2 : ((2 * R + 1) * 86400000 - 2) * T = (2 * (R * T) + T) * 86400000 - 2 * T := by ring
  have e3 : 2 * a * T = 2 * (a * T) := by ring
  rw [e1, e3] at m1
  rw [e2, e3] at m2
  generalize a * T = P at *
  generalize hW : R * T = W at *
  have lo : 2 * W - T ≤ 2 * M := by omega
  have hi : 2 * M < 2 * W + T := by omega
  have key := (Int.ediv_emod_unique (a := 2 * M + T) (b := 2 * T) (r := 2 * M + T - 2 * W)
    (q := R) (by omega : 0 < 2 * T)).2
    ⟨by rw [← hW]; ring, by omega, by omega⟩
  exact key.1

namespace F64

/-- The whole number that `Math.round` takes from a Number with a negative
exponent. -/
theorem mathRound_fin (neg : Bool) (m : Nat) (e : Int) (he : e < 0) :
    mathRound (fin neg m e) =
      if (2 * (if neg then -(m : Int) else (m : Int)) + ((2 ^ (-e).toNat : Nat) : Int)) /
          (2 * ((2 ^ (-e).toNat : Nat) : Int)) = 0 then fin neg 0 (-1074)
      else ofInt ((2 * (if neg then -(m : Int) else (m : Int)) + ((2 ^ (-e).toNat : Nat) : Int)) /
          (2 * ((2 ^ (-e).toNat : Nat) : Int))) := by
  unfold mathRound
  simp only [if_neg (not_le.2 he)]

end F64

namespace F64

theorem two_pow_even (k : Nat) (hk : 1 ≤ k) : ((2 : Int) ^ k) % 2 = 0 := by
  obtain ⟨j, rfl⟩ : ∃ j, k = j + 1 := ⟨k - 1, by omega⟩
  rw [pow_succ]
  omega

theorem day_lt_two_pow (k : Nat) (hk : 27 ≤ k) : (86400000 : Int) < 2 ^ k := by
  have h1 : (2 : Int) ^ 27 ≤ 2 ^ k := pow_le_pow_right₀ (by norm_num) hk
  have h2 : (86400000 : Int) < 2 ^ 27 := by norm_num
  omega

/-- Rounding to whole days the quotient by 86400000 of a whole number of
milliseconds up to `2^52`, of either sign, gives the whole number nearest to the
exact quotient, a tie going up. -/
theorem mathRound_quotient (s : Bool) (a : Nat) (ha0 : 0 < a) (ha : a ≤ 2 ^ 52) :
    mathRound (ofRat s a 86400000) =
      if (2 * (if s then -(a : Int) else (a : Int)) + 86400000) / (2 * 86400000) = 0
      then fin s 0 (-1074)
      else ofInt ((2 * (if s then -(a : Int) else (a : Int)) + 86400000) / (2 * 86400000)) := by
  obtain ⟨lo, hi⟩ := floorLog2_spec a 86400000 ha0 (by norm_num)
  have haq : (a : ℚ) ≤ 2 ^ 52 := by exact_mod_cast ha
  have haq1 : (1 : ℚ) ≤ a := by exact_mod_cast ha0
  have hfl1 : floorLog2 a 86400000 < 26 := by
    rw [← zpow_two_lt_iff]
    refine lt_of_le_of_lt lo ?_
    rw [div_lt_iff₀ (by norm_num)]
    norm_num
    linarith
  have hfl2 : -28 < floorLog2 a 86400000 := by
    have h : (-27 : Int) < floorLog2 a 86400000 + 1 := by
      rw [← zpow_two_lt_iff]
      refine lt_of_le_of_lt ?_ hi
      rw [le_div_iff₀ (by norm_num)]
      norm_num
      linarith
    omega
  unfold ofRat
  rw [if_neg (by omega)]
  unfold roundPos
  simp only
  generalize floorLog2 a 86400000 = L at hfl1 hfl2
  rw [max_eq_left (by omega)]
  obtain ⟨k, hk, hk27, hk79⟩ : ∃ k : Nat, L - 52 = -(k : Int) ∧ 27 ≤ k ∧ k ≤ 79 :=
    ⟨(52 - L).toNat, by omega, by omega, by omega⟩
  rw [hk]
  have e1 : (-(-(k : Int))).toNat = k := by omega
  have e2 : (-(k : Int)).toNat = 0 := by omega
  rw [e1, e2, pow_zero, Nat.mul_one]
  obtain ⟨M, hM1, hM2, hres⟩ := roundScaled_near s (-(k : Int)) (a * 2 ^ k) 86400000
    (by norm_num) (by omega)
  rw [hres]
  have c1 : (M : Int) * 86400000 < (a : Int) * 2 ^ k + 86400000 := by exact_mod_cast hM1
  have c2 : (a : Int) * 2 ^ k < ((M : Int) + 1) * 86400000 := by exact_mod_cast hM2
  have hT := day_lt_two_pow k hk27
  have hT2 := two_pow_even k (by omega)
  have key : (2 * (if s then -(M : Int) else (M : Int)) + 2 ^ k) / (2 * 2 ^ k) =
      (2 * (if s then -(a : Int) else (a : Int)) + 86400000) / (2 * 86400000) := by
    cases s with
    | false =>
      simp only [Bool.false_eq_true, if_false]
      exact round_quotient a M (2 ^ k) hT hT2 c1 c2
    | true =>
      simp only [if_true]
      refine round_quotient (-(a : Int)) (-(M : Int)) (2 ^ k) hT hT2 ?_ ?_
      · have : -(M : Int) * 86400000 = -((M : Int) * 86400000) := by ring
        have : -(a : Int) * 2 ^ k = -((a : Int) * 2 ^ k) := by ring
        have : ((M : Int) + 1) * 86400000 = (M : Int) * 86400000 + 86400000 := by ring
        omega
      · have : (-(M : Int) + 1) * 86400000 = -((M : Int) * 86400000) + 86400000 := by ring
        have : -(a : Int) * 2 ^ k = -((a : Int) * 2 ^ k) := by ring
        omega
  by_cases hm : M = 2 ^ 53
  · rw [if_pos hm, mathRound_fin s _ _ (by omega)]
    have e3 : (-(-(k : Int) + 1)).toNat = k - 1 := by omega
    rw [e3]
    have e4 : (2 * (if s then -((2 ^ 52 : Nat) : Int) else ((2 ^ 52 : Nat) : Int)) +
        ((2 ^ (k - 1) : Nat) : Int)) / (2 * ((2 ^ (k - 1) : Nat) : Int)) =
        (2 * (if s then -(M : Int) else (M : Int)) + 2 ^ k) / (2 * 2 ^ k) := by
      have hk1 : (2 : Int) ^ k = 2 * 2 ^ (k - 1) := by
        rw [← pow_succ']
        congr 1
        omega
      have hX : ((2 ^ (k - 1) : Nat) : Int) = (2 : Int) ^ (k - 1) := by push_cast; rfl
      have hM' : (M : Int) = 2 * 4503599627370496 := by rw [hm]; norm_num
      have hc1 : (if s then -((2 ^ 52 : Nat) : Int) else ((2 ^ 52 : Nat) : Int)) =
          (if s then -(4503599627370496 : Int) else 4503599627370496) := by
        cases s <;> norm_num
      have hc2 : (if s then -(M : Int) else (M : Int)) =
          2 * (if s then -(4503599627370496 : Int) else 4503599627370496) := by
        rw [hM']
        cases s <;> norm_num
      rw [hc1, hc2, hX, hk1]
      generalize (2 : Int) ^ (k - 1) = X
      generalize (if s then -(4503599627370496 : Int) else 4503599627370496) = c
      rw [← mul_add, Int.mul_ediv_mul_of_pos _ _ (by norm_num)]
    rw [e4, key]
  · rw [if_neg hm, mathRound_fin s _ _ (by omega)]
    rw [e1]
    have e4 : (2 * (if s then -(M : Int) else (M : Int)) + ((2 ^ k : Nat) : Int)) /
        (2 * ((2 ^ k : Nat) : Int)) =
        (2 * (if s then -(M : Int) else (M : Int)) + 2 ^ k) / (2 * 2 ^ k) := by
      push_cast
      rfl
    rw [e4, key]

end F64

/-! ## `daysBetween` against the specification -/

theorem F64.ofInt_fin (r : Int) (h0 : r ≠ 0) (h : r.natAbs < 2 ^ 53) :
    F64.ofInt r = F64.fin (decide (r < 0)) (r.natAbs * 2 ^ (53 - F64.bitLen r.natAbs))
      ((F64.bitLen r.natAbs : Int) - 53) ∧ r.natAbs * 2 ^ (53 - F64.bitLen r.natAbs) ≠ 0 := by
  have hpos : 0 < r.natAbs := Int.natAbs_pos.2 h0
  refine ⟨?_, Nat.mul_ne_zero hpos.ne' (by positivity)⟩
  unfold F64.ofInt
  exact F64.ofRat_whole _ _ hpos h

theorem F64.trunc_ofInt (r : Int) (h : r.natAbs < 2 ^ 53) : (F64.ofInt r).trunc = r := by
  unfold F64.ofInt
  rw [F64.trunc_ofRat_whole _ _ h]
  by_cases hr : r < 0
  · simp only [hr, decide_True, if_true]; omega
  · simp only [hr, decide_False, Bool.false_eq_true, if_false]; omega

theorem F64.neg_ofInt (r : Int) (h0 : r ≠ 0) (h : r.natAbs < 2 ^ 53) :
    (F64.ofInt (-r)).neg = F64.ofInt r := by
  have h1 : (-r).natAbs = r.natAbs := Int.natAbs_neg r
  have hn : (-r).natAbs < 2 ^ 53 := by rw [h1]; exact h
  rw [(F64.ofInt_fin (-r) (by omega) hn).1, (F64.ofInt_fin r h0 h).1, h1]
  unfold F64.neg
  by_cases hr : r < 0
  · have : ¬ (-r < 0) := by omega
    simp [hr, this]
  · have : -r < 0 := by omega
    simp [hr, this]

theorem roundedDays_bound (z : Int) (h : z.natAbs ≤ 2 ^ 52) :
    ((2 * z + msPerDay) / (2 * msPerDay)).natAbs < 2 ^ 53 := by
  unfold msPerDay
  omega

/-- The model of `daysBetween` computes the nearest whole number of days, a tie
going up, for instants up to `2^52` milliseconds apart. -/
theorem daysBetween_eq_roundedDays (ta tb : Int) (h : (tb - ta).natAbs ≤ 2 ^ 52) :
    daysBetween (some ta) (some tb) = roundedDays (tb - ta) := by
  unfold daysBetween
  simp only
  generalize tb - ta = z at h
  unfold F64.ofInt F64.ofNat
  rw [F64.div_whole _ _ _ (by omega) (by norm_num) (by norm_num)]
  by_cases hz : z = 0
  · subst hz
    show mathRound (F64.fin false 0 (-1074)) = _
    rw [F64.mathRound_fin _ _ _ (by norm_num)]
    have hX : (0 : Int) < ((2 ^ (-(-1074 : Int)).toNat : Nat) : Int) := by positivity
    generalize ((2 ^ (-(-1074 : Int)).toNat : Nat) : Int) = X at hX
    have e : (2 * (if false = true then -((0 : Nat) : Int) else ((0 : Nat) : Int)) + X) / (2 * X)
        = 0 := by
      simp only [Bool.false_eq_true, if_false, Nat.cast_zero, mul_zero, zero_add]
      exact Int.ediv_eq_zero_of_lt hX.le (by omega)
    rw [e, if_pos rfl]
    unfold roundedDays msPerDay
    norm_num
    rfl
  · have hpos : 0 < z.natAbs := Int.natAbs_pos.2 hz
    rw [F64.mathRound_quotient _ _ hpos h]
    have e : (if decide (z < 0) = true then -(z.natAbs : Int) else (z.natAbs : Int)) = z := by
      by_cases hneg : z < 0
      · simp only [hneg, decide_True, if_true]; omega
      · simp only [hneg, decide_False, Bool.false_eq_true, if_false]; omega
    rw [e]
    unfold roundedDays msPerDay
    simp only
    by_cases hr : (2 * z + 86400000) / (2 * 86400000) = 0
    · rw [if_pos hr, if_pos hr]
      by_cases hneg : z < 0
      · simp only [hneg, decide_True, if_true]; rfl
      · simp only [hneg, decide_False, if_false]; rfl
    · rw [if_neg hr, if_neg hr]

/-- C16, as stated, fails: half a day is rounded up in both directions, and a
millisecond is no day: from midnight to noon `daysBetween` is 1, from noon back to midnight it is `-0`
and not -1, and an instant one millisecond later gives 0, which is not positive.
Between two instants more than `2^53` milliseconds apart the difference itself is
rounded: 104250251 days and a millisecond less than a half give 104250252. -/
theorem daysBetween_half_day :
    daysBetween (some 0) (some 43200000) = F64.ofNat 1 ∧
      daysBetween (some 43200000) (some 0) = F64.negZero ∧
      daysBetween (some 0) (some 1) = F64.zero ∧
      F64.equal (daysBetween (some 0) (some 43200000))
        (F64.neg (daysBetween (some 43200000) (some 0))) = false ∧
      daysBetween (some (-4500000000000000)) (some 4507221729599999) = F64.ofNat 104250252 ∧
      (2 * (4507221729599999 - -4500000000000000) + msPerDay) / (2 * msPerDay) = 104250251 := by
  refine ⟨?_, ?_, ?_, ?_, ?_, ?_⟩ <;> decide!

/-- C16, amended: for two instants at most `2^52` milliseconds apart,
`daysBetween(a, b)` is the whole number nearest to `(b - a) / 86400000`, a tie
going up (`floor((b - a) / 86400000 + 1/2)`); it is positive exactly when `b` is
at least half a day after `a`, negative exactly when `b` is more than half a day
before `a`, and `daysBetween(a, b) = -daysBetween(b, a)` whenever `b - a` is not
an odd number of half days. -/
theorem daysBetween_spec (ta tb : Int) (h : (tb - ta).natAbs ≤ 2 ^ 52) :
    daysBetween (some ta) (some tb) = roundedDays (tb - ta) ∧
      (daysBetween (some ta) (some tb)).trunc = (2 * (tb - ta) + msPerDay) / (2 * msPerDay) ∧
      ((daysBetween (some ta) (some tb)).isPositive = true ↔ msPerDay ≤ 2 * (tb - ta)) ∧
      ((daysBetween (some ta) (some tb)).isNegative = true ↔ 2 * (tb - ta) < -msPerDay) ∧
      ((daysBetween (some ta) (some tb)).isZero = true ↔
        -msPerDay ≤ 2 * (tb - ta) ∧ 2 * (tb - ta) < msPerDay) ∧
      ((2 * (tb - ta)) % (2 * msPerDay) ≠ msPerDay →
        F64.equal (daysBetween (some ta) (some tb))
          (F64.neg (daysBetween (some tb) (some ta))) = true) := by
  have h' : (ta - tb).natAbs ≤ 2 ^ 52 := by
    have : ta - tb = -(tb - ta) := by ring
    rw [this, Int.natAbs_neg]; exact h
  rw [daysBetween_eq_roundedDays ta tb h, daysBetween_eq_roundedDays tb ta h']
  have hb := roundedDays_bound (tb - ta) h
  have hb' := roundedDays_bound (ta - tb) h'
  have hsub : ta - tb = -(tb - ta) := by ring
  rw [hsub] at hb' ⊢
  generalize tb - ta = z at h hb hb'
  have hR : ∀ y r : Int, r = (2 * y + msPerDay) / (2 * msPerDay) →
      roundedDays y = (if r = 0 then (if y < 0 then F64.negZero else F64.zero)
        else F64.ofInt r) := by
    intro y r hr
    subst hr
    rfl
  generalize hr : (2 * z + msPerDay) / (2 * msPerDay) = r at hb
  have hrz := hR z r hr.symm
  have hd : msPerDay = 86400000 := rfl
  refine ⟨rfl, ?_, ?_, ?_, ?_, ?_⟩
  · rw [hrz]
    by_cases h0 : r = 0
    · rw [if_pos h0, h0]
      split <;> simp [F64.negZero, F64.zero, F64.trunc]
    · rw [if_neg h0]
      exact F64.trunc_ofInt r hb
  · rw [hrz]
    by_cases h0 : r = 0
    · rw [if_pos h0]
      have : ¬ msPerDay ≤ 2 * z := by rw [hd] at hr ⊢; omega
      split <;> simp [F64.negZero, F64.zero, F64.isPositive, this]
    · rw [if_neg h0]
      obtain ⟨e, hm⟩ := F64.ofInt_fin r h0 hb
      rw [e]
      unfold F64.isPositive
      simp only [hm, ne_eq, not_false_eq_true, decide_True, Bool.and_true, Bool.not_eq_true',
        decide_eq_false_iff_not, not_lt]
      rw [hd] at hr ⊢
      omega
  · rw [hrz]
    by_cases h0 : r = 0
    · rw [if_pos h0]
      have : ¬ 2 * z < -msPerDay := by rw [hd] at hr ⊢; omega
      split <;> simp [F64.negZero, F64.zero, F64.isNegative, this]
    · rw [if_neg h0]
      obtain ⟨e, hm⟩ := F64.ofInt_fin r h0 hb
      rw [e]
      unfold F64.isNegative
      simp only [hm, ne_eq, not_false_eq_true, decide_True, Bool.and_true, decide_eq_true_eq]
      rw [hd] at hr ⊢
      omega
  · rw [hrz]
    by_cases h0 : r = 0
    · rw [if_pos h0]
      have : -msPerDay ≤ 2 * z ∧ 2 * z < msPerDay := by rw [hd] at hr ⊢; omega
      split <;> simp [F64.negZero, F64.zero, F64.isZero, this]
    · rw [if_neg h0]
      obtain ⟨e, hm⟩ := F64.ofInt_fin r h0 hb
      rw [e]
      unfold F64.isZero
      simp only [hm, decide_False, Bool.false_eq_true, false_iff, not_and, not_lt]
      rw [hd] at hr ⊢
      omega
  · intro htie
    have hr' : (2 * -z + msPerDay) / (2 * msPerDay) = -r := by
      rw [hd] at hr htie ⊢
      omega
    rw [hrz, hR (-z) (-r) hr'.symm]
    by_cases h0 : r = 0
    · have h0' : -r = 0 := by omega
      rw [if_pos h0, if_pos h0']
      split <;> split <;> decide
    · have h0' : ¬ -r = 0 := by omega
      rw [if_neg h0, if_neg h0', F64.neg_ofInt r h0 hb]
      apply F64.equal_self
      rw [(F64.ofInt_fin r h0 hb).1]
      simp

theorem daysBetween_spec_witness :
    daysBetween (some 1793916000000) (some 1794175200000) =
        roundedDays (1794175200000 - 1793916000000) ∧
      (daysBetween (some 1793916000000) (some 1794175200000)).trunc =
        (2 * (1794175200000 - 1793916000000) + msPerDay) / (2 * msPerDay) ∧
      ((daysBetween (some 1793916000000) (some 1794175200000)).isPositive = true ↔
        msPerDay ≤ 2 * (1794175200000 - 1793916000000)) ∧
      ((daysBetween (some 1793916000000) (some 1794175200000)).isNegative = true ↔
        2 * (1794175200000 - 1793916000000) < -msPerDay) ∧
      ((daysBetween (some 1793916000000) (some 1794175200000)).isZero = true ↔
        -msPerDay ≤ 2 * (1794175200000 - 1793916000000) ∧
          2 * (1794175200000 - 1793916000000) < msPerDay) ∧
      ((2 * (1794175200000 - 1793916000000)) % (2 * msPerDay) ≠ msPerDay →
        F64.equal (daysBetween (some 1793916000000) (some 1794175200000))
          (F64.neg (daysBetween (some 1794175200000) (some 1793916000000))) = true) :=
  daysBetween_spec 1793916000000 1794175200000 (by decide)

/-! ## Labels and days of the calendar -/

/-- The label counts days of the calendar: for a date string that writes day
`n1`, in a zone whose midnights of today and of day `n1` are valid Dates less
than half a day off the whole days between them, `getDueLabel` is the overdue
label of `n1 - today` when the day is past, the today label on the day itself,
and the normal label of `n1 - today` when the day is to come. -/
theorem getDueLabel_calendar (env : Env) (n1 : Int) (ys ms ds : JSString)
    (hw : WritesDay ys ms ds n1) (hy0 : 100 ≤ yearFromDay (localDay env))
    (hy1 : 100 ≤ yearFromDay n1) (hy2 : yearFromDay n1 ≤ 9999) (t0 t1 : Int)
    (h0 : localMidnight env.tz (localDay env) = some t0)
    (h1 : localMidnight env.tz n1 = some t1)
    (hlo : -msPerDay < 2 * (t1 - t0 - (n1 - localDay env) * msPerDay))
    (hhi : 2 * (t1 - t0 - (n1 - localDay env) * msPerDay) < msPerDay)
    (hfar : (t1 - t0).natAbs ≤ 2 ^ 52) :
    getDueLabel env (some (.str (isoDate ys ms ds))) =
      some (some (if n1 < localDay env then overdueLabel (F64.ofInt (n1 - localDay env))
        else if n1 = localDay env then todayLabel
        else normalLabel (F64.ofInt (n1 - localDay env)))) := by
  have hb := roundedDays_bound (t1 - t0) hfar
  have hd : msPerDay = 86400000 := rfl
  have hr : (2 * (t1 - t0) + msPerDay) / (2 * msPerDay) = n1 - localDay env := by
    rw [hd] at hlo hhi ⊢
    omega
  have hdiff : daysBetween (startOfToday env) (localMidnight env.tz n1) =
      roundedDays (t1 - t0) := by
    rw [startOfToday_eq env hy0, h0, h1]
    exact daysBetween_eq_roundedDays t0 t1 hfar
  have hrd : roundedDays (t1 - t0) =
      if n1 - localDay env = 0 then (if t1 - t0 < 0 then F64.negZero else F64.zero)
      else F64.ofInt (n1 - localDay env) := by
    unfold roundedDays
    simp only [hr]
  rw [hr] at hb
  unfold getDueLabel
  simp only [parseLocalDate_writesDay env.tz n1 ys ms ds hw hy1 hy2, hdiff, hrd]
  by_cases hz : n1 - localDay env = 0
  · have hne : ¬ n1 < localDay env := by omega
    have heq : n1 = localDay env := by omega
    rw [if_pos hz, if_neg hne, if_pos heq]
    split <;> rfl
  · rw [if_neg hz]
    obtain ⟨e, hm⟩ := F64.ofInt_fin (n1 - localDay env) hz hb
    by_cases hneg : n1 < localDay env
    · have h3 : n1 - localDay env < 0 := by omega
      have hn : (F64.ofInt (n1 - localDay env)).isNegative = true := by
        rw [e]
        simp [F64.isNegative, hm, h3]
      rw [if_pos hneg, hn, if_pos rfl]
    · have h3 : ¬ n1 - localDay env < 0 := by omega
      have hn : (F64.ofInt (n1 - localDay env)).isNegative = false := by
        rw [e]
        simp [F64.isNegative, h3]
      have hzr : (F64.ofInt (n1 - localDay env)).isZero = false := by
        rw [e]
        simp [F64.isZero, hm]
      have hne : ¬ n1 = localDay env := by omega
      rw [if_neg hneg, if_neg hne, hn, hzr]
      rfl

/-- On the evening of the 6th of November 2026, two hours east of Greenwich, the
9th of November is due in three days of the calendar. -/
theorem getDueLabel_calendar_sample :
    getDueLabel sampleEnv (some (.str (isoDate (utf16 "2026") (utf16 "11") (utf16 "09")))) =
      some (some (if localDay sampleEnv + 3 < localDay sampleEnv
        then overdueLabel (F64.ofInt (localDay sampleEnv + 3 - localDay sampleEnv))
        else if localDay sampleEnv + 3 = localDay sampleEnv then todayLabel
        else normalLabel (F64.ofInt (localDay sampleEnv + 3 - localDay sampleEnv)))) :=
  getDueLabel_calendar sampleEnv (localDay sampleEnv + 3) (utf16 "2026") (utf16 "11")
    (utf16 "09") (by decide) (by decide) (by decide) (by decide) 1793916000000 1794175200000
    (by decide) (by decide) (by decide) (by decide) (by decide)

end SubTrackr
